import Mathlib

/-!
# enorith/syncer: a shallow embedding

Go strings are modelled by `String` (their characters by `List Char`); every
separator and suffix the program looks for is ASCII, so splitting and suffix
tests by character agree with Go's byte-wise ones on valid UTF-8.  Go `int` and
`int64` are modelled by `Int`, with `wrap64` wherever the program computes
with them.  A Go `error` is modelled by its message; `none` is Go's `nil`.
-/

namespace Syncer

/-! ## Go runtime and standard library pieces the program calls -/

/-- Go `error`: the message; `Option Error` is an `error` value, `none` being `nil`. -/
abbrev Error := String

/-- Two's complement reduction of an integer to the range of Go's 64-bit `int`. -/
def wrap64 (x : Int) : Int := (x + 2 ^ 63) % 2 ^ 64 - 2 ^ 63

/-- Largest Go `int64`. -/
def maxInt64 : Int := 2 ^ 63 - 1

/-- Smallest Go `int64`. -/
def minInt64 : Int := -2 ^ 63

/-- Range of a Go `int` / `int64`. -/
def isInt64 (x : Int) : Prop := minInt64 ≤ x ∧ x ≤ maxInt64

instance (x : Int) : Decidable (isInt64 x) := by unfold isInt64; infer_instance

/-- Go `strings.Split(s, sep)` for a one-character separator, on characters:
the pieces between the separators, always at least one piece. -/
def splitChars (sep : Char) : List Char → List (List Char)
  | [] => [[]]
  | c :: cs =>
    if c = sep then [] :: splitChars sep cs
    else
      match splitChars sep cs with
      | [] => [[c]]
      | p :: ps => (c :: p) :: ps

/-- Go `strings.Split(s, sep)` for a one-character separator. -/
def Split (s : String) (sep : Char) : List String :=
  (splitChars sep s.data).map String.mk

/-- Go `strings.HasSuffix(s, suffix)`. -/
def HasSuffix (s suffix : String) : Bool :=
  decide (suffix.data.length ≤ s.data.length) &&
    decide (s.data.drop (s.data.length - suffix.data.length) = suffix.data)

/-- Go `unicode.IsSpace`: the white space characters `strings.TrimSpace` strips. -/
def isSpace (c : Char) : Bool :=
  let n := c.toNat
  (9 ≤ n && n ≤ 13) || n = 32 || n = 0x85 || n = 0xA0 || n = 0x1680 ||
    (0x2000 ≤ n && n ≤ 0x200A) || n = 0x2028 || n = 0x2029 || n = 0x202F ||
    n = 0x205F || n = 0x3000

/-- Go `strings.TrimSpace`. -/
def TrimSpace (s : String) : String :=
  String.mk ((s.data.dropWhile isSpace).reverse.dropWhile isSpace).reverse

/-- The `Err` field of Go's `*strconv.NumError`. -/
inductive NumError where
  | ErrSyntax
  | ErrRange
  deriving DecidableEq, Repr

/-- Largest Go `uint64`. -/
def maxUint64 : Nat := 2 ^ 64 - 1

/-- The digit loop of Go `strconv.ParseUint(s, 10, 64)`: `n` is the value read
so far.  A character that is no decimal digit ends the loop with a syntax error
and value 0; a digit that would take the value past `maxUint64` ends it at once
with a range error and value `maxUint64`, before the rest of the string is read. -/
def parseUintLoop : List Char → Nat → Nat × Option NumError
  | [], n => (n, none)
  | c :: cs, n =>
    if 48 ≤ c.toNat ∧ c.toNat ≤ 57 then
      let d := c.toNat - 48
      if maxUint64 / 10 + 1 ≤ n then (maxUint64, some .ErrRange)
      else
        let n10 := n * 10
        let n1 := (n10 + d) % 2 ^ 64
        if n1 < n10 ∨ maxUint64 < n1 then (maxUint64, some .ErrRange)
        else parseUintLoop cs n1
    else (0, some .ErrSyntax)

/-- Go `strconv.ParseUint(s, 10, 64)` on the characters of `s`. -/
def ParseUint (s : List Char) : Nat × Option NumError :=
  match s with
  | [] => (0, some .ErrSyntax)
  | _ => parseUintLoop s 0

/-- Go `strconv.ParseInt(s, 10, 64)` on the characters of `s`: an optional
sign, then `ParseUint`; a syntax error gives 0, a value out of range gives the
nearest bound together with `ErrRange`. -/
def parseIntChars (s : List Char) : Int × Option NumError :=
  match s with
  | [] => (0, some .ErrSyntax)
  | c :: cs =>
    let neg := decide (c = '-')
    let body := if c = '+' ∨ c = '-' then cs else c :: cs
    let r := ParseUint body
    if r.2 = some .ErrSyntax then (0, some .ErrSyntax)
    else if neg = false ∧ 2 ^ 63 ≤ r.1 then (2 ^ 63 - 1, some .ErrRange)
    else if neg = true ∧ 2 ^ 63 < r.1 then (-2 ^ 63, some .ErrRange)
    else (if neg then -(r.1 : Int) else (r.1 : Int), none)

/-- Go `strconv.ParseInt(s, 10, 64)`. -/
def ParseInt (s : String) : Int × Option NumError := parseIntChars s.data

/-- Go `strconv.Atoi(s)` on a 64-bit platform: `ParseInt(s, 10, 0)` converted to `int`. -/
def Atoi (s : String) : Int × Option NumError := ParseInt s

/-! ### float64 -/

/-- Number of binary digits of `n`, by halving; `fuel` bounds the halvings. -/
def bitLenAux : Nat → Nat → Nat
  | 0, _ => 0
  | fuel + 1, n => if n = 0 then 0 else bitLenAux fuel (n / 2) + 1

/-- Number of binary digits of `n` (0 for 0). -/
def bitLen (n : Nat) : Nat := bitLenAux n n

/-- The integer nearest to `n / d`, a tie going to the even one
(IEEE 754 round-to-nearest-even, Go's rounding mode). -/
def roundNearestEven (n d : Nat) : Nat :=
  let q := n / d
  let r := n % d
  if 2 * r < d then q
  else if d < 2 * r then q + 1
  else if q % 2 = 0 then q else q + 1

/-- Numerator of `n / d * 2 ^ s`. -/
def scaleNum (n : Nat) (s : Int) : Nat := if 0 ≤ s then n * 2 ^ s.toNat else n

/-- Denominator of `n / d * 2 ^ s`. -/
def scaleDen (d : Nat) (s : Int) : Nat := if 0 ≤ s then d else d * 2 ^ (-s).toNat

/-- The float64 nearest to the positive rational `n / d`, as `(m, e)` standing
for `m * 2 ^ e`: the quotient is scaled by the power of two `2 ^ s` that puts it
in `[2 ^ 52, 2 ^ 53)`, rounded there to an integer (53 significant bits) and
scaled back.  Exact for every quotient in float64's normal range, which holds
all quotients of two non-zero 64-bit integers. -/
def roundPos (n d : Nat) : Nat × Int :=
  let s0 : Int := 52 - ((bitLen n : Int) - (bitLen d : Int))
  let s : Int := if scaleNum n s0 < 2 ^ 52 * scaleDen d s0 then s0 + 1 else s0
  (roundNearestEven (scaleNum n s) (scaleDen d s), -s)

/-- A Go `float64`: `finite m e` is the value `m * 2 ^ e`. -/
inductive Float64 where
  | finite (m : Int) (e : Int)
  | inf (neg : Bool)
  | nan
  deriving DecidableEq, Repr

/-- Go conversion `float64(i)` of a 64-bit integer. -/
def float64 (i : Int) : Float64 :=
  if i = 0 then .finite 0 0
  else
    let r := roundPos i.natAbs 1
    .finite (i.sign * r.1) r.2

/-- Go `x / y` on `float64`, for finite operands whose quotient is in the
normal range (such as two converted 64-bit integers); division by zero gives
an infinity, `0 / 0` a NaN. -/
def Float64.div : Float64 → Float64 → Float64
  | .finite m1 e1, .finite m2 e2 =>
    if m2 = 0 then (if m1 = 0 then .nan else .inf (decide (m1 < 0)))
    else if m1 = 0 then .finite 0 0
    else
      let r := roundPos m1.natAbs m2.natAbs
      .finite (m1.sign * m2.sign * r.1) (r.2 + e1 - e2)
  | _, _ => .nan

/-- Go `math.Ceil`. -/
def Ceil : Float64 → Float64
  | .finite m e =>
    if 0 ≤ e then .finite (m * 2 ^ e.toNat) 0
    else .finite (-((-m) / 2 ^ (-e).toNat)) 0
  | x => x

/-- Go `math.Floor`. -/
def Floor : Float64 → Float64
  | .finite m e =>
    if 0 ≤ e then .finite (m * 2 ^ e.toNat) 0
    else .finite (m / 2 ^ (-e).toNat) 0
  | x => x

/-- Go conversion `int(x)` / `int64(x)` of a `float64`: the value truncated
toward zero when that is a 64-bit integer; otherwise (too large, infinite, NaN)
the language leaves the result to the platform, here `implDefined`. -/
def floatToInt (implDefined : Int) : Float64 → Int
  | .finite m e =>
    let v : Int := if 0 ≤ e then m * 2 ^ e.toNat else Int.tdiv m (2 ^ (-e).toNat)
    if minInt64 ≤ v ∧ v ≤ maxInt64 then v else implDefined
  | _ => implDefined

/-! ## resolver.go -/

/-- A dynamically typed Go value (`any`) as it flows through a row. `int` is an
`int64`, `float` a `float64`; `other` stands for a value of any further type. -/
inductive Value where
  | null
  | str (s : String)
  | int (i : Int)
  | float (f : Float64)
  | bool (b : Bool)
  | other (tag : Nat)
  deriving DecidableEq, Repr

/-- A Go `map[string]any`: `none` for a key the map does not hold. -/
abbrev Row := String → Option Value

/-- The map with no key. -/
def Row.empty : Row := fun _ => none

/-- Go `m[k]` read: the zero value `nil` for an absent key. -/
def Row.get (m : Row) (k : String) : Value := (m k).getD Value.null

/-- Go `m[k] = v`. -/
def Row.set (m : Row) (k : String) (v : Value) : Row :=
  fun k' => if k' = k then some v else m k'

/-- Go `type Resolver func(value interface{}, item map[string]interface{}, args ...string) interface{}`. -/
abbrev Resolver := Value → Row → List String → Value

/-- The package variable `valueResolvers`, a `map[string]Resolver`. -/
abbrev Registry := String → Option Resolver

/-- Go `RegisterValueResolver`. -/
def RegisterValueResolver (valueResolvers : Registry) (name : String) (resolver : Resolver) :
    Registry :=
  fun n => if n = name then some resolver else valueResolvers n

/-- Go `ResolveValue`. -/
def ResolveValue (valueResolvers : Registry) (value : Value) (item : Row) (resolver : String)
    (args : List String) : Value :=
  match valueResolvers resolver with
  | some r => r value item args
  | none => value

/-- Go `trimResolver`. -/
def trimResolver : Resolver := fun value _item _args =>
  match value with
  | .str s => .str (TrimSpace s)
  | v => v

/-- Go `intResolver`; `implDefined` is what the platform gives for `int64(x)`
of a float64 outside the int64 range. -/
def intResolver (implDefined : Int) : Resolver := fun value _item _args =>
  match value with
  | .str s => .int (ParseInt s).1
  | .float fl => .int (floatToInt implDefined (Floor fl))
  | v => v

/-- The registry after the package's `init()`. -/
def initResolvers (implDefined : Int) : Registry :=
  RegisterValueResolver (RegisterValueResolver (fun _ => none) "trim" trimResolver)
    "int" (intResolver implDefined)

/-! ## utils.go -/

/-- Go `EndWith`: the first of `suffix` that `haystack` ends with. -/
def EndWith (haystack : String) (suffix : List String) : Bool × String :=
  match suffix with
  | [] => (false, "")
  | s :: rest => if HasSuffix haystack s then (true, s) else EndWith haystack rest

/-! ## ds/datasource.go -/

/-- Go `ds.ListMeta`. -/
structure ListMeta where
  Total : Int
  deriving DecidableEq, Repr

/-- Go `ds.ListFilter`. -/
structure ListFilter where
  Field : String
  Op : String
  Value : Value
  deriving DecidableEq, Repr

/-- Go `ds.ListOrder`. -/
structure ListOrder where
  Field : String
  Order : String
  deriving DecidableEq, Repr

/-- Go `ds.ListOption`. -/
structure ListOption where
  Limit : Int
  Page : Int
  WithoutMeta : Bool
  Selects : List String
  Filters : List ListFilter
  Orders : List ListOrder
  deriving DecidableEq, Repr

/-- Go `ds.ListResult`; an element of `Data` is `some m` when its dynamic type
is `map[string]any` and `none` when it is of any other type. -/
structure ListResult where
  Meta : ListMeta
  Data : List (Option Row)

/-! ## syncer.go: types -/

/-- Go `TargetConfig`: the raw JSON a target decodes for itself. -/
structure TargetConfig where
  rawData : String
  deriving DecidableEq, Repr

/-- Go `SyncerTask`. `Mapping` lists the entries of the Go map in the order the
`range` loop visits them (any order; the keys are distinct). -/
structure SyncerTask where
  ID : String
  Source : String
  Mapping : List (String × String)
  Filters : List ListFilter
  Orders : List ListOrder
  Target : String
  TargetConfig : TargetConfig
  Size : Int
  Workers : Int
  StopOnError : Bool
  At : String
  Immediately : Bool
  Interval : String
  deriving DecidableEq, Repr

/-- Go constant `SyncStatusPending`. -/
def SyncStatusPending : Nat := 1

/-- Go constant `SyncStatusRunning`. -/
def SyncStatusRunning : Nat := 2

/-- Go constant `SyncStatusSuccess`. -/
def SyncStatusSuccess : Nat := 3

/-- Go constant `SyncStatusFailed`. -/
def SyncStatusFailed : Nat := 4

/-- Go `SyncMeta`; the zero value of `Status` is 0. -/
structure SyncMeta where
  Version : Int
  Total : Int
  Status : Nat
  Error : Option Error
  deriving DecidableEq, Repr

/-! ## syncer.go: the field mapping loop of `syncFunc` (lines 161-188) -/

/-- Lines 173-180: one resolver stage `name[:args]` applied to `value`. The
stage is split at `:`; with more than one piece the second is split at `,` into
the arguments and the first is the name, otherwise the whole stage is the name
and there are no arguments. -/
def applyResolver (valueResolvers : Registry) (m : Row) (value : Value) (resolver : String) :
    Value :=
  match Split resolver ':' with
  | name :: paramStr :: _ => ResolveValue valueResolvers value m name (Split paramStr ',')
  | _ => ResolveValue valueResolvers value m resolver []

/-- Lines 168-184, one turn of the loop over `parts`: the group is split at
`|`, the stages after the first token are applied to the running `value`, and
the result is stored under the first token `pk`. The running value is carried
to the next group. -/
def applyPart (valueResolvers : Registry) (m : Row) (st : Row × Value) (part : String) :
    Row × Value :=
  let resolvers := Split part '|'
  let pk := resolvers.headD ""
  let value := resolvers.tail.foldl (applyResolver valueResolvers m) st.2
  (st.1.set pk value, value)

/-- Lines 165-185, one turn of the loop over `task.Mapping`: `k` is the map
key, `v` the mapping expression. -/
def applyEntry (valueResolvers : Registry) (m : Row) (item : Row) (kv : String × String) : Row :=
  let parts := Split kv.2 ';'
  let value := m.get kv.1
  (parts.foldl (applyPart valueResolvers m) (item, value)).1

/-- Lines 164-185: the `item` built for one source row `m`. -/
def mapItem (valueResolvers : Registry) (mapping : List (String × String)) (m : Row) : Row :=
  mapping.foldl (applyEntry valueResolvers m) Row.empty

/-- Lines 161-188: `syncData`, one mapped item per element of the page that is a map. -/
def mapData (valueResolvers : Registry) (mapping : List (String × String))
    (data : List (Option Row)) : List Row :=
  data.filterMap (fun dsItem => dsItem.map (mapItem valueResolvers mapping))

/-! ## The scheduling primitive: `time.ParseDuration` and gocron -/

/-- Go `x * y` on `float64`, for finite operands whose product is in the
normal range. -/
def Float64.mul : Float64 → Float64 → Float64
  | .finite m1 e1, .finite m2 e2 =>
    if m1 = 0 ∨ m2 = 0 then .finite 0 0
    else
      let r := roundPos (m1.natAbs * m2.natAbs) 1
      .finite (m1.sign * m2.sign * r.1) (r.2 + e1 + e2)
  | _, _ => .nan

/-- The ways Go `time.ParseDuration` fails: `time: invalid duration`,
`time: missing unit in duration`, `time: unknown unit` with the unit. -/
inductive DurationError where
  | invalid
  | missingUnit
  | unknownUnit (u : String)
  deriving DecidableEq, Repr

/-- A decimal digit, `'0' <= c && c <= '9'`. -/
def isDecimal (c : Char) : Bool := decide (48 ≤ c.toNat) && decide (c.toNat ≤ 57)

/-- Go `time.leadingInt`: the leading digits of `s` as an integer `x`, and the
rest; `none` is `errLeadingInt`, the value passing `1 << 63`. -/
def leadingInt : List Char → Nat → Option (Nat × List Char)
  | [], x => some (x, [])
  | c :: cs, x =>
    if isDecimal c then
      if 2 ^ 63 / 10 < x then none
      else
        let x1 := x * 10 + (c.toNat - 48)
        if 2 ^ 63 < x1 then none else leadingInt cs x1
    else some (x, c :: cs)

/-- Go `time.leadingFraction`: the leading digits of `s` as an integer `x` with
the power of ten `scale` that makes `x / scale` the fraction, and the rest.
Digits past the capacity of `x` are skipped (`overflow`). -/
def leadingFraction : List Char → Nat → Float64 → Bool → Nat × Float64 × List Char
  | [], x, scale, _ => (x, scale, [])
  | c :: cs, x, scale, overflow =>
    if isDecimal c then
      if overflow then leadingFraction cs x scale true
      else if (2 ^ 63 - 1) / 10 < x then leadingFraction cs x scale true
      else
        let y := x * 10 + (c.toNat - 48)
        if 2 ^ 63 < y then leadingFraction cs x scale true
        else leadingFraction cs y (scale.mul (float64 10)) false
    else (x, scale, c :: cs)

/-- Go `time.unitMap`, nanoseconds per unit; the micro sign and the Greek mu
both spell microseconds. -/
def unitMap (u : String) : Option Nat :=
  if u = "ns" then some 1
  else if u = "us" then some 1000
  else if u = "µs" then some 1000
  else if u = "μs" then some 1000
  else if u = "ms" then some 1000000
  else if u = "s" then some 1000000000
  else if u = "m" then some 60000000000
  else if u = "h" then some 3600000000000
  else none

/-- A character of a unit: anything but `.` and the digits. -/
def isUnitChar (c : Char) : Bool := !(decide (c = '.') || isDecimal c)

/-- How one pass of the loop of `time.ParseDuration` ends: with an error, or
with the rest of the string and the nanoseconds read so far. -/
inductive DurationPass where
  | failed (e : DurationError)
  | next (rest : List Char) (d : Nat)
  deriving DecidableEq, Repr

/-- The part `(\.[0-9]*)?` of a pass of `time.ParseDuration` on `s`, what is
left after the leading integer: the fraction digits `f` and their `scale`, the
rest of the string, and whether a digit was read (`post`). -/
def fractionPart (s : List Char) : Nat × Float64 × List Char × Bool :=
  match s with
  | c1 :: t =>
    if c1 = '.' then
      let r := leadingFraction t 0 (float64 1) false
      (r.1, r.2.1, r.2.2, decide (t.length ≠ r.2.2.length))
    else (0, float64 1, s, false)
  | [] => (0, float64 1, s, false)

/-- One pass of the loop `for s != ""` of Go `time.ParseDuration` on the
non-empty string `c :: cs`: it reads one `[0-9]*(\.[0-9]*)?[a-z]+` and adds its
nanoseconds to `d` (a `uint64`). -/
def durationPass (c : Char) (cs : List Char) (d : Nat) : DurationPass :=
  if !(decide (c = '.') || isDecimal c) then .failed .invalid
  else
    match leadingInt (c :: cs) 0 with
    | none => .failed .invalid
    | some (v, s1) =>
      let pre := decide ((c :: cs).length ≠ s1.length)
      let fr := fractionPart s1
      if !pre && !fr.2.2.2 then .failed .invalid
      else
        let u := fr.2.2.1.takeWhile isUnitChar
        let s3 := fr.2.2.1.dropWhile isUnitChar
        if u = [] then .failed .missingUnit
        else
          match unitMap (String.mk u) with
          | none => .failed (.unknownUnit (String.mk u))
          | some unit =>
            if 2 ^ 63 / unit < v then .failed .invalid
            else
              let v1 := v * unit
              let v2 :=
                if 0 < fr.1 then
                  v1 + (floatToInt 0
                    ((float64 fr.1).mul ((float64 unit).div fr.2.1))).toNat
                else v1
              if 0 < fr.1 ∧ 2 ^ 63 < v2 then .failed .invalid
              else
                let d1 := (d + v2) % 2 ^ 64
                if 2 ^ 63 < d1 then .failed .invalid
                else .next s3 d1

/-- The loop `for s != ""` of Go `time.ParseDuration`. A pass consumes at least
one character, so `fuel` passes do for a string of `fuel` characters. -/
def parseDurationLoop : Nat → List Char → Nat → Nat × Option DurationError
  | _, [], d => (d, none)
  | 0, _ :: _, _ => (0, some .invalid)
  | fuel + 1, c :: cs, d =>
    match durationPass c cs d with
    | .failed e => (0, some e)
    | .next rest d1 => parseDurationLoop fuel rest d1

/-- Go `time.ParseDuration`: the duration in nanoseconds that the string
`[-+]?([0-9]*(\.[0-9]*)?[a-z]+)+` spells, and the error; the duration is 0
with an error. -/
def ParseDuration (s : String) : Int × Option DurationError :=
  let neg : Bool :=
    match s.data with
    | c :: _ => decide (c = '-')
    | [] => false
  let body : List Char :=
    match s.data with
    | c :: cs => if c = '-' ∨ c = '+' then cs else c :: cs
    | [] => []
  if body = ['0'] then (0, none)
  else if body = [] then (0, some .invalid)
  else
    let r := parseDurationLoop body.length body 0
    match r.2 with
    | some e => (0, some e)
    | none =>
      if neg then (-(r.1 : Int), none)
      else if 2 ^ 63 - 1 < r.1 then (0, some .invalid)
      else ((r.1 : Int), none)

/-- The gocron `schedulingUnit` values a job of `Schedule` can have: `seconds`
(a new job's), `days`, `duration`. -/
inductive SchedulingUnit where
  | seconds
  | days
  | duration
  deriving DecidableEq, Repr

/-- The errors gocron records in a job while it is built. -/
inductive JobError where
  | ErrInvalidInterval
  | ErrInvalidIntervalUnitsSelection
  | parse (e : DurationError)
  deriving DecidableEq, Repr

/-- A gocron `Job`, by the fields `Every`, `Day`, `Tag` and `Do` read and
write: the count `interval`, the `duration` in nanoseconds, the unit, the tags,
and the errors recorded so far (`job.error`, none when empty). -/
structure Job where
  interval : Int
  duration : Int
  unit : SchedulingUnit
  tags : List String
  error : List JobError
  deriving DecidableEq, Repr

/-- The argument of gocron `Every`, an `interface{}`, by its dynamic type. -/
inductive Interval where
  | int (n : Int)
  | string (s : String)
  deriving DecidableEq, Repr

/-- gocron `Scheduler.Every(interval)`: the new job. A count must be above 0;
a string is read with `time.ParseDuration` and must give a duration above 0. -/
def Every (interval : Interval) : Job :=
  match interval with
  | .int n =>
    { interval := n, duration := 0, unit := .seconds, tags := [],
      error := if n ≤ 0 then [JobError.ErrInvalidInterval] else [] }
  | .string s =>
    let r := ParseDuration s
    let e1 : List JobError :=
      match r.2 with
      | some e => [JobError.parse e]
      | none => []
    { interval := 0, duration := r.1, unit := .duration, tags := [],
      error := if r.1 ≤ 0 then JobError.ErrInvalidInterval :: e1 else e1 }

/-- gocron `Scheduler.Day()`: the job's unit becomes days, unless the job is a
duration job. -/
def Job.Day (job : Job) : Job :=
  if job.unit = .duration then
    { job with error := JobError.ErrInvalidIntervalUnitsSelection :: job.error }
  else { job with unit := .days }

/-- gocron `Scheduler.Tag(t)`, on a scheduler that does not ask for unique tags. -/
def Job.Tag (job : Job) (t : String) : Job := { job with tags := job.tags ++ [t] }

/-- gocron `Scheduler.Do(jobFun)` for a function without parameters: a job
that carries an error, or that has the count 0 without being a duration job,
is removed from the scheduler and the error returned; otherwise the job stays
registered. The result is the list of jobs the call leaves registered, and
`Schedule` drops the error. -/
def Do (job : Job) : List Job :=
  let job1 : Job :=
    if job.unit ≠ .duration ∧ job.interval = 0 then
      { job with error := JobError.ErrInvalidInterval :: job.error }
    else job
  if job1.error ≠ [] then [] else [job1]

/-! ## syncer.go: `Schedule` -/

/-- Lines 79-94: the body of the loop of `Schedule` for one task, as the jobs
it leaves registered with the scheduler. `task.At` is not read. -/
def scheduleTask (task : SyncerTask) : List Job :=
  if task.Interval ≠ "" then
    let r := EndWith task.Interval ["d", "day", "days"]
    if r.1 then
      let i := String.mk (task.Interval.data.take (task.Interval.data.length - r.2.data.length))
      let a := Atoi i
      if a.2 = none then Do (((Every (.int a.1)).Day).Tag ("syncer:" ++ task.ID)) else []
    else Do ((Every (.string task.Interval)).Tag ("syncer:" ++ task.ID))
  else []

/-- Go `Syncer.Schedule`: the jobs it leaves registered with the scheduler,
`tasks` being the values of `s.tasks` in the order the `range` loop visits
them. -/
def Schedule (tasks : List SyncerTask) : List Job :=
  tasks.foldl (fun sch task => sch ++ scheduleTask task) []

/-! ## target.go: `DBTarget` -/

/-- Go `DBTargetConfig`, the value `conf.Unmarshal(&config)` decodes. -/
structure DBTargetConfig where
  Table : String
  Uniques : List String
  Updates : List String
  VersionField : String
  SyncTimeField : String
  SyncTimeFmt : String
  SyncStatusField : String
  MaxVersion : Int
  deriving DecidableEq, Repr

/-- The rows of the database table `config.Table`, each a map from column to value. -/
abbrev Table := List Row

/-- The integer a row holds in column `field`; `none` for SQL NULL (or a
missing column), on which every SQL comparison is unknown. -/
def intColumn (field : String) (r : Row) : Option Int :=
  match r field with
  | some (.int v) => some v
  | _ => none

/-- SQL `MAX` of a list of non-NULL values: NULL (`none`) for no value. -/
def sqlMax : List Int → Option Int
  | [] => none
  | v :: vs =>
    match sqlMax vs with
    | none => some v
    | some a => some (max v a)

/-- SQL `SELECT MAX(field) FROM table`. -/
def selectMax (field : String) (table : Table) : Option Int :=
  sqlMax (table.filterMap (intColumn field))

/-- SQL `field < bound` on a row: false on NULL. -/
def columnLt (field : String) (bound : Int) (r : Row) : Bool :=
  match intColumn field r with
  | some v => decide (v < bound)
  | none => false

/-- SQL `field > bound` on a row: false on NULL. -/
def columnGt (field : String) (bound : Int) (r : Row) : Bool :=
  match intColumn field r with
  | some v => decide (bound < v)
  | none => false

/-- Go `DBTarget.BeforeSync`. `dbErr` is the failure of the query itself, if
any. `Scan(&version)` stores the maximum in `version`; on a NULL maximum (no
row holds a version) it leaves `version` at 0 and reports its conversion error.
`meta.Version` is assigned in every case. The table is not written. -/
def DBTarget.BeforeSync (config : DBTargetConfig) (syncMeta : SyncMeta) (table : Table)
    (dbErr : Option Error) : SyncMeta × Option Error :=
  if config.VersionField ≠ "" then
    let scanned : Int × Option Error :=
      match dbErr with
      | some e => (0, some e)
      | none =>
        match selectMax config.VersionField table with
        | some v => (v, none)
        | none => (0, some "converting NULL to int is unsupported")
    ({ syncMeta with Version := wrap64 (scanned.1 + 1) }, scanned.2)
  else (syncMeta, none)

/-- Lines 143-151 of `DBTarget.AfterSync`: `UPDATE table SET status = 0 WHERE
version < meta.Version`; a failing statement (`updErr`) changes nothing. -/
def markInactive (config : DBTargetConfig) (syncMeta : SyncMeta) (table : Table)
    (updErr : Option Error) : Table × Option Error :=
  if config.SyncStatusField ≠ "" ∧ config.VersionField ≠ "" then
    match updErr with
    | some e => (table, some e)
    | none =>
      (table.map (fun r =>
        if columnLt config.VersionField syncMeta.Version r
        then r.set config.SyncStatusField (.int 0) else r), none)
  else (table, none)

/-- Lines 153-162 of `DBTarget.AfterSync`: `DELETE FROM table WHERE version <
meta.Version - MaxVersion AND version > 0`; a failing statement (`delErr`)
changes nothing. -/
def deleteOld (config : DBTargetConfig) (syncMeta : SyncMeta) (table : Table)
    (delErr : Option Error) : Table × Option Error :=
  if config.VersionField ≠ "" ∧ 0 < config.MaxVersion then
    match delErr with
    | some e => (table, some e)
    | none =>
      (table.filter (fun r =>
        !(columnLt config.VersionField (wrap64 (syncMeta.Version - config.MaxVersion)) r
          && columnGt config.VersionField 0 r)), none)
  else (table, none)

/-- Go `DBTarget.AfterSync`: the table afterwards and the returned error. -/
def DBTarget.AfterSync (config : DBTargetConfig) (syncMeta : SyncMeta) (table : Table)
    (updErr delErr : Option Error) : Table × Option Error :=
  let r1 := markInactive config syncMeta table updErr
  match r1.2 with
  | some e => (r1.1, some e)
  | none => deleteOld config syncMeta r1.1 delErr

/-! ## syncer.go: `SyncTask`

The datasource and the target are Go interfaces; everything they read and write
(the source and target stores) is the world state `σ`, which their operations
take and give back. -/

/-- Go `ds.Datasource`, the two operations `SyncTask` calls. -/
structure Datasource (σ : Type) where
  ListMeta : σ → List ListFilter → σ × ListMeta × Option Error
  List : σ → ListOption → σ × ListResult × Option Error

/-- Go `Target`. `BeforeSync` assigns fields of the meta it is handed (its
version); the other two operations read it. -/
structure Target (σ : Type) where
  SyncFrom : σ → TargetConfig → List Row → SyncMeta → σ × Option Error
  BeforeSync : σ → TargetConfig → SyncMeta → σ × SyncMeta × Option Error
  AfterSync : σ → TargetConfig → SyncMeta → σ × Option Error

/-- The package-level state `SyncTask` reads: the datasource registry behind
`ds.Connect`, the target registry behind `GetTarget`, the resolver registry,
and the platform's result for an out-of-range float to int conversion. -/
structure Env (σ : Type) where
  Connect : String → Except Error (Datasource σ)
  GetTarget : String → Option (Target σ)
  valueResolvers : Registry
  implDefined : Int

/-- Line 126: `maxPage := int(math.Ceil(float64(meta.Total) / float64(task.Size)))`. -/
def maxPage (implDefined : Int) (total size : Int) : Int :=
  floatToInt implDefined (Ceil ((float64 total).div (float64 size)))

/-- Lines 201-209: the page indices the loop `for page := 1; page <= maxPage; page++`
submits, in order, for a `maxPage` below the largest integer (the counter does
not wrap). -/
def submittedPages (maxPage : Int) : List Int :=
  (List.range maxPage.toNat).map (fun i : Nat => Int.ofNat i + 1)

/-- What the page phase of one `SyncTask` call has captured: the task, the
connected datasource, the target, `meta.Total` and `maxPage`. -/
structure Ctx (σ : Type) where
  task : SyncerTask
  valueResolvers : Registry
  dataSource : Datasource σ
  target : Target σ
  total : Int
  maxPage : Int

/-- Lines 144-194: `syncFunc(page)`, run against the world `w`. -/
def syncFunc {σ : Type} (c : Ctx σ) (syncMeta : SyncMeta) (w : σ) (page : Int) :
    σ × Option Error :=
  let r := c.dataSource.List w
    { Page := page, WithoutMeta := true, Filters := c.task.Filters, Orders := c.task.Orders,
      Limit := c.task.Size, Selects := [] }
  match r.2.2 with
  | some e => (r.1, some e)
  | none =>
    if r.2.1.Data.length = 0 then (r.1, none)
    else
      c.target.SyncFrom r.1 c.task.TargetConfig
        (mapData c.valueResolvers c.task.Mapping r.2.1.Data) syncMeta

/-- `pond.New(task.Workers, 1000)`: the pool runs at most `maxWorkers` jobs at a
time, and a `maxWorkers` below 1 is raised to 1. -/
def poolWorkers (workers : Int) : Nat := if workers ≤ 0 then 1 else workers.toNat

/-- `pond.New(task.Workers, 1000)`: the capacity of the pool's buffered task
channel; `Submit` blocks while the channel is full and no worker can be started. -/
def poolCapacity : Nat := 1000

/-- Where the goroutine running `SyncTask` stands. -/
inductive PC where
  | submitting (page : Int)
  | selecting
  | afterSync
  | returned (n : Int) (e : Option Error)
  deriving DecidableEq, Repr

/-- State of the page phase (lines 196-229). `queue` is the pool's buffered
task channel, `running` the pages whose job is executing `syncFunc` on a worker,
`sending` the jobs blocked in `errChan <- e` (the channel is unbuffered) with
the error they hold. `results` logs every finished `syncFunc` call and
`afterSyncLog` every `target.AfterSync` call with the meta it saw and the error
it returned. -/
structure RunState (σ : Type) where
  world : σ
  syncMeta : SyncMeta
  pc : PC
  queue : List Int
  running : List Int
  sending : List (Int × Error)
  results : List (Int × Option Error)
  afterSyncLog : List (SyncMeta × Option Error)

/-- The atomic actions of the goroutines of the page phase.
* `submitStart`: line 203, `pool.Submit` starts a worker on the job;
* `submitQueue`: line 203, `pool.Submit` puts the job in the task channel;
* `leaveLoop`: the loop of line 201 ends, line 211 starts the goroutine that
  waits for the pool, and `SyncTask` reaches the `select` of line 216;
* `take`: a worker without a job takes the oldest job of the task channel;
* `finish i`: the `i`-th running job completes `syncFunc` (line 204) and, on an
  error under `StopOnError`, starts to send it (line 206);
* `recvErr i`: the `select` receives from `errChan` the error the `i`-th
  blocked job sends (lines 219-221), which lets that job end;
* `recvExit`: `pool.StopAndWait()` has returned, every job being done, and the
  `select` receives from `exit` (lines 217-218);
* `afterSync`: lines 224-229. -/
inductive Event where
  | submitStart
  | submitQueue
  | leaveLoop
  | take
  | finish (i : Nat)
  | recvErr (i : Nat)
  | recvExit
  | afterSync
  deriving DecidableEq, Repr

/-- One action on the state of the page phase; `none` when the action is not
enabled (the goroutine that would take it is elsewhere, or blocked). -/
def step {σ : Type} (c : Ctx σ) (s : RunState σ) : Event → Option (RunState σ)
  | .submitStart =>
    match s.pc with
    | .submitting page =>
      if page ≤ c.maxPage ∧ s.running.length + s.sending.length < poolWorkers c.task.Workers then
        some { s with running := s.running ++ [page], pc := .submitting (wrap64 (page + 1)) }
      else none
    | _ => none
  | .submitQueue =>
    match s.pc with
    | .submitting page =>
      if page ≤ c.maxPage ∧ s.queue.length < poolCapacity then
        some { s with queue := s.queue ++ [page], pc := .submitting (wrap64 (page + 1)) }
      else none
    | _ => none
  | .leaveLoop =>
    match s.pc with
    | .submitting page => if page ≤ c.maxPage then none else some { s with pc := .selecting }
    | _ => none
  | .take =>
    match s.queue with
    | page :: rest =>
      if s.running.length + s.sending.length < poolWorkers c.task.Workers then
        some { s with queue := rest, running := s.running ++ [page] }
      else none
    | [] => none
  | .finish i =>
    match s.running[i]? with
    | some page =>
      let r := syncFunc c s.syncMeta s.world page
      let s1 : RunState σ :=
        { s with world := r.1, running := s.running.eraseIdx i,
                 results := s.results ++ [(page, r.2)] }
      match r.2 with
      | some e =>
        if c.task.StopOnError then some { s1 with sending := s1.sending ++ [(page, e)] }
        else some s1
      | none => some s1
    | none => none
  | .recvErr i =>
    match s.pc, s.sending[i]? with
    | .selecting, some (_, err) =>
      some { s with syncMeta := { s.syncMeta with Status := SyncStatusFailed, Error := some err },
                    sending := s.sending.eraseIdx i, pc := .afterSync }
    | _, _ => none
  | .recvExit =>
    match s.pc with
    | .selecting =>
      if s.queue = [] ∧ s.running = [] ∧ s.sending = [] then
        some { s with syncMeta := { s.syncMeta with Status := SyncStatusSuccess }, pc := .afterSync }
      else none
    | _ => none
  | .afterSync =>
    match s.pc with
    | .afterSync =>
      let r := c.target.AfterSync s.world c.task.TargetConfig s.syncMeta
      some { s with world := r.1, afterSyncLog := s.afterSyncLog ++ [(s.syncMeta, r.2)],
                    pc := .returned c.total (match r.2 with
                                             | some e => some e
                                             | none => s.syncMeta.Error) }
    | _ => none

/-- A schedule of actions taken one after the other; `none` as soon as one is not enabled. -/
def run {σ : Type} (c : Ctx σ) : RunState σ → List Event → Option (RunState σ)
  | s, [] => some s
  | s, ev :: evs =>
    match step c s ev with
    | some s1 => run c s1 evs
    | none => none

/-- How `SyncTask` leaves lines 108-142: it has returned `(n, e)`, or it enters
the page phase. -/
inductive Started (σ : Type) where
  | done (w : σ) (n : Int) (e : Option Error)
  | pagePhase (c : Ctx σ) (s : RunState σ)

/-- The state in which the page phase starts (line 196). -/
def initState {σ : Type} (w : σ) (syncMeta : SyncMeta) : RunState σ :=
  { world := w, syncMeta := syncMeta, pc := .submitting 1, queue := [], running := [],
    sending := [], results := [], afterSyncLog := [] }

/-- Lines 108-142 of `SyncTask`. -/
def SyncTask.start {σ : Type} (env : Env σ) (w : σ) (task : SyncerTask) : Started σ :=
  match env.Connect task.Source with
  | .error e => .done w 0 (some e)
  | .ok dataSource =>
    let r := dataSource.ListMeta w task.Filters
    match r.2.2 with
    | some e => .done r.1 0 (some e)
    | none =>
      if r.2.1.Total = 0 then .done r.1 0 none
      else
        match env.GetTarget task.Target with
        | none => .done r.1 0 (some ("[syncer] target not found: " ++ task.Target))
        | some target =>
          let syncMeta : SyncMeta :=
            { Version := 0, Total := r.2.1.Total, Status := SyncStatusPending, Error := none }
          let b := target.BeforeSync r.1 task.TargetConfig syncMeta
          match b.2.2 with
          | some e => .done b.1 r.2.1.Total (some e)
          | none =>
            .pagePhase
              { task := task, valueResolvers := env.valueResolvers, dataSource := dataSource,
                target := target, total := r.2.1.Total,
                maxPage := maxPage env.implDefined r.2.1.Total task.Size }
              (initState b.1 b.2.1)

/-- Go `Syncer.SyncTask` under a schedule of the page phase: what it returns,
`none` while it has not returned. -/
def SyncTask {σ : Type} (env : Env σ) (w : σ) (task : SyncerTask) (schedule : List Event) :
    Option (Int × Option Error) :=
  match SyncTask.start env w task with
  | .done _ n e => some (n, e)
  | .pagePhase c s =>
    match run c s schedule with
    | some s1 =>
      match s1.pc with
      | .returned n e => some (n, e)
      | _ => none
    | none => none

end Syncer
namespace Syncer

/-! ## target.go: `DBTarget.SyncFrom` -/

/-- The package variable `DefaultTimeFormat`. -/
def DefaultTimeFormat : String := "2006-01-02 15:04:05"

/-- Go `dbutil.UpsertOpt`, by the constructor that made it:
`dbutil.UpsertOptColumns(columns...)` names the conflict columns,
`dbutil.UpsertOptUpdateColumns(columns...)` the columns updated on conflict. -/
inductive UpsertOpt where
  | Columns (columns : List String)
  | UpdateColumns (columns : List String)
  deriving DecidableEq, Repr

/-- The statement of line 117,
`tx.Table(config.Table).Scopes(dbutil.WithUpsert(opts...)).Create(data)`:
the table it writes, its upsert options and the rows it is handed. -/
structure Upsert where
  Table : String
  opts : List UpsertOpt
  data : List Row

/-- Lines 103-114, the function `SyncFrom` maps over the rows: three
assignments to the row, in this order, each under the test of its own field.
`nowFormat` is `now.Format`, the clock reading of line 79 rendered in a layout. -/
def stampRow (config : DBTargetConfig) (syncMeta : SyncMeta) (nowFormat : String → String)
    (timeFmt : String) (row : Row) : Row :=
  let row1 := if config.VersionField ≠ "" then row.set config.VersionField (.int syncMeta.Version)
    else row
  let row2 := if config.SyncTimeField ≠ "" then row1.set config.SyncTimeField (.str (nowFormat timeFmt))
    else row1
  if config.SyncStatusField ≠ "" then row2.set config.SyncStatusField (.int 1) else row2

/-- Lines 85-92: the upsert options, one for a non-empty `Uniques`, then one
for a non-empty `Updates`. -/
def upsertOpts (config : DBTargetConfig) : List UpsertOpt :=
  (if 0 < config.Uniques.length then [UpsertOpt.Columns config.Uniques] else []) ++
    (if 0 < config.Updates.length then [UpsertOpt.UpdateColumns config.Updates] else [])

/-- Go `DBTarget.SyncFrom` on the decoded `config`: the upsert it issues, if it
gets that far, and the error it returns. `nowFormat` is `now.Format` for the
clock reading of line 79, `create` the outcome of the statement on the
database. The rows are mapped only under the guard of line 102, which names the
version field and the sync-time field. A row is a map that can be assigned to
(`syncFunc` makes each with `make`). -/
def DBTarget.SyncFrom (config : DBTargetConfig) (data : List Row) (syncMeta : SyncMeta)
    (nowFormat : String → String) (create : Upsert → Option Error) :
    Option Upsert × Option Error :=
  if config.Table = "" then (none, some "[target] db table is required")
  else
    let opts := upsertOpts config
    let timeFmt := if config.SyncTimeFmt ≠ "" then config.SyncTimeFmt else DefaultTimeFormat
    let data1 :=
      if config.VersionField ≠ "" ∨ config.SyncTimeField ≠ "" then
        data.map (stampRow config syncMeta nowFormat timeFmt)
      else data
    let stmt : Upsert := { Table := config.Table, opts := opts, data := data1 }
    (some stmt, create stmt)

/-! ## ds/db.go: `DBRegister`, and `Connect` of ds/datasource.go

`DBRegister` slices a string by byte index, so in this part a Go string is the
sequence of its bytes. -/

/-- A Go string as its bytes. -/
abbrev Bytes := List Nat

/-- The bytes of a string of ASCII characters, such as the literals of the program. -/
def ascii (s : String) : Bytes := s.data.map Char.toNat

/-- The text of a string of ASCII bytes, for `%s` in an error message. -/
def asciiText (b : Bytes) : String := String.mk (b.map Char.ofNat)

/-- How a Go call ends: it returns, or it stops in a run-time panic. -/
inductive Outcome (α : Type) where
  | returned (val : α)
  | panicked (msg : String)
  deriving DecidableEq, Repr

/-- Go `s[1:]` on a string: the string without its first byte; on the empty
string the run-time panics, the low bound 1 being past the length 0. -/
def sliceFrom1 (s : Bytes) : Outcome Bytes :=
  match s with
  | [] => .panicked "runtime error: slice bounds out of range [1:0]"
  | _ :: rest => .returned rest

/-- The fields of Go `url.URL` that `Connect` and `DBRegister` read. -/
structure URL where
  Scheme : Bytes
  Host : Bytes
  Path : Bytes
  RawQuery : Bytes
  deriving DecidableEq, Repr

/-- A model value (`any`) of ds/db.go: one registered with `RegisterDBModel`,
or a `MapModel` of a table name. -/
inductive Model where
  | registered (tag : Nat)
  | MapModel (table : Bytes)
  deriving DecidableEq, Repr

/-- Go `ds.DB`; `tx` is the `*gorm.DB` handle, `none` being a nil pointer. -/
structure DB (Conn : Type) where
  tx : Option Conn
  table : Bytes
  pk : Bytes
  model : Model

/-- What `DBRegister` reads besides its argument: the connection manager
`gormdb.DefaultManager.GetConnection`, the package variable `dbModels`, and
the standard library's `url.Query().Get`, from the raw query and a key to the
first value of that key (empty for none). -/
structure DBEnv (Conn : Type) where
  GetConnection : Bytes → Option Conn × Option Error
  dbModels : Bytes → Option Model
  queryGet : Bytes → Bytes → Bytes

/-- Go `GetDBModel`. -/
def GetDBModel {Conn : Type} (env : DBEnv Conn) (name : Bytes) : Option Model :=
  env.dbModels name

/-- Go `DBRegister`: the datasource (`none` for nil) and the error it returns,
or the panic it stops in. Line 240 slices `url.Path` before line 242 tests the
table for emptiness. -/
def DBRegister {Conn : Type} (env : DBEnv Conn) (url : URL) :
    Outcome (Option (DB Conn) × Option Error) :=
  let conn := url.Host
  let r := env.GetConnection conn
  match r.2 with
  | some e => .returned (none, some e)
  | none =>
    match sliceFrom1 url.Path with
    | .panicked msg => .panicked msg
    | .returned table =>
      if table = [] then .returned (none, some "[datasource] db table is required")
      else
        let m := env.queryGet url.RawQuery (ascii "model")
        let model : Model :=
          match GetDBModel env m with
          | some v => v
          | none =>
            match GetDBModel env table with
            | some v => v
            | none => Model.MapModel table
        let pk0 := env.queryGet url.RawQuery (ascii "pk")
        let pk := if pk0 = [] then ascii "id" else pk0
        .returned (some { tx := r.1, table := table, pk := pk, model := model }, none)

/-- Go `ds.Register`. -/
abbrev Register (Conn : Type) := URL → Outcome (Option (DB Conn) × Option Error)

/-- Go `ds.Connect`. `Parse` is the standard library's `url.Parse`, `registers`
the package variable of that name. The scheme of a parsed URL is ASCII. -/
def Connect {Conn : Type} (Parse : Bytes → URL × Option Error)
    (registers : Bytes → Option (Register Conn)) (connUrl : Bytes) :
    Outcome (Option (DB Conn) × Option Error) :=
  let r := Parse connUrl
  match r.2 with
  | some e => .returned (none, some e)
  | none =>
    match registers r.1.Scheme with
    | none => .returned (none, some ("unregistered datasource: " ++ asciiText r.1.Scheme))
    | some register => register r.1

end Syncer
namespace Syncer

/-! ## Specification-side notions, to compare the code with -/

/-- Specification side: `c` is a decimal digit. -/
def isDigit (c : Char) : Bool := decide (48 ≤ c.toNat) && decide (c.toNat ≤ 57)

/-- Specification side: the number a string of decimal digits denotes, read
after the digits' value `n` so far. -/
def digitsFrom (n : Nat) (ds : List Char) : Nat :=
  ds.foldl (fun a c => a * 10 + (c.toNat - 48)) n

/-- Specification side: the part of a numeral after its optional sign. -/
def unsignedPart (s : List Char) : List Char :=
  match s with
  | [] => []
  | c :: cs => if c = '+' ∨ c = '-' then cs else c :: cs

/-- Specification side: the integer a base-10 numeral denotes: an optional
sign `+` or `-`, then one or more decimal digits; `none` for any other string. -/
def numeralValue (s : String) : Option Int :=
  let body := unsignedPart s.data
  if body ≠ [] ∧ body.all isDigit = true then
    some (if s.data.head? = some '-' then -(digitsFrom 0 body : Int) else (digitsFrom 0 body : Int))
  else none

/-- Specification side: the leading decimal digits of a string. -/
def leadingDigits (s : List Char) : List Char := s.takeWhile isDigit

/-- Specification side: the pieces `ps` written one after the other with `sep`
between them. -/
def joinSep (sep : Char) : List (List Char) → List Char
  | [] => []
  | [p] => p
  | p :: q :: rest => p ++ sep :: joinSep sep (q :: rest)

/-- Specification side: the strings `ps` joined with `sep`. -/
def joinWith (sep : Char) (ps : List String) : String :=
  String.mk (joinSep sep (ps.map String.data))

/-- Specification side: one resolver stage of a mapping group, `name` or
`name:arg,arg,...`; `args` is `none` for a stage written without a colon. -/
structure Stage where
  name : String
  args : Option (List String)
  deriving DecidableEq, Repr

/-- Specification side: the characters of `s` avoid those of `seps`. -/
def avoids (s : String) (seps : List Char) : Prop := ∀ c ∈ seps, c ∉ s.data

instance (s : String) (seps : List Char) : Decidable (avoids s seps) := by
  unfold avoids; infer_instance

/-- Specification side: a stage the grammar can write: the name holds none of
`| ; :`, the arguments, at least one when there is a colon, none of `| ; : ,`. -/
def Stage.wellFormed (st : Stage) : Prop :=
  avoids st.name ['|', ';', ':'] ∧
    match st.args with
    | none => True
    | some as => as ≠ [] ∧ ∀ a ∈ as, avoids a ['|', ';', ':', ',']

/-- Specification side: the text `name[:arg,arg,...]` of a stage. -/
def renderStage (st : Stage) : String :=
  match st.args with
  | none => st.name
  | some as => joinWith ':' [st.name, joinWith ',' as]

/-- Specification side: the text `dest|r1[:args]|...|rn[:args]` of a group. -/
def renderGroup (dest : String) (stages : List Stage) : String :=
  joinWith '|' (dest :: stages.map renderStage)

/-- Specification side: the text `group1;group2;...` of a mapping expression. -/
def renderExpr (groups : List (String × List Stage)) : String :=
  joinWith ';' (groups.map (fun g => renderGroup g.1 g.2))

/-- Specification side: the stages applied left to right, each to the output of
the one before, each with its own arguments. -/
def applyStages (valueResolvers : Registry) (m : Row) (value : Value) (stages : List Stage) :
    Value :=
  stages.foldl (fun v st => ResolveValue valueResolvers v m st.name (st.args.getD [])) value

/-- Specification side: the stages of a list of groups, in order. -/
def stagesOf (groups : List (String × List Stage)) : List Stage :=
  groups.foldr (fun g acc => g.2 ++ acc) []

/-- Specification side: a group the grammar can write: its key holds neither
`|` nor `;` and its stages are well formed. -/
def groupWellFormed (g : String × List Stage) : Prop :=
  avoids g.1 ['|', ';'] ∧ ∀ st ∈ g.2, st.wellFormed

/-- The keys a mapping expression writes (lines 166-170 and 183): the first
token of each of its groups. -/
def destKeys (expr : String) : List String :=
  (Split expr ';').map (fun part => (Split part '|').headD "")

/-! ## Measures and invariants of the page phase -/

/-- The pages the loop of line 201 has still to submit. -/
def pagesLeft (maxPage : Int) : PC → Nat
  | .submitting page => (maxPage + 1 - page).toNat
  | _ => 0

/-- How far `SyncTask` is from returning: 3 in the loop, 2 at the `select`, 1
before `AfterSync`, 0 when it has returned. -/
def pcRank : PC → Nat
  | .submitting _ => 3
  | .selecting => 2
  | .afterSync => 1
  | .returned _ _ => 0

/-- A bound on the actions still to come when no job blocks: three for each
page not yet submitted (queue, take, finish), two for each queued job, one for
each running job, and what `SyncTask` itself has left. -/
def workLeft {σ : Type} (c : Ctx σ) (s : RunState σ) : Nat :=
  3 * pagesLeft c.maxPage s.pc + 2 * s.queue.length + s.running.length + pcRank s.pc

/-- `SyncTask` has returned. -/
def PC.isReturned : PC → Bool
  | .returned _ _ => true
  | _ => false

/-- The invariant of the page phase when `StopOnError` is off: no job ever
blocks on `errChan`, `meta.Error` stays nil, `AfterSync` is not called before
the status is `Success`, and `SyncTask` returns `(total, e)` after exactly one
`AfterSync` call, `e` being what that call returned. -/
def ContinueInv {σ : Type} (c : Ctx σ) (s : RunState σ) : Prop :=
  s.sending = [] ∧ s.syncMeta.Error = none ∧
    match s.pc with
    | .submitting page => 1 ≤ page ∧ s.afterSyncLog = []
    | .selecting => s.afterSyncLog = []
    | .afterSync => s.afterSyncLog = [] ∧ s.syncMeta.Status = SyncStatusSuccess
    | .returned n e =>
      n = c.total ∧ s.syncMeta.Status = SyncStatusSuccess ∧ s.afterSyncLog = [(s.syncMeta, e)]

/-- Once the `select` has received from `exit`, every job is done: no job
waits in the task channel and none runs. -/
def DrainedInv {σ : Type} (s : RunState σ) : Prop :=
  match s.pc with
  | .afterSync => s.queue = [] ∧ s.running = []
  | .returned _ _ => s.queue = [] ∧ s.running = []
  | _ => True

/-- `SyncTask` is in the submit loop of line 201, its counter a 64-bit integer. -/
def LoopInv {σ : Type} (s : RunState σ) : Prop :=
  ∃ page : Int, s.pc = .submitting page ∧ page ≤ maxInt64

/-- The invariant of the page phase when `StopOnError` is on and every page job
fails: `SyncTask` is still in the submit loop, no job has ended (each submitted
page sits in the task channel, runs, or is blocked sending its error), the
workers and the channel are within their bounds, `AfterSync` has not been
called and the meta is as `BeforeSync` left it. -/
def BlockedInv {σ : Type} (c : Ctx σ) (syncMeta : SyncMeta) (s : RunState σ) : Prop :=
  ∃ page : Int, s.pc = .submitting page ∧
    page = 1 + s.queue.length + s.running.length + s.sending.length ∧
    s.running.length + s.sending.length ≤ poolWorkers c.task.Workers ∧
    s.queue.length ≤ poolCapacity ∧ s.afterSyncLog = [] ∧ s.syncMeta = syncMeta

/-- A finished page job reported an error. -/
def hasPageError (results : List (Int × Option Error)) : Prop :=
  ∃ page e, (page, some e) ∈ results

/-- The invariant of the page phase when `StopOnError` is on and the pages fit
the task channel. Every blocked job holds the error its page returned; until
the `select` has decided, the submit loop has room in the task channel, nothing
is recorded in the meta and every page error is still waiting to be received;
once it has decided, either on `exit`, with status `Success`, every job done
and no page error at all, or on an error, with status `Failed` and
`meta.Error` one of the page errors; and `SyncTask` returns after exactly one
`AfterSync` call. -/
def StopInv {σ : Type} (c : Ctx σ) (s : RunState σ) : Prop :=
  (∀ p e, (p, e) ∈ s.sending → (p, some e) ∈ s.results) ∧
    match s.pc with
    | .submitting page =>
      1 ≤ page ∧ (s.queue.length : Int) + 1 ≤ page ∧ s.afterSyncLog = [] ∧
        s.syncMeta.Error = none ∧ ∀ p e, (p, some e) ∈ s.results → (p, e) ∈ s.sending
    | .selecting =>
      s.afterSyncLog = [] ∧ s.syncMeta.Error = none ∧
        ∀ p e, (p, some e) ∈ s.results → (p, e) ∈ s.sending
    | .afterSync =>
      s.afterSyncLog = [] ∧
        ((s.syncMeta.Status = SyncStatusSuccess ∧ s.syncMeta.Error = none ∧ s.queue = [] ∧
            s.running = [] ∧ ¬ hasPageError s.results) ∨
          (s.syncMeta.Status = SyncStatusFailed ∧
            ∃ p e, s.syncMeta.Error = some e ∧ (p, some e) ∈ s.results))
    | .returned n e =>
      n = c.total ∧
        (∃ r, s.afterSyncLog = [(s.syncMeta, r)] ∧
          e = match r with
              | some e1 => some e1
              | none => s.syncMeta.Error) ∧
        ((s.syncMeta.Status = SyncStatusSuccess ∧ s.syncMeta.Error = none ∧ s.queue = [] ∧
            s.running = [] ∧ ¬ hasPageError s.results) ∨
          (s.syncMeta.Status = SyncStatusFailed ∧
            ∃ p e, s.syncMeta.Error = some e ∧ (p, some e) ∈ s.results))

/-- No action is enabled: every goroutine of the page phase is blocked. -/
def Deadlocked {σ : Type} (c : Ctx σ) (s : RunState σ) : Prop :=
  ∀ ev : Event, step c s ev = none

end Syncer
namespace Syncer

/-! ## Concrete inputs used in the examples -/

/-- A task with the given id, interval, page size, worker count and
stop-on-error flag, and nothing else configured. -/
def exampleTask (id interval : String) (size workers : Int) (stopOnError : Bool) : SyncerTask :=
  { ID := id, Source := "db://default/users", Mapping := [], Filters := [], Orders := [],
    Target := "default", TargetConfig := { rawData := "" }, Size := size, Workers := workers,
    StopOnError := stopOnError, At := "", Immediately := false, Interval := interval }

/-- Five registered tasks, with the intervals `3d`, `45s`, `xd`, `0d` and `abc`. -/
def exampleTasks : List SyncerTask :=
  [exampleTask "a" "3d" 20 1 false, exampleTask "b" "45s" 20 1 false,
    exampleTask "c" "xd" 20 1 false, exampleTask "d" "0d" 20 1 false,
    exampleTask "e" "abc" 20 1 false]

/-- A target configuration with table `roles`, version column `version`, status
column `status` and the given retention window. -/
def exampleDBConfig (maxVersion : Int) : DBTargetConfig :=
  { Table := "roles", Uniques := ["id"], Updates := [], VersionField := "version",
    SyncTimeField := "", SyncTimeFmt := "", SyncStatusField := "status",
    MaxVersion := maxVersion }

/-- A table row with the given version and status. -/
def exampleRow (version status : Int) : Row :=
  (Row.empty.set "version" (.int version)).set "status" (.int status)

/-- The meta of a run that was given `version`. -/
def exampleMeta (version : Int) : SyncMeta :=
  { Version := version, Total := 95, Status := SyncStatusPending, Error := none }

/-- A source row with the single field `name`. -/
def nameRow (name : String) : Row := Row.empty.set "name" (.str name)

/-- A source row with fields `a` and `b`. -/
def abRow (a b : String) : Row := (Row.empty.set "a" (.str a)).set "b" (.str b)

/-- A datasource of `total` rows in which every page holds one row. -/
def exampleSource (total : Int) : Datasource Unit :=
  { ListMeta := fun w _ => (w, { Total := total }, none),
    List := fun w _ => (w, { Meta := { Total := 0 }, Data := [some (nameRow "x")] }, none) }

/-- A target whose every `SyncFrom` fails, as when its table is missing. -/
def failingTarget : Target Unit :=
  { SyncFrom := fun w _ _ _ => (w, some "write failed"),
    BeforeSync := fun w _ syncMeta => (w, { syncMeta with Version := 1 }, none),
    AfterSync := fun w _ _ => (w, none) }

/-- The package state with `exampleSource total` behind every source locator
and `failingTarget` behind every target name. -/
def exampleEnv (total : Int) : Env Unit :=
  { Connect := fun _ => .ok (exampleSource total), GetTarget := fun _ => some failingTarget,
    valueResolvers := initResolvers 0, implDefined := 0 }

/-- The package state `exampleEnv total` on a platform whose conversion of an
out-of-range `float64` to `int` gives the largest integer (arm64 saturates). -/
def saturatingEnv (total : Int) : Env Unit :=
  { Connect := fun _ => .ok (exampleSource total), GetTarget := fun _ => some failingTarget,
    valueResolvers := initResolvers 0, implDefined := maxInt64 }

/-- A target whose `BeforeSync` records a note in `meta.Error` and returns nil,
and whose other operations succeed. -/
def markingTarget : Target Unit :=
  { SyncFrom := fun w _ _ _ => (w, none),
    BeforeSync := fun w _ syncMeta => (w, { syncMeta with Error := some "stale source" }, none),
    AfterSync := fun w _ _ => (w, none) }

/-- The package state with `exampleSource total` behind every source locator
and `markingTarget` behind every target name. -/
def markingEnv (total : Int) : Env Unit :=
  { Connect := fun _ => .ok (exampleSource total), GetTarget := fun _ => some markingTarget,
    valueResolvers := initResolvers 0, implDefined := 0 }

/-- The page phase `SyncTask` enters on `exampleEnv total` with `exampleTask`. -/
def exampleCtx (total : Int) (size workers : Int) (stopOnError : Bool) : Ctx Unit :=
  { task := exampleTask "t" "" size workers stopOnError, valueResolvers := initResolvers 0,
    dataSource := exampleSource total, target := failingTarget, total := total,
    maxPage := maxPage 0 total size }

/-- The state in which that page phase starts. -/
def exampleStart (total : Int) : RunState Unit :=
  initState () { Version := 1, Total := total, Status := SyncStatusPending, Error := none }

/-- A schedule of three pages on one worker: the first job goes to the worker,
the other two wait in the queue, and the worker runs them one after the other. -/
def threePageSchedule : List Event :=
  [.submitStart, .submitQueue, .submitQueue, .leaveLoop, .finish 0, .take, .finish 0, .take,
    .finish 0, .recvExit, .afterSync]

/-- The schedule that fills the pool: the first job goes to the one worker and
fails, and 1000 more jobs fill the task channel. -/
def fillingSchedule : List Event :=
  .submitStart :: .finish 0 :: List.replicate 1000 .submitQueue

/-- The version and status columns of the rows of a table. -/
def versionsAndStatus (table : Table) : List (Option Value × Option Value) :=
  table.map (fun r => (r "version", r "status"))

end Syncer
namespace Syncer

/-! ## Stamping, as the specification words it -/

/-- The time layout in force: the configured one, `DefaultTimeFormat` when none is. -/
def layoutOf (config : DBTargetConfig) : String :=
  if config.SyncTimeFmt = "" then DefaultTimeFormat else config.SyncTimeFmt

/-- The version field of a row is stamped: it is not configured, or the row
holds the run's version in it. -/
def versionStamped (config : DBTargetConfig) (syncMeta : SyncMeta) (row : Row) : Prop :=
  config.VersionField ≠ "" → row config.VersionField = some (.int syncMeta.Version)

/-- The sync-time field of a row is stamped: it is not configured, or the row
holds the current time in the layout in force in it. -/
def syncTimeStamped (config : DBTargetConfig) (nowFormat : String → String) (row : Row) : Prop :=
  config.SyncTimeField ≠ "" → row config.SyncTimeField = some (.str (nowFormat (layoutOf config)))

/-- The status field of a row is stamped: it is not configured, or the row
holds the active marker 1 in it. -/
def statusStamped (config : DBTargetConfig) (row : Row) : Prop :=
  config.SyncStatusField ≠ "" → row config.SyncStatusField = some (.int 1)

/-- A row in which each configured metadata field is stamped. -/
def Stamped (config : DBTargetConfig) (syncMeta : SyncMeta) (nowFormat : String → String)
    (row : Row) : Prop :=
  versionStamped config syncMeta row ∧ syncTimeStamped config nowFormat row ∧
    statusStamped config row

/-- The configured metadata fields name different columns. -/
def distinctFields (config : DBTargetConfig) : Prop :=
  (config.VersionField ≠ "" → config.VersionField ≠ config.SyncTimeField ∧
    config.VersionField ≠ config.SyncStatusField) ∧
  (config.SyncTimeField ≠ "" → config.SyncTimeField ≠ config.SyncStatusField)

/-- A column that is none of the three metadata fields. -/
def plainColumn (config : DBTargetConfig) (k : String) : Prop :=
  k ≠ config.VersionField ∧ k ≠ config.SyncTimeField ∧ k ≠ config.SyncStatusField

/-! ## Concrete inputs for `SyncFrom` and `DBRegister` -/

/-- A target configuration with table `roles` and the status column `status`
as its only metadata field. -/
def statusOnlyConfig : DBTargetConfig :=
  { Table := "roles", Uniques := ["id"], Updates := [], VersionField := "",
    SyncTimeField := "", SyncTimeFmt := "", SyncStatusField := "status", MaxVersion := 0 }

/-- A target configuration with table `roles` and all three metadata fields. -/
def fullConfig : DBTargetConfig :=
  { Table := "roles", Uniques := ["id"], Updates := ["name"], VersionField := "version",
    SyncTimeField := "synced_at", SyncTimeFmt := "", SyncStatusField := "status",
    MaxVersion := 0 }

/-- A clock that reads 4 November 2026, noon, in the default layout, and gives
the layout back for any other. -/
def exampleClock (layout : String) : String :=
  if layout = DefaultTimeFormat then "2026-11-04 12:00:00" else layout

/-- The metadata columns of the rows of an upsert, and their `name` column. -/
def stampsOf (stmt : Option Upsert) : Option (List (List (Option Value))) :=
  stmt.map (fun s => s.data.map (fun r => [r "version", r "synced_at", r "status", r "name"]))

/-- A connection manager with the single connection `default`, no registered
model, and a query reader for URLs without a query. -/
def exampleDBEnv : DBEnv Nat :=
  { GetConnection := fun name =>
      if name = ascii "default" then (some 0, none) else (none, some "connection not registered"),
    dbModels := fun _ => none,
    queryGet := fun _ _ => [] }

/-- The URL `db://default`, as `url.Parse` gives it: no path. -/
def urlNoPath : URL := { Scheme := ascii "db", Host := ascii "default", Path := [], RawQuery := [] }

/-- The URL `db://default/`. -/
def urlSlash : URL :=
  { Scheme := ascii "db", Host := ascii "default", Path := ascii "/", RawQuery := [] }

/-- The URL `db://default/users`. -/
def urlUsers : URL :=
  { Scheme := ascii "db", Host := ascii "default", Path := ascii "/users", RawQuery := [] }

/-- A parser that knows the three example URLs. -/
def exampleParse (connUrl : Bytes) : URL × Option Error :=
  if connUrl = ascii "db://default" then (urlNoPath, none)
  else if connUrl = ascii "db://default/" then (urlSlash, none)
  else if connUrl = ascii "db://default/users" then (urlUsers, none)
  else (urlNoPath, some "parse error")

/-- The registry after `RegisterDatasource("db", DBRegister)`. -/
def exampleRegisters (scheme : Bytes) : Option (Register Nat) :=
  if scheme = ascii "db" then some (DBRegister exampleDBEnv) else none

/-- What a datasource was registered with: its table, key column and model. -/
def describe {Conn : Type} (r : Outcome (Option (DB Conn) × Option Error)) :
    Option (Bytes × Bytes × Model) :=
  match r with
  | .returned (some d, _) => some (d.table, d.pk, d.model)
  | _ => none

end Syncer
namespace Syncer

/-! ## strconv -/

theorem digitsFrom_ge (ds : List Char) (n : Nat) : n ≤ digitsFrom n ds := by
  induction ds generalizing n with
  | nil => simp [digitsFrom]
  | cons c cs ih =>
    have h := ih (n * 10 + (c.toNat - 48))
    simp only [digitsFrom, List.foldl_cons] at h ⊢
    omega

theorem digitsFrom_cons (c : Char) (cs : List Char) (n : Nat) :
    digitsFrom n (c :: cs) = digitsFrom (n * 10 + (c.toNat - 48)) cs := rfl

theorem isDigit_iff (c : Char) : isDigit c = true ↔ 48 ≤ c.toNat ∧ c.toNat ≤ 57 := by
  simp [isDigit]

/-- The digit loop on a string of digits: the value when it fits a uint64, the
range error otherwise. -/
theorem parseUintLoop_digits (ds : List Char) (n : Nat) (hn : n ≤ maxUint64)
    (hds : ds.all isDigit = true) :
    parseUintLoop ds n =
      if digitsFrom n ds ≤ maxUint64 then (digitsFrom n ds, none)
      else (maxUint64, some .ErrRange) := by
  induction ds generalizing n with
  | nil => simp [parseUintLoop, digitsFrom, hn]
  | cons c cs ih =>
    simp only [List.all_cons, Bool.and_eq_true] at hds
    obtain ⟨hc, hcs⟩ := hds
    have hc2 := (isDigit_iff c).1 hc
    have hge := digitsFrom_ge cs (n * 10 + (c.toNat - 48))
    rw [digitsFrom_cons]
    unfold parseUintLoop
    simp only [hc2, and_self, if_true]
    unfold maxUint64 at *
    by_cases h1 : (2 ^ 64 - 1) / 10 + 1 ≤ n
    · rw [if_pos h1, if_neg (by omega)]
    · rw [if_neg h1]
      by_cases h2 : n * 10 + (c.toNat - 48) ≤ 2 ^ 64 - 1
      · have hmod : (n * 10 + (c.toNat - 48)) % 2 ^ 64 = n * 10 + (c.toNat - 48) :=
          Nat.mod_eq_of_lt (by omega)
        simp only [hmod]
        rw [if_neg (by omega)]
        exact ih _ h2 hcs
      · have hmod : (n * 10 + (c.toNat - 48)) % 2 ^ 64 = n * 10 + (c.toNat - 48) - 2 ^ 64 := by
          omega
        simp only [hmod]
        rw [if_pos (by omega), if_neg (by omega)]

/-- The digit loop on digits followed by a character that is no digit: the
syntax error, unless the digits alone already pass the uint64 range. -/
theorem parseUintLoop_nondigit (ds : List Char) (c : Char) (rest : List Char) (n : Nat)
    (hn : n ≤ maxUint64) (hds : ds.all isDigit = true) (hc : isDigit c = false) :
    parseUintLoop (ds ++ c :: rest) n =
      if digitsFrom n ds ≤ maxUint64 then (0, some .ErrSyntax)
      else (maxUint64, some .ErrRange) := by
  induction ds generalizing n with
  | nil =>
    have hc2 : ¬ (48 ≤ c.toNat ∧ c.toNat ≤ 57) := by
      intro h
      rw [(isDigit_iff c).2 h] at hc
      exact Bool.noConfusion hc
    simp [parseUintLoop, digitsFrom, hn, hc2]
  | cons d ds ih =>
    simp only [List.all_cons, Bool.and_eq_true] at hds
    obtain ⟨hd, hds⟩ := hds
    have hd2 := (isDigit_iff d).1 hd
    have hge := digitsFrom_ge ds (n * 10 + (d.toNat - 48))
    rw [digitsFrom_cons, List.cons_append]
    unfold parseUintLoop
    simp only [hd2, and_self, if_true]
    unfold maxUint64 at *
    by_cases h1 : (2 ^ 64 - 1) / 10 + 1 ≤ n
    · rw [if_pos h1, if_neg (by omega)]
    · rw [if_neg h1]
      by_cases h2 : n * 10 + (d.toNat - 48) ≤ 2 ^ 64 - 1
      · have hmod : (n * 10 + (d.toNat - 48)) % 2 ^ 64 = n * 10 + (d.toNat - 48) :=
          Nat.mod_eq_of_lt (by omega)
        simp only [hmod]
        rw [if_neg (by omega)]
        exact ih _ h2 hds
      · have hmod : (n * 10 + (d.toNat - 48)) % 2 ^ 64 = n * 10 + (d.toNat - 48) - 2 ^ 64 := by
          omega
        simp only [hmod]
        rw [if_pos (by omega), if_neg (by omega)]

end Syncer
namespace Syncer

theorem exists_first_nondigit (l : List Char) (h : l.all isDigit = false) :
    ∃ x rest, l = leadingDigits l ++ x :: rest ∧ isDigit x = false ∧
      (leadingDigits l).all isDigit = true := by
  induction l with
  | nil => simp at h
  | cons c cs ih =>
    by_cases hc : isDigit c = true
    · have hcs : cs.all isDigit = false := by
        simpa [List.all_cons, hc] using h
      obtain ⟨x, rest, h1, h2, h3⟩ := ih hcs
      refine ⟨x, rest, ?_, h2, ?_⟩
      · simp only [leadingDigits, List.takeWhile_cons, hc, if_true, List.cons_append]
        exact congrArg (List.cons c) h1
      · simp only [leadingDigits, List.takeWhile_cons, hc, if_true, List.all_cons, Bool.true_and]
        exact h3
    · have hc2 : isDigit c = false := by simpa using hc
      exact ⟨c, cs, by simp [leadingDigits, List.takeWhile_cons, hc2], hc2,
        by simp [leadingDigits, List.takeWhile_cons, hc2]⟩

theorem ParseUint_digits (body : List Char) (hne : body ≠ []) (hds : body.all isDigit = true) :
    ParseUint body =
      if digitsFrom 0 body ≤ maxUint64 then (digitsFrom 0 body, none)
      else (maxUint64, some .ErrRange) := by
  cases body with
  | nil => exact absurd rfl hne
  | cons c cs =>
    exact parseUintLoop_digits (c :: cs) 0 (by unfold maxUint64; omega) hds

theorem ParseUint_not_digits (body : List Char) (hds : body.all isDigit = false) :
    ParseUint body =
      if digitsFrom 0 (leadingDigits body) ≤ maxUint64 then (0, some .ErrSyntax)
      else (maxUint64, some .ErrRange) := by
  obtain ⟨x, rest, h1, h2, h3⟩ := exists_first_nondigit body hds
  cases body with
  | nil => simp at hds
  | cons c cs =>
    show parseUintLoop (c :: cs) 0 = _
    have := parseUintLoop_nondigit (leadingDigits (c :: cs)) x rest 0
      (by unfold maxUint64; omega) h3 h2
    rw [← h1] at this
    exact this

theorem parseIntChars_body (c : Char) (cs : List Char) :
    parseIntChars (c :: cs) =
      (let neg := decide (c = '-')
       let r := ParseUint (unsignedPart (c :: cs))
       if r.2 = some .ErrSyntax then (0, some .ErrSyntax)
       else if neg = false ∧ 2 ^ 63 ≤ r.1 then (2 ^ 63 - 1, some .ErrRange)
       else if neg = true ∧ 2 ^ 63 < r.1 then (-2 ^ 63, some .ErrRange)
       else (if neg then -(r.1 : Int) else (r.1 : Int), none)) := rfl

/-- `ParseInt` on a base-10 numeral: its value when that is an int64, the
nearest bound with `ErrRange` otherwise. -/
theorem ParseInt_numeral (s : String) (v : Int) (hv : numeralValue s = some v) :
    ParseInt s =
      if maxInt64 < v then (maxInt64, some .ErrRange)
      else if v < minInt64 then (minInt64, some .ErrRange)
      else (v, none) := by
  unfold numeralValue at hv
  simp only at hv
  split at hv
  · rename_i hb
    obtain ⟨hne, hds⟩ := hb
    have hv2 := Option.some.inj hv
    unfold ParseInt
    cases hs : s.data with
    | nil => simp [hs, unsignedPart] at hne
    | cons c cs =>
      rw [hs] at hne hds hv2
      rw [parseIntChars_body, ParseUint_digits _ hne hds]
      have hhead : ((c :: cs).head? = some '-') ↔ c = '-' := by simp
      simp only [hhead] at hv2
      generalize digitsFrom 0 (unsignedPart (c :: cs)) = D at hv2 ⊢
      unfold maxInt64 minInt64 maxUint64
      by_cases hneg : c = '-'
      · simp only [hneg, if_true] at hv2
        subst hv2
        by_cases hD : D ≤ 2 ^ 64 - 1
        · rw [if_pos hD]
          simp only [hneg, decide_True]
          split_ifs <;> first | rfl | (exfalso; simp_all; done) | (exfalso; omega) | (simp_all; omega)
        · rw [if_neg hD]
          simp only [hneg, decide_True]
          split_ifs <;> first | rfl | (exfalso; simp_all; done) | (exfalso; omega) | (simp_all; omega)
      · simp only [hneg, if_false] at hv2
        subst hv2
        by_cases hD : D ≤ 2 ^ 64 - 1
        · rw [if_pos hD]
          simp only [hneg, decide_False]
          split_ifs <;> first | rfl | (exfalso; simp_all; done) | (exfalso; omega) | (simp_all; omega)
        · rw [if_neg hD]
          simp only [hneg, decide_False]
          split_ifs <;> first | rfl | (exfalso; simp_all; done) | (exfalso; omega) | (simp_all; omega)
  · exact absurd hv (by simp)

/-- `ParseInt` on a string that is no base-10 numeral: 0 with `ErrSyntax`,
provided the digits it starts with do not already pass the uint64 range. -/
theorem ParseInt_not_numeral (s : String) (hv : numeralValue s = none)
    (hlead : digitsFrom 0 (leadingDigits (unsignedPart s.data)) ≤ maxUint64) :
    ParseInt s = (0, some .ErrSyntax) := by
  unfold numeralValue at hv
  simp only at hv
  split at hv
  · exact absurd hv (by simp)
  · rename_i hb
    unfold ParseInt
    cases hs : s.data with
    | nil => rfl
    | cons c cs =>
      rw [hs] at hb hlead
      rw [parseIntChars_body]
      by_cases hne : unsignedPart (c :: cs) = []
      · rw [hne]
        simp [ParseUint]
      · have hds : (unsignedPart (c :: cs)).all isDigit = false := by
          by_contra hcon
          exact hb ⟨hne, by simpa using hcon⟩
        rw [ParseUint_not_digits _ hds, if_pos hlead]
        simp

end Syncer
namespace Syncer

/-! ## resolver.go -/

theorem floor_finite (m e : Int) :
    (if 0 ≤ e then m * 2 ^ e.toNat else m / 2 ^ (-e).toNat) = ⌊(m : ℚ) * (2 : ℚ) ^ e⌋ := by
  by_cases he : 0 ≤ e
  · rw [if_pos he]
    obtain ⟨k, rfl⟩ := Int.eq_ofNat_of_zero_le he
    have : ((m : ℚ) * (2 : ℚ) ^ ((k : ℕ) : ℤ)) = ((m * 2 ^ k : ℤ) : ℚ) := by
      rw [zpow_natCast]
      push_cast
      rfl
    rw [this, Int.floor_intCast]
    simp
  · rw [if_neg he]
    have hk : e = -(((-e).toNat : ℕ) : ℤ) := by omega
    generalize (-e).toNat = k at hk
    subst hk
    have : ((m : ℚ) * (2 : ℚ) ^ (-(k : ℤ))) = (m : ℚ) / ((2 ^ k : ℕ) : ℚ) := by
      rw [zpow_neg, zpow_natCast]
      push_cast
      rfl
    rw [this, Rat.floor_intCast_div_natCast]
    push_cast
    rfl

/-- The int resolver on a finite float64 whose floor is an int64. -/
theorem intResolver_float (implDefined : Int) (item : Row) (args : List String) (m e : Int)
    (h : isInt64 ⌊(m : ℚ) * (2 : ℚ) ^ e⌋) :
    intResolver implDefined (.float (.finite m e)) item args
      = .int ⌊(m : ℚ) * (2 : ℚ) ^ e⌋ := by
  rw [← floor_finite] at h ⊢
  unfold isInt64 at h
  show Value.int (floatToInt implDefined (Floor (.finite m e))) = _
  congr 1
  unfold Floor
  by_cases he : 0 ≤ e
  · simp only [he, if_true] at h ⊢
    unfold floatToInt
    simp [h]
  · simp only [he, if_false] at h ⊢
    unfold floatToInt
    simp [h]

end Syncer

namespace Syncer

/-- C8 (as amended): the built-in `int` resolver. On a string that is a base-10
numeral (optional sign, decimal digits) it returns the numeral's value when that
is a 64-bit integer, and the nearest 64-bit bound, not 0, when the value is out
of range; on a string that is no numeral it returns 0, provided the digits the
string starts with do not already pass the unsigned 64-bit range; on a finite
float64 whose floor is a 64-bit integer it returns that floor; a value of any
other type is returned unchanged. -/
theorem intResolver_spec (implDefined : Int) (item : Row) (args : List String) :
    (∀ s v, numeralValue s = some v → isInt64 v →
      intResolver implDefined (.str s) item args = .int v) ∧
    (∀ s v, numeralValue s = some v → maxInt64 < v →
      intResolver implDefined (.str s) item args = .int maxInt64) ∧
    (∀ s v, numeralValue s = some v → v < minInt64 →
      intResolver implDefined (.str s) item args = .int minInt64) ∧
    (∀ s, numeralValue s = none →
      digitsFrom 0 (leadingDigits (unsignedPart s.data)) ≤ maxUint64 →
      intResolver implDefined (.str s) item args = .int 0) ∧
    (∀ m e : Int, isInt64 ⌊(m : ℚ) * (2 : ℚ) ^ e⌋ →
      intResolver implDefined (.float (.finite m e)) item args
        = .int ⌊(m : ℚ) * (2 : ℚ) ^ e⌋) ∧
    (∀ v, (∀ s, v ≠ .str s) → (∀ f, v ≠ .float f) →
      intResolver implDefined v item args = v) := by
  refine ⟨?_, ?_, ?_, ?_, ?_, ?_⟩
  · intro s v hv hr
    show Value.int (ParseInt s).1 = _
    rw [ParseInt_numeral s v hv, if_neg (not_lt.2 hr.2), if_neg (not_lt.2 hr.1)]
  · intro s v hv hr
    show Value.int (ParseInt s).1 = _
    rw [ParseInt_numeral s v hv, if_pos hr]
  · intro s v hv hr
    show Value.int (ParseInt s).1 = _
    have h1 : ¬ maxInt64 < v := by
      unfold maxInt64
      unfold minInt64 at hr
      omega
    rw [ParseInt_numeral s v hv, if_neg h1, if_pos hr]
  · intro s hv hl
    show Value.int (ParseInt s).1 = _
    rw [ParseInt_not_numeral s hv hl]
  · intro m e h
    exact intResolver_float implDefined item args m e h
  · intro v h1 h2
    cases v with
    | str s => exact absurd rfl (h1 s)
    | float f => exact absurd rfl (h2 f)
    | null => rfl
    | int i => rfl
    | bool b => rfl
    | other t => rfl

/-- C8, on concrete inputs: `"42"` gives 42, `"4x"` gives 0, the float64 42.9
(`6037638250443571 * 2 ^ (-47)`) gives 42, a boolean is left as it is. -/
theorem intResolver_spec_witness :
    intResolver 0 (.str "42") Row.empty [] = .int 42 ∧
    intResolver 0 (.str "4x") Row.empty [] = .int 0 ∧
    intResolver 0 (.float (.finite 6037638250443571 (-47))) Row.empty []
      = .int ⌊((6037638250443571 : Int) : ℚ) * (2 : ℚ) ^ (-47 : Int)⌋ ∧
    ⌊((6037638250443571 : Int) : ℚ) * (2 : ℚ) ^ (-47 : Int)⌋ = 42 ∧
    intResolver 0 (.bool true) Row.empty [] = .bool true :=
  ⟨(intResolver_spec 0 Row.empty []).1 "42" 42 (by decide) (by decide),
   (intResolver_spec 0 Row.empty []).2.2.2.1 "4x" (by decide) (by decide),
   (intResolver_spec 0 Row.empty []).2.2.2.2.1 6037638250443571 (-47)
     (by rw [← floor_finite]; decide),
   by rw [← floor_finite]; decide,
   (intResolver_spec 0 Row.empty []).2.2.2.2.2 (.bool true) (by intro s; simp) (by intro f; simp)⟩

/-- C8 as stated fails: a string that is no valid integer, and a string whose
integer is out of the 64-bit range, both give the bound `2 ^ 63 - 1` and not 0. -/
theorem intResolver_not_zero_on_range_error :
    numeralValue "99999999999999999999x" = none ∧
    intResolver 0 (.str "99999999999999999999x") Row.empty [] = .int 9223372036854775807 ∧
    numeralValue "9223372036854775808" = some 9223372036854775808 ∧
    intResolver 0 (.str "9223372036854775808") Row.empty [] = .int 9223372036854775807 := by
  decide

/-- C9: `ResolveValue` gives the value back unchanged for a name the registry
does not hold, and exactly the registered function's result on
`(value, item, args)` for a name it holds. Its result is a value: there is no
error to report. -/
theorem ResolveValue_spec (valueResolvers : Registry) (value : Value) (item : Row)
    (resolver : String) (args : List String) :
    (valueResolvers resolver = none →
      ResolveValue valueResolvers value item resolver args = value) ∧
    (∀ r, valueResolvers resolver = some r →
      ResolveValue valueResolvers value item resolver args = r value item args) := by
  constructor
  · intro h
    simp [ResolveValue, h]
  · intro r h
    simp [ResolveValue, h]

/-- C9, on concrete inputs: after `init()`, `upper` is not registered and leaves
`" John "` as it is, `trim` is registered and gives what `trimResolver` gives. -/
theorem ResolveValue_spec_witness :
    ResolveValue (initResolvers 0) (.str " John ") Row.empty "upper" ["a"] = .str " John " ∧
    ResolveValue (initResolvers 0) (.str " John ") Row.empty "trim" []
      = trimResolver (.str " John ") Row.empty [] :=
  ⟨(ResolveValue_spec (initResolvers 0) (.str " John ") Row.empty "upper" ["a"]).1 rfl,
   (ResolveValue_spec (initResolvers 0) (.str " John ") Row.empty "trim" []).2 trimResolver
     rfl⟩

end Syncer
namespace Syncer

/-! ## utils.go and `Schedule` -/

theorem HasSuffix_iff (s suffix : String) :
    HasSuffix s suffix = true ↔ ∃ pre : List Char, s.data = pre ++ suffix.data := by
  unfold HasSuffix
  simp only [Bool.and_eq_true, decide_eq_true_eq]
  constructor
  · rintro ⟨_, h2⟩
    refine ⟨s.data.take (s.data.length - suffix.data.length), ?_⟩
    conv_lhs => rw [← List.take_append_drop (s.data.length - suffix.data.length) s.data]
    rw [h2]
  · rintro ⟨pre, h⟩
    rw [h]
    constructor
    · simp
    · simp

theorem not_HasSuffix_of_last (pre : List Char) (a b : Char) (s suffix : String)
    (spre : List Char) (hs : s.data = pre ++ [a]) (hsuf : suffix.data = spre ++ [b])
    (hab : a ≠ b) : HasSuffix s suffix = false := by
  by_contra hcon
  have htrue : HasSuffix s suffix = true := by simpa using hcon
  obtain ⟨p, hp⟩ := (HasSuffix_iff s suffix).1 htrue
  rw [hs, hsuf, ← List.append_assoc] at hp
  have := congrArg List.getLast? hp
  simp at this
  exact hab this

/-- The day suffix `EndWith` finds in an interval that ends with one. -/
theorem EndWith_day_suffix (num suf : String) (hsuf : suf ∈ ["d", "day", "days"]) :
    EndWith (num ++ suf) ["d", "day", "days"] = (true, suf) := by
  have hself : HasSuffix (num ++ suf) suf = true :=
    (HasSuffix_iff _ _).2 ⟨num.data, by simp⟩
  simp only [List.mem_cons, List.mem_singleton, List.not_mem_nil, or_false] at hsuf
  rcases hsuf with rfl | rfl | rfl
  · simp [EndWith, hself]
  · have h1 : HasSuffix (num ++ "day") "d" = false :=
      not_HasSuffix_of_last (num.data ++ ['d', 'a']) 'y' 'd' _ _ [] (by simp) rfl (by decide)
    simp [EndWith, hself, h1]
  · have h1 : HasSuffix (num ++ "days") "d" = false :=
      not_HasSuffix_of_last (num.data ++ ['d', 'a', 'y']) 's' 'd' _ _ [] (by simp) rfl (by decide)
    have h2 : HasSuffix (num ++ "days") "day" = false :=
      not_HasSuffix_of_last (num.data ++ ['d', 'a', 'y']) 's' 'y' _ _ ['d', 'a'] (by simp) rfl
        (by decide)
    simp [EndWith, hself, h1, h2]

/-- `EndWith` finds no day suffix in an interval that ends with none. -/
theorem EndWith_no_day_suffix (interval : String)
    (h : ∀ num suf : String, suf ∈ ["d", "day", "days"] → interval ≠ num ++ suf) :
    EndWith interval ["d", "day", "days"] = (false, "") := by
  have key : ∀ suf : String, suf ∈ ["d", "day", "days"] → HasSuffix interval suf = false := by
    intro suf hsuf
    by_contra hcon
    have htrue : HasSuffix interval suf = true := by simpa using hcon
    obtain ⟨p, hp⟩ := (HasSuffix_iff _ _).1 htrue
    apply h (String.mk p) suf hsuf
    apply String.ext
    simp [hp]
  simp [EndWith, key "d" (by simp), key "day" (by simp), key "days" (by simp)]

theorem Atoi_numeral (num : String) (v : Int) (hv : numeralValue num = some v) (hr : isInt64 v) :
    Atoi num = (v, none) := by
  unfold Atoi
  rw [ParseInt_numeral num v hv, if_neg (not_lt.2 hr.2), if_neg (not_lt.2 hr.1)]

theorem Atoi_error (num : String) (h : ∀ v, numeralValue num = some v → ¬ isInt64 v) :
    (Atoi num).2 ≠ none := by
  unfold Atoi
  cases hv : numeralValue num with
  | none =>
    unfold numeralValue at hv
    simp only at hv
    split at hv
    · exact absurd hv (by simp)
    · rename_i hb
      unfold ParseInt
      cases hs : num.data with
      | nil => simp [parseIntChars]
      | cons c cs =>
        rw [hs] at hb
        rw [parseIntChars_body]
        by_cases hne : unsignedPart (c :: cs) = []
        · rw [hne]
          simp [ParseUint]
        · have hds : (unsignedPart (c :: cs)).all isDigit = false := by
            by_contra hcon
            exact hb ⟨hne, by simpa using hcon⟩
          rw [ParseUint_not_digits _ hds]
          by_cases hl : digitsFrom 0 (leadingDigits (unsignedPart (c :: cs))) ≤ maxUint64
          · rw [if_pos hl]
            simp
          · rw [if_neg hl]
            unfold maxUint64
            by_cases hneg : c = '-' <;> simp [hneg]
  | some v =>
    have hnr := h v hv
    rw [ParseInt_numeral num v hv]
    unfold isInt64 at hnr
    split_ifs with h1 h2
    · simp
    · simp
    · exact absurd ⟨not_lt.1 h2, not_lt.1 h1⟩ hnr

end Syncer
namespace Syncer

theorem Do_mem (job j : Job) (h : j ∈ Do job) : j.tags = job.tags ∧ j.error = [] := by
  unfold Do at h
  simp only at h
  split_ifs at h with h1 h2 h2
  · exact absurd h (List.not_mem_nil j)
  · rw [List.mem_singleton] at h
    subst h
    exact absurd h2 (by simp)
  · exact absurd h (List.not_mem_nil j)
  · rw [List.mem_singleton] at h
    subst h
    exact ⟨rfl, by simpa using h2⟩

theorem Every_tags (interval : Interval) : (Every interval).tags = [] := by
  cases interval <;> rfl

theorem Day_tags (job : Job) : job.Day.tags = job.tags := by
  unfold Job.Day
  split_ifs <;> rfl

theorem scheduleTask_tag (task : SyncerTask) (t : Job) (ht : t ∈ scheduleTask task) :
    t.tags = ["syncer:" ++ task.ID] := by
  unfold scheduleTask at ht
  simp only at ht
  split_ifs at ht
  · rw [(Do_mem _ t ht).1]
    simp [Job.Tag, Day_tags, Every_tags]
  · exact absurd ht (List.not_mem_nil t)
  · rw [(Do_mem _ t ht).1]
    simp [Job.Tag, Every_tags]
  · exact absurd ht (List.not_mem_nil t)

theorem tag_injective (a b : String) (h : "syncer:" ++ a = "syncer:" ++ b) : a = b := by
  have h2 := congrArg String.data h
  simp only [String.data_append] at h2
  exact String.ext (List.append_cancel_left h2)

theorem filter_scheduleTask_self (task : SyncerTask) :
    (scheduleTask task).filter (fun t => decide ("syncer:" ++ task.ID ∈ t.tags))
      = scheduleTask task := by
  apply List.filter_eq_self.2
  intro t ht
  simp [scheduleTask_tag task t ht]

theorem filter_scheduleTask_other (task other : SyncerTask) (h : other.ID ≠ task.ID) :
    (scheduleTask other).filter (fun t => decide ("syncer:" ++ task.ID ∈ t.tags)) = [] := by
  apply List.filter_eq_nil_iff.2
  intro t ht
  rw [scheduleTask_tag other t ht]
  simp only [decide_eq_true_eq, List.mem_singleton]
  intro hcon
  exact h (tag_injective _ _ hcon.symm)

theorem filter_foldl_schedule_absent (task : SyncerTask) (ts : List SyncerTask)
    (acc : List Job) (h : task.ID ∉ ts.map (fun t => t.ID)) :
    (ts.foldl (fun sch t => sch ++ scheduleTask t) acc).filter
        (fun t => decide ("syncer:" ++ task.ID ∈ t.tags))
      = acc.filter (fun t => decide ("syncer:" ++ task.ID ∈ t.tags)) := by
  induction ts generalizing acc with
  | nil => rfl
  | cons t rest ih =>
    simp only [List.map_cons, List.mem_cons, not_or] at h
    rw [List.foldl_cons, ih _ h.2, List.filter_append,
      filter_scheduleTask_other task t (fun e => h.1 e.symm), List.append_nil]

theorem filter_foldl_schedule (task : SyncerTask) (ts : List SyncerTask) (acc : List Job)
    (hmem : task ∈ ts) (hids : (ts.map (fun t => t.ID)).Nodup) :
    (ts.foldl (fun sch t => sch ++ scheduleTask t) acc).filter
        (fun t => decide ("syncer:" ++ task.ID ∈ t.tags))
      = acc.filter (fun t => decide ("syncer:" ++ task.ID ∈ t.tags)) ++ scheduleTask task := by
  induction ts generalizing acc with
  | nil => simp at hmem
  | cons t rest ih =>
    simp only [List.map_cons, List.nodup_cons] at hids
    rw [List.foldl_cons]
    by_cases ht : t = task
    · subst ht
      rw [filter_foldl_schedule_absent t rest _ hids.1, List.filter_append,
        filter_scheduleTask_self]
    · have hrest : task ∈ rest := by
        rcases List.mem_cons.1 hmem with h | h
        · exact absurd h.symm ht
        · exact h
      have hid : t.ID ≠ task.ID := by
        intro e
        apply hids.1
        rw [e]
        exact List.mem_map.2 ⟨task, hrest, rfl⟩
      rw [ih _ hrest hids.2, List.filter_append, filter_scheduleTask_other task t hid,
        List.append_nil]

/-- The jobs `Schedule` registers under a task's tag are the ones the loop body
registers for that task. -/
theorem Schedule_filter (tasks : List SyncerTask) (task : SyncerTask) (hmem : task ∈ tasks)
    (hids : (tasks.map (fun t => t.ID)).Nodup) :
    (Schedule tasks).filter (fun t => decide ("syncer:" ++ task.ID ∈ t.tags))
      = scheduleTask task := by
  unfold Schedule
  rw [filter_foldl_schedule task tasks [] hmem hids]
  rfl

theorem interval_take (num suf : String) :
    String.mk ((num ++ suf).data.take ((num ++ suf).data.length - suf.data.length)) = num := by
  apply String.ext
  simp

/-- The job `sch.Every(n).Day().Tag(tag).Do(..)` leaves registered for a count above 0. -/
theorem Do_every_day (n : Int) (tag : String) (hn : 0 < n) :
    Do (((Every (.int n)).Day).Tag tag) =
      [{ interval := n, duration := 0, unit := .days, tags := [tag], error := [] }] := by
  have h1 : ¬ n ≤ 0 := not_le.2 hn
  have h2 : n ≠ 0 := by omega
  simp [Do, Every, Job.Day, Job.Tag, h1, h2]

/-- No job stays registered by `sch.Every(n).Day().Tag(tag).Do(..)` for a count of 0 or less. -/
theorem Do_every_day_rejected (n : Int) (tag : String) (hn : n ≤ 0) :
    Do (((Every (.int n)).Day).Tag tag) = [] := by
  by_cases h0 : n = 0 <;> simp [Do, Every, Job.Day, Job.Tag, hn, h0]

/-- The job `sch.Every(s).Tag(tag).Do(..)` leaves registered for a string that
`time.ParseDuration` reads as a duration above 0. -/
theorem Do_every_string (s tag : String) (hok : (ParseDuration s).2 = none)
    (hd : 0 < (ParseDuration s).1) :
    Do ((Every (.string s)).Tag tag) =
      [{ interval := 0, duration := (ParseDuration s).1, unit := .duration, tags := [tag],
         error := [] }] := by
  have h1 : ¬ (ParseDuration s).1 ≤ 0 := not_le.2 hd
  simp [Do, Every, Job.Tag, hok, h1]

/-- No job stays registered by `sch.Every(s).Tag(tag).Do(..)` for a string that
`time.ParseDuration` rejects or reads as a duration of 0 or less. -/
theorem Do_every_string_rejected (s tag : String)
    (h : (ParseDuration s).2 ≠ none ∨ (ParseDuration s).1 ≤ 0) :
    Do ((Every (.string s)).Tag tag) = [] := by
  by_cases hd : (ParseDuration s).1 ≤ 0
  · simp [Do, Every, Job.Tag, hd]
  · cases he : (ParseDuration s).2 with
    | none => exact absurd he (h.resolve_right hd)
    | some e => simp [Do, Every, Job.Tag, hd, he]

theorem scheduleTask_days (task : SyncerTask) (num suf : String) (v : Int)
    (hne : task.Interval ≠ "") (hsuf : suf ∈ ["d", "day", "days"])
    (hint : task.Interval = num ++ suf) (hv : numeralValue num = some v) (hr : isInt64 v) :
    scheduleTask task = Do (((Every (.int v)).Day).Tag ("syncer:" ++ task.ID)) := by
  unfold scheduleTask
  rw [if_pos hne]
  simp only [hint, EndWith_day_suffix num suf hsuf, interval_take, if_true]
  rw [Atoi_numeral num v hv hr]
  simp

theorem scheduleTask_bad_days (task : SyncerTask) (num suf : String)
    (hne : task.Interval ≠ "") (hsuf : suf ∈ ["d", "day", "days"])
    (hint : task.Interval = num ++ suf) (hv : ∀ v, numeralValue num = some v → ¬ isInt64 v) :
    scheduleTask task = [] := by
  unfold scheduleTask
  rw [if_pos hne]
  simp only [hint, EndWith_day_suffix num suf hsuf, interval_take, if_true]
  rw [if_neg (Atoi_error num hv)]

theorem scheduleTask_passthrough (task : SyncerTask) (hne : task.Interval ≠ "")
    (h : ∀ num suf : String, suf ∈ ["d", "day", "days"] → task.Interval ≠ num ++ suf) :
    scheduleTask task = Do ((Every (.string task.Interval)).Tag ("syncer:" ++ task.ID)) := by
  unfold scheduleTask
  rw [if_pos hne]
  simp [EndWith_no_day_suffix task.Interval h]

/-- C10 (as amended): for a registered task (task ids being distinct, as the
keys of the task map are) with a non-empty interval, the jobs `Schedule` leaves
registered with the scheduler under the tag `"syncer:" + task id` are:
exactly one job firing every `n` days when the interval is a base-10 numeral of
64-bit value `n` above 0 followed by `d`, `day` or `days`; no job when the
interval ends with `d`, `day` or `days` and what precedes is not such a
numeral, or is one of value 0 or less, which the scheduler refuses; and when
the interval ends with none of the three it goes unchanged to the scheduler as
a duration string, which leaves exactly one job of the duration
`time.ParseDuration` reads from it when that duration is above 0, and no job
when `time.ParseDuration` rejects the string or reads 0 or less. -/
theorem Schedule_spec (tasks : List SyncerTask) (task : SyncerTask) (hmem : task ∈ tasks)
    (hids : (tasks.map (fun t => t.ID)).Nodup) (hne : task.Interval ≠ "") :
    (∀ (num suf : String) (n : Int), suf ∈ ["d", "day", "days"] →
      task.Interval = num ++ suf → numeralValue num = some n → isInt64 n → 0 < n →
      (Schedule tasks).filter (fun t => decide ("syncer:" ++ task.ID ∈ t.tags))
        = [{ interval := n, duration := 0, unit := .days, tags := ["syncer:" ++ task.ID],
             error := [] }]) ∧
    (∀ (num suf : String), suf ∈ ["d", "day", "days"] →
      task.Interval = num ++ suf →
      (∀ n, numeralValue num = some n → ¬ isInt64 n ∨ n ≤ 0) →
      (Schedule tasks).filter (fun t => decide ("syncer:" ++ task.ID ∈ t.tags)) = []) ∧
    ((∀ num suf : String, suf ∈ ["d", "day", "days"] → task.Interval ≠ num ++ suf) →
      (ParseDuration task.Interval).2 = none → 0 < (ParseDuration task.Interval).1 →
      (Schedule tasks).filter (fun t => decide ("syncer:" ++ task.ID ∈ t.tags))
        = [{ interval := 0, duration := (ParseDuration task.Interval).1, unit := .duration,
             tags := ["syncer:" ++ task.ID], error := [] }]) ∧
    ((∀ num suf : String, suf ∈ ["d", "day", "days"] → task.Interval ≠ num ++ suf) →
      ((ParseDuration task.Interval).2 ≠ none ∨ (ParseDuration task.Interval).1 ≤ 0) →
      (Schedule tasks).filter (fun t => decide ("syncer:" ++ task.ID ∈ t.tags)) = []) := by
  rw [Schedule_filter tasks task hmem hids]
  refine ⟨?_, ?_, ?_, ?_⟩
  · intro num suf n hsuf hint hv hr hpos
    rw [scheduleTask_days task num suf n hne hsuf hint hv hr, Do_every_day n _ hpos]
  · intro num suf hsuf hint hv
    cases hnum : numeralValue num with
    | none =>
      exact scheduleTask_bad_days task num suf hne hsuf hint
        (fun v hv2 => absurd (hnum ▸ hv2) (by simp))
    | some n =>
      by_cases hr : isInt64 n
      · rw [scheduleTask_days task num suf n hne hsuf hint hnum hr]
        exact Do_every_day_rejected n _ ((hv n hnum).resolve_left (not_not.2 hr))
      · exact scheduleTask_bad_days task num suf hne hsuf hint
          (fun v hv2 => by
            rw [hnum] at hv2
            cases hv2
            exact hr)
  · intro h hok hd
    rw [scheduleTask_passthrough task hne h, Do_every_string _ _ hok hd]
  · intro h hbad
    rw [scheduleTask_passthrough task hne h, Do_every_string_rejected _ _ hbad]

end Syncer
namespace Syncer

theorem no_day_suffix_of_HasSuffix (interval : String)
    (h1 : HasSuffix interval "d" = false) (h2 : HasSuffix interval "day" = false)
    (h3 : HasSuffix interval "days" = false) :
    ∀ num suf : String, suf ∈ ["d", "day", "days"] → interval ≠ num ++ suf := by
  intro num suf hsuf hcon
  have hs : HasSuffix interval suf = true :=
    (HasSuffix_iff _ _).2 ⟨num.data, by rw [hcon]; simp⟩
  simp only [List.mem_cons, List.mem_singleton, List.not_mem_nil, or_false] at hsuf
  rcases hsuf with rfl | rfl | rfl
  · rw [h1] at hs; exact Bool.noConfusion hs
  · rw [h2] at hs; exact Bool.noConfusion hs
  · rw [h3] at hs; exact Bool.noConfusion hs

/-- C10, on concrete inputs: with tasks `a` (interval `3d`), `b` (`45s`), `c`
(`xd`), `d` (`0d`) and `e` (`abc`) registered, `a` gets one job every 3 days,
`b` one job of 45 seconds, and `c`, `d` and `e` no job. -/
theorem Schedule_spec_witness :
    (Schedule exampleTasks).filter (fun t => decide ("syncer:" ++ "a" ∈ t.tags))
      = [{ interval := 3, duration := 0, unit := .days, tags := ["syncer:" ++ "a"],
           error := [] }] ∧
    ((Schedule exampleTasks).filter (fun t => decide ("syncer:" ++ "b" ∈ t.tags))
      = [{ interval := 0, duration := (ParseDuration "45s").1, unit := .duration,
           tags := ["syncer:" ++ "b"], error := [] }] ∧
     ParseDuration "45s" = (45000000000, none)) ∧
    (Schedule exampleTasks).filter (fun t => decide ("syncer:" ++ "c" ∈ t.tags)) = [] ∧
    (Schedule exampleTasks).filter (fun t => decide ("syncer:" ++ "d" ∈ t.tags)) = [] ∧
    (Schedule exampleTasks).filter (fun t => decide ("syncer:" ++ "e" ∈ t.tags)) = [] :=
  ⟨(Schedule_spec exampleTasks (exampleTask "a" "3d" 20 1 false) (by simp [exampleTasks])
      (by decide) (by decide)).1 "3" "d" 3 (by simp) (by decide) (by decide) (by decide)
      (by decide),
   ⟨(Schedule_spec exampleTasks (exampleTask "b" "45s" 20 1 false) (by simp [exampleTasks])
      (by decide) (by decide)).2.2.1
      (no_day_suffix_of_HasSuffix "45s" (by decide) (by decide) (by decide)) (by decide)
      (by decide), by decide⟩,
   (Schedule_spec exampleTasks (exampleTask "c" "xd" 20 1 false) (by simp [exampleTasks])
      (by decide) (by decide)).2.1 "x" "d" (by simp) (by decide) (by decide),
   (Schedule_spec exampleTasks (exampleTask "d" "0d" 20 1 false) (by simp [exampleTasks])
      (by decide) (by decide)).2.1 "0" "d" (by simp) (by decide)
      (fun n hn => Or.inr (by
        have h0 : numeralValue "0" = some 0 := by decide
        rw [h0] at hn
        cases hn
        exact le_refl 0)),
   (Schedule_spec exampleTasks (exampleTask "e" "abc" 20 1 false) (by simp [exampleTasks])
      (by decide) (by decide)).2.2.2
      (no_day_suffix_of_HasSuffix "abc" (by decide) (by decide) (by decide))
      (Or.inl (by decide))⟩

/-- C10 as stated fails. The interval `xd` is not an integer followed by a day
suffix, yet it is not handed to the scheduler unchanged: no job is registered.
The interval `0d` is the integer 0 followed by `d`, and `abc` goes to the
scheduler unchanged, yet neither leaves a job under the task's tag: the
scheduler refuses the count 0 and the string that is no duration, and
`Schedule` drops the error. -/
theorem Schedule_drops_bad_day_interval :
    numeralValue "x" = none ∧
    Schedule [exampleTask "c" "xd" 20 1 false] = [] ∧
    numeralValue "0" = some 0 ∧
    Schedule [exampleTask "d" "0d" 20 1 false] = [] ∧
    Schedule [exampleTask "e" "abc" 20 1 false] = [] := by
  decide

/-- The jobs `Schedule` registers for a task do not depend on the task's `At`:
a daily job is not pinned to a time of day. -/
theorem scheduleTask_ignores_At (task : SyncerTask) (time : String) :
    scheduleTask { task with At := time } = scheduleTask task := rfl

end Syncer
namespace Syncer

/-! ## target.go -/

theorem wrap64_of_isInt64 (x : Int) (h : isInt64 x) : wrap64 x = x := by
  unfold isInt64 minInt64 maxInt64 at h
  unfold wrap64
  omega

theorem isInt64_wrap64 (x : Int) : isInt64 (wrap64 x) := by
  unfold isInt64 minInt64 maxInt64 wrap64
  omega

theorem sqlMax_spec (l : List Int) (a : Int) (h : sqlMax l = some a) :
    a ∈ l ∧ ∀ v ∈ l, v ≤ a := by
  induction l generalizing a with
  | nil => simp [sqlMax] at h
  | cons x xs ih =>
    unfold sqlMax at h
    cases hxs : sqlMax xs with
    | none =>
      rw [hxs] at h
      simp only [Option.some.injEq] at h
      subst h
      cases xs with
      | nil => simp
      | cons y ys =>
        unfold sqlMax at hxs
        cases hys : sqlMax ys <;> rw [hys] at hxs <;> simp at hxs
    | some b =>
      rw [hxs] at h
      simp only [Option.some.injEq] at h
      obtain ⟨hb, hle⟩ := ih b hxs
      subst h
      constructor
      · rcases le_total x b with hxb | hxb
        · rw [max_eq_right hxb]
          exact List.mem_cons_of_mem _ hb
        · rw [max_eq_left hxb]
          exact List.mem_cons_self _ _
      · intro v hv
        rcases List.mem_cons.1 hv with rfl | hv
        · exact le_max_left _ _
        · exact le_trans (hle v hv) (le_max_right _ _)

theorem sqlMax_ne_none (l : List Int) (v : Int) (hv : v ∈ l) : sqlMax l ≠ none := by
  cases l with
  | nil => simp at hv
  | cons x xs =>
    unfold sqlMax
    cases sqlMax xs <;> simp

theorem selectMax_spec (field : String) (table : Table) (a : Int)
    (h : selectMax field table = some a) :
    (∃ r ∈ table, intColumn field r = some a) ∧
      ∀ r ∈ table, ∀ v, intColumn field r = some v → v ≤ a := by
  obtain ⟨h1, h2⟩ := sqlMax_spec _ a h
  constructor
  · exact List.mem_filterMap.1 h1
  · intro r hr v hv
    exact h2 v (List.mem_filterMap.2 ⟨r, hr, hv⟩)

theorem selectMax_ne_none (field : String) (table : Table) (r : Row) (v : Int)
    (hr : r ∈ table) (hv : intColumn field r = some v) : selectMax field table ≠ none :=
  sqlMax_ne_none _ v (List.mem_filterMap.2 ⟨r, hr, hv⟩)

/-- What a successful `BeforeSync` with a version field assigns: one more than
the maximum version of the table, reduced to 64 bits. -/
theorem BeforeSync_ok (config : DBTargetConfig) (syncMeta : SyncMeta) (table : Table)
    (dbErr : Option Error) (hvf : config.VersionField ≠ "")
    (hok : (DBTarget.BeforeSync config syncMeta table dbErr).2 = none) :
    ∃ a, selectMax config.VersionField table = some a ∧
      (DBTarget.BeforeSync config syncMeta table dbErr).1.Version = wrap64 (a + 1) := by
  unfold DBTarget.BeforeSync at hok ⊢
  rw [if_pos hvf] at hok ⊢
  cases dbErr with
  | some e => simp at hok
  | none =>
    cases hmax : selectMax config.VersionField table with
    | none => simp [hmax] at hok
    | some a => exact ⟨a, rfl, by simp⟩

end Syncer
namespace Syncer

theorem intColumn_set_ne (r : Row) (field other : String) (x : Value) (h : other ≠ field) :
    intColumn field (r.set other x) = intColumn field r := by
  unfold intColumn Row.set
  have : ¬ field = other := fun e => h e.symm
  simp [this]

/-- The table a successful `AfterSync` leaves, with both fields configured and
a retention window: the rows older than the run marked, then the rows below
the window deleted. -/
theorem AfterSync_success (config : DBTargetConfig) (syncMeta : SyncMeta) (table : Table)
    (updErr delErr : Option Error) (hvf : config.VersionField ≠ "")
    (hsf : config.SyncStatusField ≠ "") (hM : 0 < config.MaxVersion)
    (hok : (DBTarget.AfterSync config syncMeta table updErr delErr).2 = none) :
    (DBTarget.AfterSync config syncMeta table updErr delErr).1 =
      (table.map (fun r =>
        if columnLt config.VersionField syncMeta.Version r
        then r.set config.SyncStatusField (.int 0) else r)).filter (fun r =>
        !(columnLt config.VersionField (wrap64 (syncMeta.Version - config.MaxVersion)) r
          && columnGt config.VersionField 0 r)) := by
  unfold DBTarget.AfterSync markInactive deleteOld at hok ⊢
  simp only [hvf, hsf, hM, ne_eq, not_false_eq_true, and_self, if_true] at hok ⊢
  cases updErr with
  | some e => simp at hok
  | none =>
    cases delErr with
    | some e => simp at hok
    | none => rfl

theorem no_wrap_of_pos (V M v : Int) (hV : isInt64 V) (hM : isInt64 M) (hMpos : 0 < M)
    (hv : 0 < v) (hvV : v ≤ V) : wrap64 (V - M) = V - M := by
  apply wrap64_of_isInt64
  unfold isInt64 minInt64 maxInt64 at *
  omega

/-- A row stamped with the run's own version is still in the table, unchanged,
after `AfterSync`, whatever the configuration and whether or not its statements fail. -/
theorem AfterSync_keeps_current (config : DBTargetConfig) (syncMeta : SyncMeta) (table : Table)
    (updErr delErr : Option Error) (hV : isInt64 syncMeta.Version)
    (hM : isInt64 config.MaxVersion) (r : Row) (hr : r ∈ table)
    (hver : intColumn config.VersionField r = some syncMeta.Version) :
    r ∈ (DBTarget.AfterSync config syncMeta table updErr delErr).1 := by
  have hlt : columnLt config.VersionField syncMeta.Version r = false := by
    simp [columnLt, hver]
  have hmark : r ∈ (markInactive config syncMeta table updErr).1 := by
    unfold markInactive
    split_ifs
    · cases updErr with
      | some e => exact hr
      | none => exact List.mem_map.2 ⟨r, hr, by simp [hlt]⟩
    · exact hr
  unfold DBTarget.AfterSync
  simp only
  cases hm2 : (markInactive config syncMeta table updErr).2 with
  | some e => exact hmark
  | none =>
    simp only
    unfold deleteOld
    split_ifs with hc
    · cases delErr with
      | some e => exact hmark
      | none =>
        simp only
        apply List.mem_filter.2
        refine ⟨hmark, ?_⟩
        by_cases hpos : 0 < syncMeta.Version
        · have hw := no_wrap_of_pos syncMeta.Version config.MaxVersion syncMeta.Version hV hM
            hc.2 hpos le_rfl
          have : ¬ syncMeta.Version < syncMeta.Version - config.MaxVersion := by
            have := hc.2
            omega
          simp [columnLt, hver, hw, this]
        · simp [columnGt, hver, hpos]
    · exact hmark

/-- Every row of the table after `AfterSync` is a row of the table before,
possibly with its status column set to 0. -/
theorem AfterSync_origin (config : DBTargetConfig) (syncMeta : SyncMeta) (table : Table)
    (updErr delErr : Option Error) (r' : Row)
    (hr' : r' ∈ (DBTarget.AfterSync config syncMeta table updErr delErr).1) :
    ∃ r ∈ table, r' = r ∨ r' = r.set config.SyncStatusField (.int 0) := by
  have hmark : ∀ x ∈ (markInactive config syncMeta table updErr).1,
      ∃ r ∈ table, x = r ∨ x = r.set config.SyncStatusField (.int 0) := by
    intro x hx
    unfold markInactive at hx
    split_ifs at hx
    · cases updErr with
      | some e => exact ⟨x, hx, Or.inl rfl⟩
      | none =>
        obtain ⟨r, hr, hrx⟩ := List.mem_map.1 hx
        refine ⟨r, hr, ?_⟩
        split_ifs at hrx
        · exact Or.inr hrx.symm
        · exact Or.inl hrx.symm
    · exact ⟨x, hx, Or.inl rfl⟩
  unfold DBTarget.AfterSync at hr'
  simp only at hr'
  cases hm2 : (markInactive config syncMeta table updErr).2 with
  | some e =>
    rw [hm2] at hr'
    exact hmark r' hr'
  | none =>
    rw [hm2] at hr'
    simp only at hr'
    unfold deleteOld at hr'
    split_ifs at hr'
    · cases delErr with
      | some e => exact hmark r' hr'
      | none => exact hmark r' (List.mem_filter.1 hr').1
    · exact hmark r' hr'

end Syncer
namespace Syncer

/-- C5 (as amended): with the version and status fields configured (two
different columns) and a retention window `M > 0`, after `AfterSync` succeeds
for a run of version `V`: the table holds no row with `0 < version < V - M`
(they are deleted); every row with `version < V` that is not in that range,
which is every row with `V - M <= version < V` and also every row with
`version <= 0`, remains and is marked inactive (status 0); every row with
`version = V` remains unchanged. -/
theorem AfterSync_spec (config : DBTargetConfig) (syncMeta : SyncMeta) (table : Table)
    (updErr delErr : Option Error) (hvf : config.VersionField ≠ "")
    (hsf : config.SyncStatusField ≠ "") (hne : config.SyncStatusField ≠ config.VersionField)
    (hM : 0 < config.MaxVersion) (hMr : isInt64 config.MaxVersion)
    (hV : isInt64 syncMeta.Version)
    (hok : (DBTarget.AfterSync config syncMeta table updErr delErr).2 = none) :
    (∀ r ∈ (DBTarget.AfterSync config syncMeta table updErr delErr).1, ∀ v,
      intColumn config.VersionField r = some v →
      ¬ (0 < v ∧ v < syncMeta.Version - config.MaxVersion)) ∧
    (∀ r ∈ table, ∀ v, intColumn config.VersionField r = some v → v < syncMeta.Version →
      ¬ (0 < v ∧ v < syncMeta.Version - config.MaxVersion) →
      r.set config.SyncStatusField (.int 0)
        ∈ (DBTarget.AfterSync config syncMeta table updErr delErr).1) ∧
    (∀ r ∈ table, intColumn config.VersionField r = some syncMeta.Version →
      r ∈ (DBTarget.AfterSync config syncMeta table updErr delErr).1) := by
  refine ⟨?_, ?_, ?_⟩
  · rw [AfterSync_success config syncMeta table updErr delErr hvf hsf hM hok]
    intro r hr v hv hcon
    have hkeep := (List.mem_filter.1 hr).2
    have hw := no_wrap_of_pos syncMeta.Version config.MaxVersion v hV hMr hM hcon.1 (by omega)
    simp [columnLt, columnGt, hv, hw, hcon.1, hcon.2] at hkeep
  · rw [AfterSync_success config syncMeta table updErr delErr hvf hsf hM hok]
    intro r hr v hv hlt hnot
    apply List.mem_filter.2
    constructor
    · exact List.mem_map.2 ⟨r, hr, by simp [columnLt, hv, hlt]⟩
    · have hv2 : intColumn config.VersionField (r.set config.SyncStatusField (.int 0)) = some v := by
        rw [intColumn_set_ne r _ _ _ hne, hv]
      by_cases hpos : 0 < v
      · have hw := no_wrap_of_pos syncMeta.Version config.MaxVersion v hV hMr hM hpos (by omega)
        have : ¬ v < syncMeta.Version - config.MaxVersion := fun h => hnot ⟨hpos, h⟩
        simp [columnLt, hv2, hw, this]
      · simp [columnGt, hv2, hpos]
  · intro r hr hv
    exact AfterSync_keeps_current config syncMeta table updErr delErr hV hMr r hr hv

/-- C5, on the claim's example: window 3, run version 10. Rows of versions 3 and
6 are deleted, rows of versions 7 and 9 are inactive, the row of version 10
stays active; the row of version 0 is kept, inactive. -/
theorem AfterSync_spec_witness :
    versionsAndStatus (DBTarget.AfterSync (exampleDBConfig 3) (exampleMeta 10)
        [exampleRow 0 1, exampleRow 3 1, exampleRow 6 1, exampleRow 7 1, exampleRow 9 1,
          exampleRow 10 1] none none).1
      = [(some (.int 0), some (.int 0)), (some (.int 7), some (.int 0)),
         (some (.int 9), some (.int 0)), (some (.int 10), some (.int 1))] ∧
    (∀ r ∈ (DBTarget.AfterSync (exampleDBConfig 3) (exampleMeta 10)
        [exampleRow 0 1, exampleRow 3 1, exampleRow 6 1, exampleRow 7 1, exampleRow 9 1,
          exampleRow 10 1] none none).1, ∀ v,
      intColumn "version" r = some v → ¬ (0 < v ∧ v < 10 - 3)) :=
  ⟨by decide,
   (AfterSync_spec (exampleDBConfig 3) (exampleMeta 10) _ none none (by decide) (by decide)
     (by decide) (by decide) (by decide) (by decide) rfl).1⟩

/-- C5 as stated fails: with window 3 and run version 10 a row of version 0 is
below `10 - 3` and yet is not deleted. -/
theorem AfterSync_keeps_version_zero :
    (DBTarget.AfterSync (exampleDBConfig 3) (exampleMeta 10) [exampleRow 0 1] none none).2
      = none ∧
    versionsAndStatus
      (DBTarget.AfterSync (exampleDBConfig 3) (exampleMeta 10) [exampleRow 0 1] none none).1
      = [(some (.int 0), some (.int 0))] := by
  decide

end Syncer
namespace Syncer

theorem intColumn_after_origin (config : DBTargetConfig) (r r' : Row) (v : Int)
    (h : r' = r ∨ r' = r.set config.SyncStatusField (.int 0))
    (hv : intColumn config.VersionField r' = some v) :
    intColumn config.VersionField r = some v ∨ v = 0 := by
  rcases h with rfl | rfl
  · exact Or.inl hv
  · by_cases hne : config.SyncStatusField = config.VersionField
    · right
      rw [hne] at hv
      simp [intColumn, Row.set] at hv
      exact hv.symm
    · left
      rw [intColumn_set_ne r _ _ _ hne] at hv
      exact hv

theorem intColumn_exampleRow (version status : Int) :
    intColumn "version" (exampleRow version status) = some version := by
  simp [intColumn, exampleRow, Row.set]

/-- With a status field that is not the version field, every row of the table
after `AfterSync` records the version that a row of the table before records. -/
theorem AfterSync_version_origin (config : DBTargetConfig) (syncMeta : SyncMeta) (table : Table)
    (updErr delErr : Option Error) (hne : config.SyncStatusField ≠ config.VersionField)
    (r' : Row) (hr' : r' ∈ (DBTarget.AfterSync config syncMeta table updErr delErr).1) :
    ∃ r ∈ table, intColumn config.VersionField r' = intColumn config.VersionField r := by
  obtain ⟨r, hr, hor⟩ := AfterSync_origin config syncMeta table updErr delErr r' hr'
  refine ⟨r, hr, ?_⟩
  rcases hor with rfl | rfl
  · rfl
  · exact intColumn_set_ne r _ _ _ hne

/-- With a status field that is not the version field, a row that records the
version just below the run's is still in the table after `AfterSync`, with
that version, whether or not the statements of `AfterSync` fail. -/
theorem AfterSync_keeps_previous (config : DBTargetConfig) (syncMeta : SyncMeta) (table : Table)
    (updErr delErr : Option Error) (hV : isInt64 syncMeta.Version)
    (hM : isInt64 config.MaxVersion) (hne : config.SyncStatusField ≠ config.VersionField)
    (r : Row) (hr : r ∈ table) (a : Int) (hver : intColumn config.VersionField r = some a)
    (ha : syncMeta.Version = a + 1) :
    ∃ r' ∈ (DBTarget.AfterSync config syncMeta table updErr delErr).1,
      intColumn config.VersionField r' = some a := by
  have hmark : ∃ r1 ∈ (markInactive config syncMeta table updErr).1,
      intColumn config.VersionField r1 = some a := by
    unfold markInactive
    split_ifs
    · cases updErr with
      | some e => exact ⟨r, hr, hver⟩
      | none =>
        refine ⟨_, List.mem_map.2 ⟨r, hr, rfl⟩, ?_⟩
        split_ifs
        · rw [intColumn_set_ne r _ _ _ hne]
          exact hver
        · exact hver
    · exact ⟨r, hr, hver⟩
  obtain ⟨r1, hr1, hver1⟩ := hmark
  unfold DBTarget.AfterSync
  simp only
  cases hm2 : (markInactive config syncMeta table updErr).2 with
  | some e => exact ⟨r1, hr1, hver1⟩
  | none =>
    simp only
    unfold deleteOld
    split_ifs with hc
    · cases delErr with
      | some e => exact ⟨r1, hr1, hver1⟩
      | none =>
        simp only
        refine ⟨r1, List.mem_filter.2 ⟨hr1, ?_⟩, hver1⟩
        by_cases hpos : 0 < a
        · have hw := no_wrap_of_pos syncMeta.Version config.MaxVersion syncMeta.Version hV hM
            hc.2 (by omega) le_rfl
          have : ¬ a < syncMeta.Version - config.MaxVersion := by
            have := hc.2
            omega
          simp [columnLt, hver1, hw, this]
        · simp [columnGt, hver1, hpos]
    · exact ⟨r1, hr1, hver1⟩

/-- C4 (as amended): for a config with a version field and a table whose
recorded versions are 64-bit integers below `2 ^ 63 - 1`, the version a
successful `BeforeSync` assigns is the maximum version recorded in the table
plus one, so strictly greater than every version recorded in the table. Of two
runs in succession (`BeforeSync`, page writes, `AfterSync`, `BeforeSync`
again) the second gets a strictly greater version than the first whenever the
table, after the page writes of the first run, holds at least one row stamped
with the first run's version; and the second gets the same version as the first
when the page writes of the first run left the table as it was and the status
field is not the version field. -/
theorem BeforeSync_version_spec (config : DBTargetConfig) (hvf : config.VersionField ≠ "")
    (hMr : isInt64 config.MaxVersion) :
    (∀ (syncMeta : SyncMeta) (table : Table) (dbErr : Option Error),
      (∀ r ∈ table, ∀ v, intColumn config.VersionField r = some v → isInt64 v ∧ v < maxInt64) →
      (DBTarget.BeforeSync config syncMeta table dbErr).2 = none →
      ∃ a, selectMax config.VersionField table = some a ∧
        (∃ r ∈ table, intColumn config.VersionField r = some a) ∧
        (∀ r ∈ table, ∀ v, intColumn config.VersionField r = some v → v ≤ a) ∧
        (DBTarget.BeforeSync config syncMeta table dbErr).1.Version = a + 1 ∧
        ∀ r ∈ table, ∀ v, intColumn config.VersionField r = some v →
          v < (DBTarget.BeforeSync config syncMeta table dbErr).1.Version) ∧
    (∀ (meta1 metaA meta2 : SyncMeta) (table0 table1 : Table)
        (dbErr1 updErr delErr dbErr2 : Option Error),
      (DBTarget.BeforeSync config meta1 table0 dbErr1).2 = none →
      metaA.Version = (DBTarget.BeforeSync config meta1 table0 dbErr1).1.Version →
      (∃ r ∈ table1, intColumn config.VersionField r = some metaA.Version) →
      (∀ r ∈ table1, ∀ v, intColumn config.VersionField r = some v → isInt64 v ∧ v < maxInt64) →
      (DBTarget.BeforeSync config meta2
        (DBTarget.AfterSync config metaA table1 updErr delErr).1 dbErr2).2 = none →
      metaA.Version < (DBTarget.BeforeSync config meta2
        (DBTarget.AfterSync config metaA table1 updErr delErr).1 dbErr2).1.Version) ∧
    (∀ (meta1 metaA meta2 : SyncMeta) (table0 : Table)
        (dbErr1 updErr delErr dbErr2 : Option Error),
      config.SyncStatusField ≠ config.VersionField →
      (∀ r ∈ table0, ∀ v, intColumn config.VersionField r = some v → isInt64 v ∧ v < maxInt64) →
      (DBTarget.BeforeSync config meta1 table0 dbErr1).2 = none →
      metaA.Version = (DBTarget.BeforeSync config meta1 table0 dbErr1).1.Version →
      (DBTarget.BeforeSync config meta2
        (DBTarget.AfterSync config metaA table0 updErr delErr).1 dbErr2).2 = none →
      (DBTarget.BeforeSync config meta2
        (DBTarget.AfterSync config metaA table0 updErr delErr).1 dbErr2).1.Version
        = metaA.Version) := by
  refine ⟨?_, ?_, ?_⟩
  · intro syncMeta table dbErr hb hok
    obtain ⟨a, ha, hver⟩ := BeforeSync_ok config syncMeta table dbErr hvf hok
    obtain ⟨⟨ra, hra, hraa⟩, hmax⟩ := selectMax_spec _ _ _ ha
    have hab := hb ra hra a hraa
    have hw : wrap64 (a + 1) = a + 1 := by
      apply wrap64_of_isInt64
      unfold isInt64 minInt64 maxInt64 at *
      omega
    refine ⟨a, ha, ⟨ra, hra, hraa⟩, hmax, by rw [hver, hw], ?_⟩
    intro r hr v hv
    have hle := hmax r hr v hv
    rw [hver, hw]
    omega
  · intro meta1 metaA meta2 table0 table1 dbErr1 updErr delErr dbErr2 hok1 hA hrow hb hok2
    obtain ⟨a1, _, hver1⟩ := BeforeSync_ok config meta1 table0 dbErr1 hvf hok1
    have hV : isInt64 metaA.Version := by
      rw [hA, hver1]
      exact isInt64_wrap64 _
    obtain ⟨r, hr, hrv⟩ := hrow
    have hkeep := AfterSync_keeps_current config metaA table1 updErr delErr hV hMr r hr hrv
    obtain ⟨a, ha, hver⟩ := BeforeSync_ok config meta2 _ dbErr2 hvf hok2
    obtain ⟨⟨ra, hra, hraa⟩, hmax⟩ := selectMax_spec _ _ _ ha
    have hle := hmax r hkeep _ hrv
    obtain ⟨r0, hr0, hor⟩ := AfterSync_origin config metaA table1 updErr delErr ra hra
    have hbound : isInt64 a ∧ a < maxInt64 := by
      rcases intColumn_after_origin config r0 ra a hor hraa with h | h
      · exact hb r0 hr0 a h
      · subst h
        unfold isInt64 minInt64 maxInt64
        omega
    rw [hver, wrap64_of_isInt64]
    · omega
    · unfold isInt64 minInt64 maxInt64 at *
      omega
  · intro meta1 metaA meta2 table0 dbErr1 updErr delErr dbErr2 hne hb hok1 hA hok2
    obtain ⟨a1, ha1, hver1⟩ := BeforeSync_ok config meta1 table0 dbErr1 hvf hok1
    obtain ⟨⟨r1, hr1, hr1a⟩, hmax1⟩ := selectMax_spec _ _ _ ha1
    have hb1 := hb r1 hr1 a1 hr1a
    have hw1 : wrap64 (a1 + 1) = a1 + 1 := by
      apply wrap64_of_isInt64
      unfold isInt64 minInt64 maxInt64 at *
      omega
    have hVA : metaA.Version = a1 + 1 := by rw [hA, hver1, hw1]
    have hV : isInt64 metaA.Version := by
      rw [hA, hver1]
      exact isInt64_wrap64 _
    obtain ⟨rk, hrk, hrka⟩ := AfterSync_keeps_previous config metaA table0 updErr delErr hV hMr
      hne r1 hr1 a1 hr1a hVA
    obtain ⟨a2, ha2, hver2⟩ := BeforeSync_ok config meta2 _ dbErr2 hvf hok2
    obtain ⟨⟨r2, hr2, hr2a⟩, hmax2⟩ := selectMax_spec _ _ _ ha2
    have hge : a1 ≤ a2 := hmax2 rk hrk a1 hrka
    obtain ⟨r0, hr0, hsame⟩ :=
      AfterSync_version_origin config metaA table0 updErr delErr hne r2 hr2
    rw [hr2a] at hsame
    have hle : a2 ≤ a1 := hmax1 r0 hr0 a2 hsame.symm
    have heq : a2 = a1 := le_antisymm hle hge
    rw [hver2, heq, hw1, hVA]

/-- C4, on concrete inputs: a table whose greatest version is 5 gives version
6; after page writes that leave a row of version 6, the next run gets 7; after
page writes that leave the table as it was, the next run gets 6 again. -/
theorem BeforeSync_version_spec_witness :
    (∃ a, selectMax "version" [exampleRow 2 0, exampleRow 5 1] = some a ∧
      (∃ r ∈ [exampleRow 2 0, exampleRow 5 1], intColumn "version" r = some a) ∧
      (∀ r ∈ [exampleRow 2 0, exampleRow 5 1], ∀ v, intColumn "version" r = some v → v ≤ a) ∧
      (DBTarget.BeforeSync (exampleDBConfig 3) (exampleMeta 0)
        [exampleRow 2 0, exampleRow 5 1] none).1.Version = a + 1 ∧
      ∀ r ∈ [exampleRow 2 0, exampleRow 5 1], ∀ v, intColumn "version" r = some v →
        v < (DBTarget.BeforeSync (exampleDBConfig 3) (exampleMeta 0)
              [exampleRow 2 0, exampleRow 5 1] none).1.Version) ∧
    (DBTarget.BeforeSync (exampleDBConfig 3) (exampleMeta 0)
      [exampleRow 2 0, exampleRow 5 1] none).1.Version = 6 ∧
    (6 : Int) < (DBTarget.BeforeSync (exampleDBConfig 3) (exampleMeta 0)
      (DBTarget.AfterSync (exampleDBConfig 3) (exampleMeta 6)
        [exampleRow 2 0, exampleRow 5 1, exampleRow 6 1] none none).1 none).1.Version ∧
    (DBTarget.BeforeSync (exampleDBConfig 3) (exampleMeta 0)
      (DBTarget.AfterSync (exampleDBConfig 3) (exampleMeta 6)
        [exampleRow 2 0, exampleRow 5 1] none none).1 none).1.Version = 6 :=
  ⟨(BeforeSync_version_spec (exampleDBConfig 3) (by decide) (by decide)).1 (exampleMeta 0)
      [exampleRow 2 0, exampleRow 5 1] none
      (by
        intro r hr v hv
        simp only [List.mem_cons, List.mem_singleton, List.not_mem_nil, or_false] at hr
        rcases hr with rfl | rfl <;>
          · rw [show (exampleDBConfig 3).VersionField = "version" from rfl,
              intColumn_exampleRow] at hv
            cases hv
            decide)
      rfl,
   by decide,
   (BeforeSync_version_spec (exampleDBConfig 3) (by decide) (by decide)).2.1 (exampleMeta 0)
      (exampleMeta 6) (exampleMeta 0) [exampleRow 2 0, exampleRow 5 1]
      [exampleRow 2 0, exampleRow 5 1, exampleRow 6 1] none none none none rfl (by decide)
      ⟨exampleRow 6 1, by simp, by decide⟩
      (by
        intro r hr v hv
        simp only [List.mem_cons, List.mem_singleton, List.not_mem_nil, or_false] at hr
        rcases hr with rfl | rfl | rfl <;>
          · rw [show (exampleDBConfig 3).VersionField = "version" from rfl,
              intColumn_exampleRow] at hv
            cases hv
            decide)
      rfl,
   (BeforeSync_version_spec (exampleDBConfig 3) (by decide) (by decide)).2.2 (exampleMeta 0)
      (exampleMeta 6) (exampleMeta 0) [exampleRow 2 0, exampleRow 5 1] none none none none
      (by decide)
      (by
        intro r hr v hv
        simp only [List.mem_cons, List.mem_singleton, List.not_mem_nil, or_false] at hr
        rcases hr with rfl | rfl <;>
          · rw [show (exampleDBConfig 3).VersionField = "version" from rfl,
              intColumn_exampleRow] at hv
            cases hv
            decide)
      rfl (by decide) rfl⟩

/-- C4 as stated fails. A first run on a table whose greatest version is 5 gets
version 6; when its page writes change nothing (every page was empty, or every
write failed), the next run gets version 6 again. And on a table that records
version `2 ^ 63 - 1` the assigned version wraps to `-2 ^ 63`. -/
theorem BeforeSync_repeats_version :
    (DBTarget.BeforeSync (exampleDBConfig 3) (exampleMeta 0) [exampleRow 5 1] none)
      = ({ exampleMeta 0 with Version := 6 }, none) ∧
    (DBTarget.BeforeSync (exampleDBConfig 3) (exampleMeta 0)
      (DBTarget.AfterSync (exampleDBConfig 3) { exampleMeta 6 with Status := SyncStatusSuccess }
        [exampleRow 5 1] none none).1 none)
      = ({ exampleMeta 0 with Version := 6 }, none) ∧
    (DBTarget.BeforeSync (exampleDBConfig 3) (exampleMeta 0)
      [exampleRow 9223372036854775807 1] none)
      = ({ exampleMeta 0 with Version := -9223372036854775808 }, none) := by
  decide

end Syncer
namespace Syncer

/-! ## The field mapping loop -/

theorem splitChars_ne_nil (sep : Char) (l : List Char) : splitChars sep l ≠ [] := by
  cases l with
  | nil => simp [splitChars]
  | cons c cs =>
    unfold splitChars
    split_ifs
    · simp
    · cases splitChars sep cs <;> simp

theorem splitChars_cons (sep c : Char) (cs : List Char) :
    splitChars sep (c :: cs) =
      if c = sep then [] :: splitChars sep cs
      else
        match splitChars sep cs with
        | [] => [[c]]
        | p :: ps => (c :: p) :: ps := rfl

theorem splitChars_no_sep (sep : Char) (a : List Char) (h : sep ∉ a) :
    splitChars sep a = [a] := by
  induction a with
  | nil => rfl
  | cons c cs ih =>
    simp only [List.mem_cons, not_or] at h
    rw [splitChars_cons, if_neg (fun e => h.1 e.symm), ih h.2]

theorem splitChars_append_sep (sep : Char) (a rest : List Char) (h : sep ∉ a) :
    splitChars sep (a ++ sep :: rest) = a :: splitChars sep rest := by
  induction a with
  | nil => simp [splitChars]
  | cons c cs ih =>
    simp only [List.mem_cons, not_or] at h
    rw [List.cons_append, splitChars_cons, if_neg (fun e => h.1 e.symm), ih h.2]

theorem splitChars_joinSep (sep : Char) (ps : List (List Char)) (hne : ps ≠ [])
    (h : ∀ p ∈ ps, sep ∉ p) : splitChars sep (joinSep sep ps) = ps := by
  induction ps with
  | nil => exact absurd rfl hne
  | cons p rest ih =>
    cases rest with
    | nil => exact splitChars_no_sep sep p (h p (by simp))
    | cons q rest2 =>
      unfold joinSep
      rw [splitChars_append_sep sep p _ (h p (by simp)),
        ih (by simp) (fun x hx => h x (List.mem_cons_of_mem _ hx))]

theorem mem_joinSep (sep c : Char) (ps : List (List Char)) (hc : c ∈ joinSep sep ps) :
    c = sep ∨ ∃ p ∈ ps, c ∈ p := by
  induction ps with
  | nil => simp [joinSep] at hc
  | cons p rest ih =>
    cases rest with
    | nil => exact Or.inr ⟨p, by simp, hc⟩
    | cons q rest2 =>
      unfold joinSep at hc
      rcases List.mem_append.1 hc with h | h
      · exact Or.inr ⟨p, by simp, h⟩
      · rcases List.mem_cons.1 h with h | h
        · exact Or.inl h
        · rcases ih h with h2 | ⟨x, hx, hcx⟩
          · exact Or.inl h2
          · exact Or.inr ⟨x, List.mem_cons_of_mem _ hx, hcx⟩

/-- Splitting undoes joining, for pieces that hold no separator. -/
theorem Split_joinWith (sep : Char) (ps : List String) (hne : ps ≠ [])
    (h : ∀ p ∈ ps, sep ∉ p.data) : Split (joinWith sep ps) sep = ps := by
  unfold Split joinWith
  simp only
  rw [splitChars_joinSep sep (ps.map String.data) (by simpa using hne)]
  · rw [List.map_map]
    conv_rhs => rw [← List.map_id ps]
    apply List.map_congr_left
    intro p _
    rfl
  · intro p hp
    obtain ⟨s, hs, rfl⟩ := List.mem_map.1 hp
    exact h s hs

theorem not_mem_joinWith (sep c : Char) (ps : List String) (hsep : c ≠ sep)
    (h : ∀ p ∈ ps, c ∉ p.data) : c ∉ (joinWith sep ps).data := by
  intro hc
  rcases mem_joinSep sep c _ hc with h1 | ⟨p, hp, hcp⟩
  · exact hsep h1
  · obtain ⟨s, hs, rfl⟩ := List.mem_map.1 hp
    exact h s hs hcp

theorem renderStage_avoids (st : Stage) (hst : st.wellFormed) (c : Char)
    (hc : c = '|' ∨ c = ';') : c ∉ (renderStage st).data := by
  obtain ⟨hname, hargs⟩ := hst
  have hcname : c ∉ st.name.data := by
    rcases hc with rfl | rfl
    · exact hname '|' (by simp)
    · exact hname ';' (by simp)
  unfold renderStage
  cases ha : st.args with
  | none => exact hcname
  | some as =>
    rw [ha] at hargs
    simp only
    apply not_mem_joinWith
    · rcases hc with rfl | rfl <;> decide
    · intro p hp
      simp only [List.mem_cons, List.mem_singleton, List.not_mem_nil, or_false] at hp
      rcases hp with rfl | rfl
      · exact hcname
      · apply not_mem_joinWith
        · rcases hc with rfl | rfl <;> decide
        · intro a haa
          rcases hc with rfl | rfl
          · exact hargs.2 a haa '|' (by simp)
          · exact hargs.2 a haa ';' (by simp)

/-- One rendered stage does what the stage says: the named resolver applied
with the stage's own arguments. -/
theorem applyResolver_renderStage (valueResolvers : Registry) (m : Row) (value : Value)
    (st : Stage) (hst : st.wellFormed) :
    applyResolver valueResolvers m value (renderStage st)
      = ResolveValue valueResolvers value m st.name (st.args.getD []) := by
  obtain ⟨hname, hargs⟩ := hst
  unfold applyResolver renderStage
  cases ha : st.args with
  | none =>
    simp only
    have : Split st.name ':' = [st.name] := by
      have := Split_joinWith ':' [st.name] (by simp) (by
        intro p hp
        rw [List.mem_singleton] at hp
        subst hp
        exact hname ':' (by simp))
      simpa [joinWith, joinSep] using this
    rw [this]
    rfl
  | some as =>
    rw [ha] at hargs
    simp only
    have hargstr : ':' ∉ (joinWith ',' as).data := by
      apply not_mem_joinWith
      · decide
      · intro a haa
        exact hargs.2 a haa ':' (by simp)
    rw [Split_joinWith ':' [st.name, joinWith ',' as] (by simp) (by
      intro p hp
      simp only [List.mem_cons, List.mem_singleton, List.not_mem_nil, or_false] at hp
      rcases hp with rfl | rfl
      · exact hname ':' (by simp)
      · exact hargstr)]
    simp only
    rw [Split_joinWith ',' as hargs.1 (fun a haa => hargs.2 a haa ',' (by simp))]
    rfl

theorem foldl_applyResolver_render (valueResolvers : Registry) (m : Row) (stages : List Stage)
    (value : Value) (hst : ∀ st ∈ stages, st.wellFormed) :
    (stages.map renderStage).foldl (applyResolver valueResolvers m) value
      = applyStages valueResolvers m value stages := by
  induction stages generalizing value with
  | nil => rfl
  | cons st rest ih =>
    rw [List.map_cons, List.foldl_cons, applyResolver_renderStage _ _ _ st (hst st (by simp)),
      ih _ (fun x hx => hst x (List.mem_cons_of_mem _ hx))]
    rfl

/-- One rendered group does what the group says: its stages applied to the
running value, the result stored under its first token and carried on. -/
theorem applyPart_renderGroup (valueResolvers : Registry) (m : Row) (st : Row × Value)
    (dest : String) (stages : List Stage) (hdest : avoids dest ['|', ';'])
    (hst : ∀ s ∈ stages, s.wellFormed) :
    applyPart valueResolvers m st (renderGroup dest stages)
      = (st.1.set dest (applyStages valueResolvers m st.2 stages),
         applyStages valueResolvers m st.2 stages) := by
  unfold applyPart renderGroup
  rw [Split_joinWith '|' (dest :: stages.map renderStage) (by simp) (by
    intro p hp
    rcases List.mem_cons.1 hp with rfl | hp
    · exact hdest '|' (by simp)
    · obtain ⟨s, hs, rfl⟩ := List.mem_map.1 hp
      exact renderStage_avoids s (hst s hs) '|' (Or.inl rfl))]
  simp only [List.headD_cons, List.tail_cons]
  rw [foldl_applyResolver_render _ _ _ _ hst]

theorem renderGroup_avoids (dest : String) (stages : List Stage) (hdest : avoids dest ['|', ';'])
    (hst : ∀ s ∈ stages, s.wellFormed) : ';' ∉ (renderGroup dest stages).data := by
  unfold renderGroup
  apply not_mem_joinWith
  · decide
  · intro p hp
    rcases List.mem_cons.1 hp with rfl | hp
    · exact hdest ';' (by simp)
    · obtain ⟨s, hs, rfl⟩ := List.mem_map.1 hp
      exact renderStage_avoids s (hst s hs) ';' (Or.inr rfl)

end Syncer
namespace Syncer

theorem applyStages_append (valueResolvers : Registry) (m : Row) (value : Value)
    (a b : List Stage) :
    applyStages valueResolvers m value (a ++ b)
      = applyStages valueResolvers m (applyStages valueResolvers m value a) b := by
  unfold applyStages
  rw [List.foldl_append]

theorem stagesOf_cons (g : String × List Stage) (gs : List (String × List Stage)) :
    stagesOf (g :: gs) = g.2 ++ stagesOf gs := rfl

theorem foldl_applyPart_value (valueResolvers : Registry) (m : Row)
    (groups : List (String × List Stage)) (st : Row × Value)
    (hwf : ∀ g ∈ groups, groupWellFormed g) :
    ((groups.map (fun g => renderGroup g.1 g.2)).foldl (applyPart valueResolvers m) st).2
      = applyStages valueResolvers m st.2 (stagesOf groups) := by
  induction groups generalizing st with
  | nil => rfl
  | cons g rest ih =>
    rw [List.map_cons, List.foldl_cons,
      applyPart_renderGroup _ _ _ g.1 g.2 (hwf g (by simp)).1 (hwf g (by simp)).2,
      ih _ (fun x hx => hwf x (List.mem_cons_of_mem _ hx)), stagesOf_cons, applyStages_append]

theorem foldl_applyPart_untouched (valueResolvers : Registry) (m : Row) (parts : List String)
    (st : Row × Value) (dest : String)
    (h : dest ∉ parts.map (fun part => (Split part '|').headD "")) :
    (parts.foldl (applyPart valueResolvers m) st).1 dest = st.1 dest := by
  induction parts generalizing st with
  | nil => rfl
  | cons p rest ih =>
    simp only [List.map_cons, List.mem_cons, not_or] at h
    rw [List.foldl_cons, ih _ h.2]
    unfold applyPart Row.set
    simp only
    rw [if_neg h.1]

theorem headD_Split_renderGroup (g : String × List Stage) (hwf : groupWellFormed g) :
    (Split (renderGroup g.1 g.2) '|').headD "" = g.1 := by
  unfold renderGroup
  rw [Split_joinWith '|' (g.1 :: g.2.map renderStage) (by simp) (by
    intro p hp
    rcases List.mem_cons.1 hp with rfl | hp
    · exact hwf.1 '|' (by simp)
    · obtain ⟨s, hs, rfl⟩ := List.mem_map.1 hp
      exact renderStage_avoids s (hwf.2 s hs) '|' (Or.inl rfl))]
  rfl

theorem map_headD_render (groups : List (String × List Stage))
    (hwf : ∀ g ∈ groups, groupWellFormed g) :
    (groups.map (fun g => renderGroup g.1 g.2)).map (fun part => (Split part '|').headD "")
      = groups.map Prod.fst := by
  rw [List.map_map]
  apply List.map_congr_left
  intro g hg
  exact headD_Split_renderGroup g (hwf g hg)

theorem foldl_applyPart_group (valueResolvers : Registry) (m : Row)
    (pre post : List (String × List Stage)) (dest : String) (stages : List Stage)
    (st : Row × Value) (hwf : ∀ g ∈ pre ++ (dest, stages) :: post, groupWellFormed g)
    (hpost : dest ∉ post.map Prod.fst) :
    (((pre ++ (dest, stages) :: post).map (fun g => renderGroup g.1 g.2)).foldl
        (applyPart valueResolvers m) st).1 dest
      = some (applyStages valueResolvers m st.2 (stagesOf pre ++ stages)) := by
  have hwfpre : ∀ g ∈ pre, groupWellFormed g := fun g hg =>
    hwf g (List.mem_append_left _ hg)
  have hwfg : groupWellFormed (dest, stages) :=
    hwf _ (List.mem_append_right _ (List.mem_cons_self _ _))
  have hwfpost : ∀ g ∈ post, groupWellFormed g := fun g hg =>
    hwf g (List.mem_append_right _ (List.mem_cons_of_mem _ hg))
  rw [List.map_append, List.map_cons, List.foldl_append, List.foldl_cons,
    foldl_applyPart_untouched _ _ _ _ dest (by rw [map_headD_render post hwfpost]; exact hpost),
    applyPart_renderGroup _ _ _ dest stages hwfg.1 hwfg.2, foldl_applyPart_value _ _ pre st hwfpre,
    applyStages_append]
  simp [Row.set]

theorem Split_renderExpr (groups : List (String × List Stage)) (hne : groups ≠ [])
    (hwf : ∀ g ∈ groups, groupWellFormed g) :
    Split (renderExpr groups) ';' = groups.map (fun g => renderGroup g.1 g.2) := by
  unfold renderExpr
  apply Split_joinWith
  · simpa using hne
  · intro p hp
    obtain ⟨g, hg, rfl⟩ := List.mem_map.1 hp
    exact renderGroup_avoids g.1 g.2 (hwf g hg).1 (hwf g hg).2

theorem applyEntry_untouched (valueResolvers : Registry) (m : Row) (item : Row)
    (kv : String × String) (dest : String) (h : dest ∉ destKeys kv.2) :
    applyEntry valueResolvers m item kv dest = item dest := by
  unfold applyEntry
  exact foldl_applyPart_untouched _ _ _ _ dest h

theorem foldl_applyEntry_untouched (valueResolvers : Registry) (m : Row)
    (mapping : List (String × String)) (item : Row) (dest : String)
    (h : ∀ kv ∈ mapping, dest ∉ destKeys kv.2) :
    (mapping.foldl (applyEntry valueResolvers m) item) dest = item dest := by
  induction mapping generalizing item with
  | nil => rfl
  | cons kv rest ih =>
    rw [List.foldl_cons, ih _ (fun x hx => h x (List.mem_cons_of_mem _ hx)),
      applyEntry_untouched _ _ _ _ _ (h kv (by simp))]

/-- The value a mapping leaves under the key of a group, when no other entry
and no later group of the same entry writes that key: the source value `m[k]`
of the entry's own key passed through the stages of the groups before it and
then its own. -/
theorem mapItem_group (valueResolvers : Registry) (mapping : List (String × String)) (m : Row)
    (k : String) (pre post : List (String × List Stage)) (dest : String) (stages : List Stage)
    (hwf : ∀ g ∈ pre ++ (dest, stages) :: post, groupWellFormed g)
    (hpost : dest ∉ post.map Prod.fst)
    (hmem : (k, renderExpr (pre ++ (dest, stages) :: post)) ∈ mapping)
    (hothers : ∀ kv ∈ mapping, kv ≠ (k, renderExpr (pre ++ (dest, stages) :: post)) →
      dest ∉ destKeys kv.2) :
    mapItem valueResolvers mapping m dest
      = some (applyStages valueResolvers m (m.get k) (stagesOf pre ++ stages)) := by
  unfold mapItem
  generalize Row.empty = item
  induction mapping generalizing item with
  | nil => simp at hmem
  | cons kv rest ih =>
    rw [List.foldl_cons]
    by_cases hin : (k, renderExpr (pre ++ (dest, stages) :: post)) ∈ rest
    · exact ih hin (fun x hx => hothers x (List.mem_cons_of_mem _ hx)) _
    · have hkv : kv = (k, renderExpr (pre ++ (dest, stages) :: post)) := by
        rcases List.mem_cons.1 hmem with h | h
        · exact h.symm
        · exact absurd h hin
      rw [foldl_applyEntry_untouched _ _ _ _ dest (fun x hx =>
        hothers x (List.mem_cons_of_mem _ hx) (fun e => hin (e ▸ hx)))]
      subst hkv
      unfold applyEntry
      simp only
      rw [Split_renderExpr _ (by simp) hwf]
      exact foldl_applyPart_group _ _ pre post dest stages _ hwf hpost

end Syncer
namespace Syncer

/-- C6 (as amended): for every source row and every mapping entry with key `k`
whose expression is a single group `dest|r1[:args]|...|rn[:args]`, the mapped
row holds under the group's first token `dest` the value obtained by taking
`row[k]`, the field named by the entry's own key (null when the field is
absent), and applying `r1, ..., rn` left to right, each with its own
comma-separated argument list and each fed the previous output; this when no
other entry of the mapping writes the key `dest`. -/
theorem mapItem_single_group (valueResolvers : Registry) (mapping : List (String × String))
    (m : Row) (k dest : String) (stages : List Stage) (hdest : avoids dest ['|', ';'])
    (hst : ∀ st ∈ stages, st.wellFormed) (hmem : (k, renderGroup dest stages) ∈ mapping)
    (hothers : ∀ kv ∈ mapping, kv ≠ (k, renderGroup dest stages) → dest ∉ destKeys kv.2) :
    mapItem valueResolvers mapping m dest
      = some (applyStages valueResolvers m ((m k).getD Value.null) stages) := by
  have hwf : ∀ g ∈ ([] : List (String × List Stage)) ++ (dest, stages) :: [],
      groupWellFormed g := by
    intro g hg
    simp only [List.nil_append, List.mem_singleton] at hg
    subst hg
    exact ⟨hdest, hst⟩
  exact mapItem_group valueResolvers mapping m k [] [] dest stages hwf (by simp) hmem hothers

/-- C6, on the claim's example: the mapping `name -> "name|trim"` on a row whose
`name` is `" John "` gives `"John"` under `name`. -/
theorem mapItem_single_group_witness :
    mapItem (initResolvers 0) [("name", "name|trim")] (nameRow " John ") "name"
      = some (applyStages (initResolvers 0) (nameRow " John ")
          ((nameRow " John " "name").getD Value.null) [{ name := "trim", args := none }]) ∧
    mapItem (initResolvers 0) [("name", "name|trim")] (nameRow " John ") "name"
      = some (.str "John") :=
  ⟨mapItem_single_group (initResolvers 0) [("name", "name|trim")] (nameRow " John ") "name"
      "name" [{ name := "trim", args := none }] (by decide)
      (by
        intro st hst
        rw [List.mem_singleton] at hst
        subst hst
        exact ⟨by decide, trivial⟩)
      (by decide)
      (by
        intro kv hkv hne
        rw [List.mem_singleton] at hkv
        exact absurd hkv hne),
   by decide⟩

/-- C6 as stated fails. With the entry `a -> "b|trim"` the value under `b` is
the trimmed field `a` of the row, not the trimmed field `b` that the group
names, and nothing is stored under `a`. And when two entries write the same
key, the value depends on the order in which the map is visited. -/
theorem mapItem_reads_entry_key :
    mapItem (initResolvers 0) [("a", "b|trim")] (abRow " x " " y ") "b" = some (.str "x") ∧
    mapItem (initResolvers 0) [("a", "b|trim")] (abRow " x " " y ") "a" = none ∧
    mapItem (initResolvers 0) [("a", "c|trim"), ("b", "c")] (abRow " x " " y ") "c"
      = some (.str " y ") ∧
    mapItem (initResolvers 0) [("b", "c"), ("a", "c|trim")] (abRow " x " " y ") "c"
      = some (.str "x") := by
  decide

/-- C7 (as amended): in a mapping expression of several semicolon-separated
groups the groups are chained: the value written under a group's key is the
result of applying that group's own resolvers to the value the groups before it
have left, which is `row[k]` passed through the resolvers of all the groups
before it; this when no later group of the expression and no other entry
writes the same key. -/
theorem mapItem_chained_groups (valueResolvers : Registry) (mapping : List (String × String))
    (m : Row) (k : String) (pre post : List (String × List Stage)) (dest : String)
    (stages : List Stage)
    (hwf : ∀ g ∈ pre ++ (dest, stages) :: post, groupWellFormed g)
    (hpost : dest ∉ post.map Prod.fst)
    (hmem : (k, renderExpr (pre ++ (dest, stages) :: post)) ∈ mapping)
    (hothers : ∀ kv ∈ mapping, kv ≠ (k, renderExpr (pre ++ (dest, stages) :: post)) →
      dest ∉ destKeys kv.2) :
    mapItem valueResolvers mapping m dest
      = some (applyStages valueResolvers m
          (applyStages valueResolvers m ((m k).getD Value.null) (stagesOf pre)) stages) := by
  rw [← applyStages_append]
  exact mapItem_group valueResolvers mapping m k pre post dest stages hwf hpost hmem hothers

/-- C7, on a concrete input: with `name -> "a|trim;b|int"` and `name = " 42 "`,
the group `b|int` works on the trimmed value the group `a|trim` left, and gives 42. -/
theorem mapItem_chained_groups_witness :
    mapItem (initResolvers 0) [("name", "a|trim;b|int")] (nameRow " 42 ") "b"
      = some (applyStages (initResolvers 0) (nameRow " 42 ")
          (applyStages (initResolvers 0) (nameRow " 42 ")
            ((nameRow " 42 " "name").getD Value.null)
            (stagesOf [("a", [{ name := "trim", args := none }])]))
          [{ name := "int", args := none }]) ∧
    mapItem (initResolvers 0) [("name", "a|trim;b|int")] (nameRow " 42 ") "b"
      = some (.int 42) :=
  ⟨mapItem_chained_groups (initResolvers 0) [("name", "a|trim;b|int")] (nameRow " 42 ") "name"
      [("a", [{ name := "trim", args := none }])] [] "b" [{ name := "int", args := none }]
      (by
        intro g hg
        simp only [List.cons_append, List.nil_append, List.mem_cons, List.mem_singleton,
          List.not_mem_nil, or_false] at hg
        rcases hg with rfl | rfl
        · refine ⟨by decide, ?_⟩
          intro st hst
          rw [List.mem_singleton] at hst
          subst hst
          exact ⟨by decide, trivial⟩
        · refine ⟨by decide, ?_⟩
          intro st hst
          rw [List.mem_singleton] at hst
          subst hst
          exact ⟨by decide, trivial⟩)
      (by simp)
      (by decide)
      (by
        intro kv hkv hne
        rw [List.mem_singleton] at hkv
        exact absurd hkv hne),
   by decide⟩

/-- C7 as stated fails: the value under the key of the second group depends on
the resolvers of the first. With `name = " 42 "`, the group `b|int` alone gives
0 (the untrimmed string is no integer), after the group `a|trim` it gives 42. -/
theorem mapItem_groups_not_independent :
    mapItem (initResolvers 0) [("name", "a;b|int")] (nameRow " 42 ") "b" = some (.int 0) ∧
    mapItem (initResolvers 0) [("name", "a|trim;b|int")] (nameRow " 42 ") "b"
      = some (.int 42) := by
  decide

end Syncer
namespace Syncer

/-! ## The page phase of `SyncTask` -/

/-- What an enabled action does, field by field. -/
theorem step_inv {σ : Type} (c : Ctx σ) (s s1 : RunState σ) (ev : Event)
    (h : step c s ev = some s1) :
    (∃ page, ev = .submitStart ∧ s.pc = .submitting page ∧ page ≤ c.maxPage ∧
      s.running.length + s.sending.length < poolWorkers c.task.Workers ∧
      s1.pc = .submitting (wrap64 (page + 1)) ∧ s1.queue = s.queue ∧
      s1.running = s.running ++ [page] ∧ s1.sending = s.sending ∧
      s1.syncMeta = s.syncMeta ∧ s1.afterSyncLog = s.afterSyncLog ∧
      s1.results = s.results) ∨
    (∃ page, ev = .submitQueue ∧ s.pc = .submitting page ∧ page ≤ c.maxPage ∧
      s.queue.length < poolCapacity ∧
      s1.pc = .submitting (wrap64 (page + 1)) ∧ s1.queue = s.queue ++ [page] ∧
      s1.running = s.running ∧ s1.sending = s.sending ∧
      s1.syncMeta = s.syncMeta ∧ s1.afterSyncLog = s.afterSyncLog ∧
      s1.results = s.results) ∨
    (∃ page, ev = .leaveLoop ∧ s.pc = .submitting page ∧ ¬ page ≤ c.maxPage ∧
      s1.pc = .selecting ∧ s1.queue = s.queue ∧
      s1.running = s.running ∧ s1.sending = s.sending ∧
      s1.syncMeta = s.syncMeta ∧ s1.afterSyncLog = s.afterSyncLog ∧
      s1.results = s.results) ∨
    (∃ page rest, ev = .take ∧ s.queue = page :: rest ∧
      s.running.length + s.sending.length < poolWorkers c.task.Workers ∧
      s1.pc = s.pc ∧ s1.queue = rest ∧
      s1.running = s.running ++ [page] ∧ s1.sending = s.sending ∧
      s1.syncMeta = s.syncMeta ∧ s1.afterSyncLog = s.afterSyncLog ∧
      s1.results = s.results) ∨
    (∃ i page, ev = .finish i ∧ s.running[i]? = some page ∧
      s1.pc = s.pc ∧ s1.queue = s.queue ∧
      s1.running = s.running.eraseIdx i ∧
      s1.sending = (match (syncFunc c s.syncMeta s.world page).2, c.task.StopOnError with
                    | some e, true => s.sending ++ [(page, e)]
                    | _, _ => s.sending) ∧
      s1.syncMeta = s.syncMeta ∧ s1.afterSyncLog = s.afterSyncLog ∧
      s1.results = s.results ++ [(page, (syncFunc c s.syncMeta s.world page).2)]) ∨
    (∃ i page err, ev = .recvErr i ∧ s.pc = .selecting ∧ s.sending[i]? = some (page, err) ∧
      s1.pc = .afterSync ∧ s1.queue = s.queue ∧
      s1.running = s.running ∧ s1.sending = s.sending.eraseIdx i ∧
      s1.syncMeta = { s.syncMeta with Status := SyncStatusFailed, Error := some err } ∧
      s1.afterSyncLog = s.afterSyncLog ∧ s1.results = s.results) ∨
    (ev = .recvExit ∧ s.pc = .selecting ∧ s.queue = [] ∧ s.running = [] ∧ s.sending = [] ∧
      s1.pc = .afterSync ∧ s1.queue = s.queue ∧
      s1.running = s.running ∧ s1.sending = s.sending ∧
      s1.syncMeta = { s.syncMeta with Status := SyncStatusSuccess } ∧
      s1.afterSyncLog = s.afterSyncLog ∧ s1.results = s.results) ∨
    (ev = .afterSync ∧ s.pc = .afterSync ∧
      s1.pc = .returned c.total
        (match (c.target.AfterSync s.world c.task.TargetConfig s.syncMeta).2 with
         | some e => some e
         | none => s.syncMeta.Error) ∧
      s1.queue = s.queue ∧ s1.running = s.running ∧ s1.sending = s.sending ∧
      s1.syncMeta = s.syncMeta ∧
      s1.afterSyncLog = s.afterSyncLog ++
        [(s.syncMeta, (c.target.AfterSync s.world c.task.TargetConfig s.syncMeta).2)] ∧
      s1.results = s.results) := by
  cases ev with
  | submitStart =>
    left
    simp only [step] at h
    split at h
    · rename_i page hpc
      split_ifs at h with hg
      cases h
      exact ⟨page, rfl, hpc, hg.1, hg.2, rfl, rfl, rfl, rfl, rfl, rfl, rfl⟩
    · exact absurd h (by simp)
  | submitQueue =>
    right; left
    simp only [step] at h
    split at h
    · rename_i page hpc
      split_ifs at h with hg
      cases h
      exact ⟨page, rfl, hpc, hg.1, hg.2, rfl, rfl, rfl, rfl, rfl, rfl, rfl⟩
    · exact absurd h (by simp)
  | leaveLoop =>
    right; right; left
    simp only [step] at h
    split at h
    · rename_i page hpc
      split_ifs at h with hg
      cases h
      exact ⟨page, rfl, hpc, hg, rfl, rfl, rfl, rfl, rfl, rfl, rfl⟩
    · exact absurd h (by simp)
  | take =>
    right; right; right; left
    simp only [step] at h
    split at h
    · rename_i page rest hq
      split_ifs at h with hg
      cases h
      exact ⟨page, rest, rfl, hq, hg, rfl, rfl, rfl, rfl, rfl, rfl, rfl⟩
    · exact absurd h (by simp)
  | finish i =>
    right; right; right; right; left
    simp only [step] at h
    split at h
    · rename_i page hr
      refine ⟨i, page, rfl, hr, ?_⟩
      cases hres : (syncFunc c s.syncMeta s.world page).2 with
      | some e =>
        rw [hres] at h
        simp only at h
        cases hstop : c.task.StopOnError with
        | true =>
          rw [hstop] at h
          simp only [if_true] at h
          cases h
          exact ⟨rfl, rfl, rfl, rfl, rfl, rfl, by simp [hres]⟩
        | false =>
          rw [hstop] at h
          simp only [Bool.false_eq_true, if_false] at h
          cases h
          exact ⟨rfl, rfl, rfl, rfl, rfl, rfl, by simp [hres]⟩
      | none =>
        rw [hres] at h
        simp only at h
        cases h
        exact ⟨rfl, rfl, rfl, rfl, rfl, rfl, by simp [hres]⟩
    · exact absurd h (by simp)
  | recvErr i =>
    right; right; right; right; right; left
    simp only [step] at h
    split at h
    · rename_i page err hpc hs
      cases h
      exact ⟨i, page, err, rfl, hpc, hs, rfl, rfl, rfl, rfl, rfl, rfl, rfl⟩
    · exact absurd h (by simp)
  | recvExit =>
    right; right; right; right; right; right; left
    simp only [step] at h
    split at h
    · rename_i hpc
      split_ifs at h with hg
      cases h
      exact ⟨rfl, hpc, hg.1, hg.2.1, hg.2.2, rfl, rfl, rfl, rfl, rfl, rfl, rfl⟩
    · exact absurd h (by simp)
  | afterSync =>
    right; right; right; right; right; right; right
    simp only [step] at h
    split at h
    · rename_i hpc
      cases h
      exact ⟨rfl, hpc, rfl, rfl, rfl, rfl, rfl, rfl, rfl⟩
    · exact absurd h (by simp)

end Syncer
namespace Syncer

theorem run_cons {σ : Type} (c : Ctx σ) (s s2 : RunState σ) (ev : Event) (evs : List Event)
    (h : run c s (ev :: evs) = some s2) :
    ∃ s1, step c s ev = some s1 ∧ run c s1 evs = some s2 := by
  unfold run at h
  cases hs : step c s ev with
  | none => rw [hs] at h; exact absurd h (by simp)
  | some s1 => rw [hs] at h; exact ⟨s1, rfl, h⟩

theorem run_append {σ : Type} (c : Ctx σ) (s s1 s2 : RunState σ) (a b : List Event)
    (h1 : run c s a = some s1) (h2 : run c s1 b = some s2) : run c s (a ++ b) = some s2 := by
  induction a generalizing s with
  | nil =>
    simp only [run, Option.some.injEq] at h1
    subst h1
    exact h2
  | cons ev evs ih =>
    obtain ⟨sm, hsm, hrest⟩ := run_cons c s s1 ev evs h1
    rw [List.cons_append]
    unfold run
    rw [hsm]
    exact ih sm hrest

theorem length_lt_of_getElem? {α : Type} (l : List α) (i : Nat) (a : α) (h : l[i]? = some a) :
    i < l.length := by
  by_contra hcon
  rw [List.getElem?_eq_none (by omega)] at h
  exact absurd h (by simp)

theorem wrap64_succ_page (page maxPage : Int) (h1 : 1 ≤ page) (h2 : page ≤ maxPage)
    (h3 : maxPage < maxInt64) : wrap64 (page + 1) = page + 1 := by
  apply wrap64_of_isInt64
  unfold isInt64 minInt64 maxInt64 at *
  omega

/-- With `StopOnError` off the invariant is kept by every action. -/
theorem ContinueInv_step {σ : Type} (c : Ctx σ) (s s1 : RunState σ) (ev : Event)
    (hstop : c.task.StopOnError = false) (hmax : c.maxPage < maxInt64)
    (hinv : ContinueInv c s) (h : step c s ev = some s1) : ContinueInv c s1 := by
  obtain ⟨hsend, herr, hpc⟩ := hinv
  rcases step_inv c s s1 ev h with
    ⟨page, _, hp, hle, _, hp1, _, _, hs1, hm1, hl1, _⟩ |
    ⟨page, _, hp, hle, _, hp1, _, _, hs1, hm1, hl1, _⟩ |
    ⟨page, _, hp, _, hp1, _, _, hs1, hm1, hl1, _⟩ |
    ⟨page, rest, _, _, _, hp1, _, _, hs1, hm1, hl1, _⟩ |
    ⟨i, page, _, _, hp1, _, _, hs1, hm1, hl1, _⟩ |
    ⟨i, page, err, _, _, hsi, _⟩ |
    ⟨_, hp, _, _, _, hp1, _, _, hs1, hm1, hl1, _⟩ |
    ⟨_, hp, hp1, _, _, hs1, hm1, hl1, _⟩
  · rw [hp] at hpc
    refine ⟨by rw [hs1, hsend], by rw [hm1, herr], ?_⟩
    rw [hp1, wrap64_succ_page page c.maxPage hpc.1 hle hmax]
    exact ⟨by omega, by rw [hl1]; exact hpc.2⟩
  · rw [hp] at hpc
    refine ⟨by rw [hs1, hsend], by rw [hm1, herr], ?_⟩
    rw [hp1, wrap64_succ_page page c.maxPage hpc.1 hle hmax]
    exact ⟨by omega, by rw [hl1]; exact hpc.2⟩
  · rw [hp] at hpc
    refine ⟨by rw [hs1, hsend], by rw [hm1, herr], ?_⟩
    rw [hp1]
    show s1.afterSyncLog = []
    rw [hl1]
    exact hpc.2
  · refine ⟨by rw [hs1, hsend], by rw [hm1, herr], ?_⟩
    rw [hp1, hl1, hm1]
    exact hpc
  · refine ⟨?_, by rw [hm1, herr], ?_⟩
    · rw [hs1, hstop, hsend]
      cases (syncFunc c s.syncMeta s.world page).2 <;> rfl
    · rw [hp1, hl1, hm1]
      exact hpc
  · rw [hsend] at hsi
    exact absurd hsi (by simp)
  · rw [hp] at hpc
    refine ⟨by rw [hs1, hsend], by rw [hm1]; exact herr, ?_⟩
    rw [hp1]
    exact ⟨by rw [hl1]; exact hpc, by rw [hm1]⟩
  · rw [hp] at hpc
    refine ⟨by rw [hs1, hsend], by rw [hm1, herr], ?_⟩
    rw [hp1]
    refine ⟨rfl, by rw [hm1]; exact hpc.2, ?_⟩
    rw [hl1, hpc.1, hm1, herr]
    cases (c.target.AfterSync s.world c.task.TargetConfig s.syncMeta).2 <;> rfl

/-- With `StopOnError` off every action uses up some of the work left. -/
theorem workLeft_step {σ : Type} (c : Ctx σ) (s s1 : RunState σ) (ev : Event)
    (hmax : c.maxPage < maxInt64) (hinv : ContinueInv c s) (h : step c s ev = some s1) :
    workLeft c s1 + 1 ≤ workLeft c s := by
  obtain ⟨hsend, _, hpc⟩ := hinv
  unfold workLeft
  rcases step_inv c s s1 ev h with
    ⟨page, _, hp, hle, _, hp1, hq1, hr1, _⟩ |
    ⟨page, _, hp, hle, _, hp1, hq1, hr1, _⟩ |
    ⟨page, _, hp, hnle, hp1, hq1, hr1, _⟩ |
    ⟨page, rest, _, hq, _, hp1, hq1, hr1, _⟩ |
    ⟨i, page, _, hri, hp1, hq1, hr1, _⟩ |
    ⟨i, page, err, _, _, hsi, _⟩ |
    ⟨_, hp, _, _, _, hp1, hq1, hr1, _⟩ |
    ⟨_, hp, hp1, hq1, hr1, _⟩
  · rw [hp] at hpc
    rw [hp1, hq1, hr1, hp, wrap64_succ_page page c.maxPage hpc.1 hle hmax]
    simp only [pagesLeft, pcRank, List.length_append, List.length_singleton]
    omega
  · rw [hp] at hpc
    rw [hp1, hq1, hr1, hp, wrap64_succ_page page c.maxPage hpc.1 hle hmax]
    simp only [pagesLeft, pcRank, List.length_append, List.length_singleton]
    omega
  · rw [hp1, hq1, hr1, hp]
    simp only [pagesLeft, pcRank]
    omega
  · rw [hp1, hq1, hr1, hq]
    simp only [List.length_append, List.length_singleton, List.length_cons, List.length_nil]
    omega
  · have hlt := length_lt_of_getElem? _ _ _ hri
    rw [hp1, hq1, hr1, List.length_eraseIdx, if_pos hlt]
    omega
  · rw [hsend] at hsi
    exact absurd hsi (by simp)
  · rw [hp1, hq1, hr1, hp]
    simp only [pagesLeft, pcRank]
    omega
  · rw [hp1, hq1, hr1, hp]
    simp only [pagesLeft, pcRank]
    omega

/-- With `StopOnError` off `SyncTask` never blocks for good: as long as it has
not returned some action is enabled. -/
theorem ContinueInv_progress {σ : Type} (c : Ctx σ) (s : RunState σ) (hinv : ContinueInv c s)
    (hnot : s.pc.isReturned = false) : ∃ ev s1, step c s ev = some s1 := by
  obtain ⟨hsend, _, _⟩ := hinv
  have hw : 0 < poolWorkers c.task.Workers := by
    unfold poolWorkers
    split_ifs <;> omega
  cases hr : s.running with
  | cons p ps =>
    have h0 : s.running[0]? = some p := by rw [hr]; simp
    refine ⟨.finish 0, ?_⟩
    simp only [step, h0]
    cases (syncFunc c s.syncMeta s.world p).2 with
    | none => exact ⟨_, rfl⟩
    | some e =>
      simp only
      split_ifs <;> exact ⟨_, rfl⟩
  | nil =>
    cases hq : s.queue with
    | cons p ps =>
      refine ⟨.take, ?_⟩
      simp only [step, hq, hr, hsend, List.length_nil, add_zero, hw, if_true]
      exact ⟨_, rfl⟩
    | nil =>
      cases hp : s.pc with
      | submitting page =>
        by_cases hle : page ≤ c.maxPage
        · refine ⟨.submitStart, ?_⟩
          simp only [step, hp, hr, hsend, List.length_nil, add_zero, hw, hle, and_self, if_true]
          exact ⟨_, rfl⟩
        · refine ⟨.leaveLoop, ?_⟩
          simp only [step, hp, hle, if_false]
          exact ⟨_, rfl⟩
      | selecting =>
        refine ⟨.recvExit, ?_⟩
        simp only [step, hp, hq, hr, hsend, and_self, if_true]
        exact ⟨_, rfl⟩
      | afterSync =>
        refine ⟨.afterSync, ?_⟩
        simp only [step, hp]
        exact ⟨_, rfl⟩
      | returned n e =>
        rw [hp] at hnot
        exact absurd hnot (by simp [PC.isReturned])

end Syncer
namespace Syncer

theorem ContinueInv_run {σ : Type} (c : Ctx σ) (s s2 : RunState σ) (sched : List Event)
    (hstop : c.task.StopOnError = false) (hmax : c.maxPage < maxInt64)
    (hinv : ContinueInv c s) (h : run c s sched = some s2) :
    ContinueInv c s2 ∧ sched.length + workLeft c s2 ≤ workLeft c s := by
  induction sched generalizing s with
  | nil =>
    simp only [run, Option.some.injEq] at h
    subst h
    exact ⟨hinv, by simp⟩
  | cons ev evs ih =>
    obtain ⟨s1, hs1, hrest⟩ := run_cons c s s2 ev evs h
    have hinv1 := ContinueInv_step c s s1 ev hstop hmax hinv hs1
    have hdec := workLeft_step c s s1 ev hmax hinv hs1
    obtain ⟨hinv2, hlen⟩ := ih s1 hinv1 hrest
    refine ⟨hinv2, ?_⟩
    simp only [List.length_cons]
    omega

/-- With `StopOnError` off, from every state of the page phase some schedule
takes `SyncTask` to its return. -/
theorem ContinueInv_completes {σ : Type} (c : Ctx σ) (hstop : c.task.StopOnError = false)
    (hmax : c.maxPage < maxInt64) (n : Nat) :
    ∀ s : RunState σ, workLeft c s ≤ n → ContinueInv c s →
      ∃ more s2, run c s more = some s2 ∧ s2.pc.isReturned = true := by
  induction n with
  | zero =>
    intro s hn hinv
    cases hret : s.pc.isReturned with
    | true => exact ⟨[], s, rfl, hret⟩
    | false =>
      obtain ⟨ev, s1, hs1⟩ := ContinueInv_progress c s hinv hret
      have := workLeft_step c s s1 ev hmax hinv hs1
      omega
  | succ n ih =>
    intro s hn hinv
    cases hret : s.pc.isReturned with
    | true => exact ⟨[], s, rfl, hret⟩
    | false =>
      obtain ⟨ev, s1, hs1⟩ := ContinueInv_progress c s hinv hret
      have hdec := workLeft_step c s s1 ev hmax hinv hs1
      obtain ⟨more, s2, hrun, hr2⟩ :=
        ih s1 (by omega) (ContinueInv_step c s s1 ev hstop hmax hinv hs1)
      refine ⟨ev :: more, s2, ?_, hr2⟩
      unfold run
      rw [hs1]
      exact hrun

theorem start_pagePhase {σ : Type} (env : Env σ) (w : σ) (task : SyncerTask) (c : Ctx σ)
    (s0 : RunState σ) (hstart : SyncTask.start env w task = .pagePhase c s0) :
    c.task = task ∧ s0.pc = .submitting 1 ∧ s0.queue = [] ∧ s0.running = [] ∧
      s0.sending = [] ∧ s0.results = [] ∧ s0.afterSyncLog = [] := by
  unfold SyncTask.start at hstart
  split at hstart
  · exact absurd hstart (by simp)
  · simp only at hstart
    split at hstart
    · exact absurd hstart (by simp)
    · split_ifs at hstart
      split at hstart
      · exact absurd hstart (by simp)
      · split at hstart
        · exact absurd hstart (by simp)
        · simp only [Started.pagePhase.injEq] at hstart
          obtain ⟨hc, hs⟩ := hstart
          subst hc hs
          exact ⟨rfl, rfl, rfl, rfl, rfl, rfl, rfl⟩

theorem run_append_inv {σ : Type} (c : Ctx σ) (s s2 : RunState σ) (a b : List Event)
    (h : run c s (a ++ b) = some s2) : ∃ s1, run c s a = some s1 ∧ run c s1 b = some s2 := by
  induction a generalizing s with
  | nil => exact ⟨s, rfl, h⟩
  | cons ev evs ih =>
    rw [List.cons_append] at h
    obtain ⟨sm, hsm, hrest⟩ := run_cons c s s2 ev (evs ++ b) h
    obtain ⟨s1, h1, h2⟩ := ih sm hrest
    refine ⟨s1, ?_, h2⟩
    unfold run
    rw [hsm]
    exact h1

/-- No job is left once the `select` has received from `exit`: kept by every
action as long as no job blocks on `errChan`. -/
theorem DrainedInv_step {σ : Type} (c : Ctx σ) (s s1 : RunState σ) (ev : Event)
    (hsend : s.sending = []) (hinv : DrainedInv s) (h : step c s ev = some s1) :
    DrainedInv s1 := by
  unfold DrainedInv at hinv ⊢
  rcases step_inv c s s1 ev h with
    ⟨page, _, hp, _, _, hp1, _⟩ |
    ⟨page, _, hp, _, _, hp1, _⟩ |
    ⟨page, _, hp, _, hp1, _⟩ |
    ⟨page, rest, _, hq, _, hp1, _⟩ |
    ⟨i, page, _, hri, hp1, _⟩ |
    ⟨i, page, err, _, _, hsi, _⟩ |
    ⟨_, hp, hq, hr, _, hp1, hq1, hr1, _⟩ |
    ⟨_, hp, hp1, hq1, hr1, _⟩
  · rw [hp1]
    trivial
  · rw [hp1]
    trivial
  · rw [hp1]
    trivial
  · rw [hp1]
    cases hpc : s.pc with
    | submitting p => trivial
    | selecting => trivial
    | afterSync =>
      rw [hpc] at hinv
      rw [hinv.1] at hq
      exact absurd hq (by simp)
    | returned n e =>
      rw [hpc] at hinv
      rw [hinv.1] at hq
      exact absurd hq (by simp)
  · rw [hp1]
    cases hpc : s.pc with
    | submitting p => trivial
    | selecting => trivial
    | afterSync =>
      rw [hpc] at hinv
      rw [hinv.2] at hri
      exact absurd hri (by simp)
    | returned n e =>
      rw [hpc] at hinv
      rw [hinv.2] at hri
      exact absurd hri (by simp)
  · rw [hsend] at hsi
    exact absurd hsi (by simp)
  · rw [hp1]
    exact ⟨by rw [hq1, hq], by rw [hr1, hr]⟩
  · rw [hp] at hinv
    rw [hp1]
    exact ⟨by rw [hq1, hinv.1], by rw [hr1, hinv.2]⟩

theorem DrainedInv_run {σ : Type} (c : Ctx σ) (s s2 : RunState σ) (sched : List Event)
    (hstop : c.task.StopOnError = false) (hmax : c.maxPage < maxInt64)
    (hinv : ContinueInv c s) (hd : DrainedInv s) (h : run c s sched = some s2) :
    DrainedInv s2 := by
  induction sched generalizing s with
  | nil =>
    simp only [run, Option.some.injEq] at h
    subst h
    exact hd
  | cons ev evs ih =>
    obtain ⟨s1, hs1, hrest⟩ := run_cons c s s2 ev evs h
    exact ih s1 (ContinueInv_step c s s1 ev hstop hmax hinv hs1)
      (DrainedInv_step c s s1 ev hinv.1 hd hs1) hrest

/-- What the action `afterSync` does: it calls `target.AfterSync` on the world
and the meta of the state, keeps the world the call leaves, and returns
`(total, e)`, `e` being the error of the call or else `meta.Error`. -/
theorem step_afterSync {σ : Type} (c : Ctx σ) (s s1 : RunState σ)
    (h : step c s .afterSync = some s1) :
    s.pc = .afterSync ∧ s1.syncMeta = s.syncMeta ∧
      s1.world = (c.target.AfterSync s.world c.task.TargetConfig s.syncMeta).1 ∧
      s1.pc = .returned c.total
        (match (c.target.AfterSync s.world c.task.TargetConfig s.syncMeta).2 with
         | some e => some e
         | none => s.syncMeta.Error) := by
  simp only [step] at h
  split at h
  · rename_i hpc
    cases h
    exact ⟨hpc, rfl, rfl, rfl⟩
  · exact absurd h (by simp)

/-- With `StopOnError` off, a schedule that takes `SyncTask` to its return ends
with the action `afterSync`, taken when every job is done: the returned error
is the one `target.AfterSync` returned on the world the page jobs left. -/
theorem returned_last_step {σ : Type} (c : Ctx σ) (s0 s : RunState σ) (sched : List Event)
    (hstop : c.task.StopOnError = false) (hmax : c.maxPage < maxInt64)
    (hinv0 : ContinueInv c s0) (hd0 : DrainedInv s0) (h0 : s0.pc.isReturned = false)
    (hrun : run c s0 sched = some s) (n : Int) (e : Option Error)
    (hpc : s.pc = .returned n e) :
    ∃ pre sPrev, sched = pre ++ [Event.afterSync] ∧ run c s0 pre = some sPrev ∧
      sPrev.pc = .afterSync ∧ sPrev.queue = [] ∧ sPrev.running = [] ∧ sPrev.sending = [] ∧
      sPrev.syncMeta = s.syncMeta ∧
      c.target.AfterSync sPrev.world c.task.TargetConfig s.syncMeta = (s.world, e) := by
  rcases List.eq_nil_or_concat sched with hnil | ⟨pre, ev, hsched⟩
  · subst hnil
    simp only [run, Option.some.injEq] at hrun
    subst hrun
    rw [hpc] at h0
    exact absurd h0 (by simp [PC.isReturned])
  · rw [List.concat_eq_append] at hsched
    subst hsched
    obtain ⟨sPrev, hpre, hlast⟩ := run_append_inv c s0 s pre [ev] hrun
    obtain ⟨s', hstep, hs'⟩ := run_cons c sPrev s ev [] hlast
    simp only [run, Option.some.injEq] at hs'
    subst hs'
    have hinvP := (ContinueInv_run c s0 sPrev pre hstop hmax hinv0 hpre).1
    have hdP := DrainedInv_run c s0 sPrev pre hstop hmax hinv0 hd0 hpre
    have hev : ev = .afterSync := by
      rcases step_inv c sPrev s' ev hstep with
        ⟨page, _, hp, _, _, hp1, _⟩ |
        ⟨page, _, hp, _, _, hp1, _⟩ |
        ⟨page, _, hp, _, hp1, _⟩ |
        ⟨page, rest, _, hq, _, hp1, _⟩ |
        ⟨i, page, _, hri, hp1, _⟩ |
        ⟨i, page, err, _, _, hsi, _⟩ |
        ⟨_, hp, _, _, _, hp1, _⟩ |
        ⟨hev, _⟩
      · rw [hp1] at hpc
        exact absurd hpc (by simp)
      · rw [hp1] at hpc
        exact absurd hpc (by simp)
      · rw [hp1] at hpc
        exact absurd hpc (by simp)
      · unfold DrainedInv at hdP
        rw [← hp1, hpc] at hdP
        rw [hdP.1] at hq
        exact absurd hq (by simp)
      · unfold DrainedInv at hdP
        rw [← hp1, hpc] at hdP
        rw [hdP.2] at hri
        exact absurd hri (by simp)
      · rw [hinvP.1] at hsi
        exact absurd hsi (by simp)
      · rw [hp1] at hpc
        exact absurd hpc (by simp)
      · exact hev
    subst hev
    obtain ⟨hpP, hm, hw, hp1⟩ := step_afterSync c sPrev s' hstep
    have hdP2 := hdP
    unfold DrainedInv at hdP2
    rw [hpP] at hdP2
    rw [hp1] at hpc
    simp only [PC.returned.injEq] at hpc
    refine ⟨pre, sPrev, rfl, hpre, hpP, hdP2.1, hdP2.2, hinvP.1, hm.symm, ?_⟩
    rw [hm]
    apply Prod.ext
    · simp only
      exact hw.symm
    · simp only
      rw [← hpc.2, hinvP.2.1]
      cases (c.target.AfterSync sPrev.world c.task.TargetConfig sPrev.syncMeta).2 <;> rfl

/-- While `maxPage` is the largest integer the submit loop is never left: its
test `page <= maxPage` holds for every value of the counter. -/
theorem LoopInv_step {σ : Type} (c : Ctx σ) (s s1 : RunState σ) (ev : Event)
    (hmax : c.maxPage = maxInt64) (hinv : LoopInv s) (h : step c s ev = some s1) :
    LoopInv s1 := by
  obtain ⟨p, hp0, hle0⟩ := hinv
  rcases step_inv c s s1 ev h with
    ⟨page, _, hp, _, _, hp1, _⟩ |
    ⟨page, _, hp, _, _, hp1, _⟩ |
    ⟨page, _, hp, hnle, _⟩ |
    ⟨page, rest, _, _, _, hp1, _⟩ |
    ⟨i, page, _, _, hp1, _⟩ |
    ⟨i, page, err, _, hp, _⟩ |
    ⟨_, hp, _⟩ |
    ⟨_, hp, _⟩
  · exact ⟨_, hp1, (isInt64_wrap64 _).2⟩
  · exact ⟨_, hp1, (isInt64_wrap64 _).2⟩
  · rw [hp0] at hp
    simp only [PC.submitting.injEq] at hp
    subst hp
    rw [hmax] at hnle
    exact absurd hle0 hnle
  · exact ⟨p, by rw [hp1, hp0], hle0⟩
  · exact ⟨p, by rw [hp1, hp0], hle0⟩
  · rw [hp0] at hp
    exact absurd hp (by simp)
  · rw [hp0] at hp
    exact absurd hp (by simp)
  · rw [hp0] at hp
    exact absurd hp (by simp)

theorem LoopInv_run {σ : Type} (c : Ctx σ) (s s2 : RunState σ) (sched : List Event)
    (hmax : c.maxPage = maxInt64) (hinv : LoopInv s) (h : run c s sched = some s2) :
    LoopInv s2 := by
  induction sched generalizing s with
  | nil =>
    simp only [run, Option.some.injEq] at h
    subst h
    exact hinv
  | cons ev evs ih =>
    obtain ⟨s1, hs1, hrest⟩ := run_cons c s s2 ev evs h
    exact ih s1 (LoopInv_step c s s1 ev hmax hinv hs1) hrest

/-- C3 (as amended): for every task with `stop_on_error = false` whose run
reaches the page phase with a page count below the largest 64-bit integer and
with `meta.Error` nil after `BeforeSync`, under every schedule of the
goroutines and whatever the page jobs return: the schedule is at most
`3 * maxPage + 3` actions long; as long as `SyncTask` has not returned some
action is enabled and some continuation takes it to its return; and when it has
returned, `meta.Status` is `Success`, `meta.Error` is nil, the last action was
the one call of `target.AfterSync`, made with that meta on the world the page
jobs left, every job being done, and `SyncTask` returns `(total, e)` where `e`
is the error that call returned, so `(total, nil)` whenever `AfterSync`
succeeds. -/
theorem SyncTask_continue_on_error {σ : Type} (env : Env σ) (w : σ) (task : SyncerTask)
    (c : Ctx σ) (s0 : RunState σ) (hstart : SyncTask.start env w task = .pagePhase c s0)
    (hstop : task.StopOnError = false) (hmax : c.maxPage < maxInt64)
    (herr : s0.syncMeta.Error = none) (sched : List Event) (s : RunState σ)
    (hrun : run c s0 sched = some s) :
    sched.length ≤ 3 * c.maxPage.toNat + 3 ∧
    (s.pc.isReturned = false → ∃ ev s1, step c s ev = some s1) ∧
    (∃ more s2, run c s more = some s2 ∧ s2.pc.isReturned = true) ∧
    (∀ n e, s.pc = .returned n e →
      s.syncMeta.Status = SyncStatusSuccess ∧ s.syncMeta.Error = none ∧
      s.afterSyncLog = [(s.syncMeta, e)] ∧ n = c.total ∧
      (∃ pre sPrev, sched = pre ++ [Event.afterSync] ∧ run c s0 pre = some sPrev ∧
        sPrev.pc = .afterSync ∧ sPrev.queue = [] ∧ sPrev.running = [] ∧
        sPrev.sending = [] ∧ sPrev.syncMeta = s.syncMeta ∧
        c.target.AfterSync sPrev.world c.task.TargetConfig s.syncMeta = (s.world, e)) ∧
      SyncTask env w task sched = some (c.total, e)) := by
  obtain ⟨hct, hpc0, hq0, hr0, hs0, _, hl0⟩ := start_pagePhase env w task c s0 hstart
  have hstop' : c.task.StopOnError = false := by rw [hct]; exact hstop
  have hinv0 : ContinueInv c s0 := by
    refine ⟨hs0, herr, ?_⟩
    rw [hpc0]
    exact ⟨le_refl 1, hl0⟩
  have hd0 : DrainedInv s0 := by
    unfold DrainedInv
    rw [hpc0]
    trivial
  have hwork0 : workLeft c s0 = 3 * c.maxPage.toNat + 3 := by
    unfold workLeft
    rw [hpc0, hq0, hr0]
    simp [pagesLeft, pcRank]
  obtain ⟨hinv, hlen⟩ := ContinueInv_run c s0 s sched hstop' hmax hinv0 hrun
  refine ⟨by omega, ContinueInv_progress c s hinv,
    ContinueInv_completes c hstop' hmax (workLeft c s) s (le_refl _) hinv, ?_⟩
  intro n e hpc
  have hlast := returned_last_step c s0 s sched hstop' hmax hinv0 hd0
    (by rw [hpc0]; rfl) hrun n e hpc
  obtain ⟨_, herr2, hpcinv⟩ := hinv
  rw [hpc] at hpcinv
  refine ⟨hpcinv.2.1, herr2, hpcinv.2.2, hpcinv.1, hlast, ?_⟩
  unfold SyncTask
  rw [hstart]
  simp only [hrun, hpc, hpcinv.1]

/-- C3, on a concrete run: three pages on one worker, every page write failing,
`stop_on_error = false`. `SyncTask` returns `(3, nil)` with status `Success`. -/
theorem SyncTask_continue_on_error_witness :
    SyncTask (exampleEnv 3) () (exampleTask "t" "" 1 1 false) threePageSchedule
      = some (3, none) ∧
    (Option.map (fun s => (s.syncMeta.Status, s.syncMeta.Error, s.results))
        (run (exampleCtx 3 1 1 false) (exampleStart 3) threePageSchedule))
      = some (SyncStatusSuccess, none,
          [(1, some "write failed"), (2, some "write failed"), (3, some "write failed")]) ∧
    threePageSchedule.length ≤ 3 * (exampleCtx 3 1 1 false).maxPage.toNat + 3 := by
  obtain ⟨s, hs⟩ : ∃ s, run (exampleCtx 3 1 1 false) (exampleStart 3) threePageSchedule = some s :=
    ⟨_, rfl⟩
  have h := SyncTask_continue_on_error (exampleEnv 3) () (exampleTask "t" "" 1 1 false)
    (exampleCtx 3 1 1 false) (exampleStart 3) rfl rfl (by decide) rfl threePageSchedule s hs
  exact ⟨by decide, by decide, h.1⟩

/-- C3 as stated fails. A task of page size 0 reaches the page phase with the
page count the platform gives for `int(+Inf)`; where that is the largest
integer the test `page <= maxPage` of line 201 never fails and `SyncTask`
returns under no schedule. And on a target whose `BeforeSync` sets `meta.Error`
and returns nil, a run with `stop_on_error = false` whose `AfterSync` succeeds
ends with that `meta.Error` and returns it. -/
theorem SyncTask_continue_on_error_fails :
    (∃ c s0, SyncTask.start (saturatingEnv 3) () (exampleTask "t" "" 0 1 false)
        = .pagePhase c s0 ∧ c.task.StopOnError = false ∧ c.maxPage = maxInt64) ∧
    (¬ ∃ schedule r,
      SyncTask (saturatingEnv 3) () (exampleTask "t" "" 0 1 false) schedule = some r) ∧
    SyncTask (markingEnv 3) () (exampleTask "t" "" 1 1 false) threePageSchedule
      = some (3, some "stale source") := by
  have hstart : SyncTask.start (saturatingEnv 3) () (exampleTask "t" "" 0 1 false)
      = .pagePhase
          { task := exampleTask "t" "" 0 1 false, valueResolvers := initResolvers 0,
            dataSource := exampleSource 3, target := failingTarget, total := 3,
            maxPage := maxPage maxInt64 3 0 }
          (initState () { Version := 1, Total := 3, Status := SyncStatusPending,
                          Error := none }) := rfl
  have hmax : maxPage maxInt64 3 0 = maxInt64 := by decide
  refine ⟨⟨_, _, hstart, rfl, hmax⟩, ?_, by decide⟩
  rintro ⟨schedule, r, hr⟩
  unfold SyncTask at hr
  rw [hstart] at hr
  simp only at hr
  cases hrun : run _ _ schedule with
  | none =>
    rw [hrun] at hr
    exact absurd hr (by simp)
  | some s1 =>
    rw [hrun] at hr
    obtain ⟨p, hp, _⟩ := LoopInv_run _ _ s1 schedule hmax ⟨1, rfl, by decide⟩ hrun
    simp only [hp] at hr
    exact absurd hr (by simp)

end Syncer
namespace Syncer

/-- With `StopOnError` on, every job failing and more pages than the workers
and the task channel hold, the blocked invariant is kept by every action. -/
theorem BlockedInv_step {σ : Type} (c : Ctx σ) (syncMeta : SyncMeta) (s s1 : RunState σ)
    (ev : Event) (hstop : c.task.StopOnError = true)
    (hfail : ∀ (m : SyncMeta) (w : σ) (page : Int), (syncFunc c m w page).2 ≠ none)
    (hmany : (poolWorkers c.task.Workers : Int) + poolCapacity < c.maxPage)
    (hmax : c.maxPage < maxInt64) (hinv : BlockedInv c syncMeta s)
    (h : step c s ev = some s1) : BlockedInv c syncMeta s1 := by
  obtain ⟨pg, hpc, hpg, hbusy, hq, hlog, hmeta⟩ := hinv
  rcases step_inv c s s1 ev h with
    ⟨page, _, hp, hle, hlt, hp1, hq1, hr1, hs1, hm1, hl1, _⟩ |
    ⟨page, _, hp, hle, hlt, hp1, hq1, hr1, hs1, hm1, hl1, _⟩ |
    ⟨page, _, hp, hnle, _⟩ |
    ⟨page, rest, _, hqq, hlt, hp1, hq1, hr1, hs1, hm1, hl1, _⟩ |
    ⟨i, page, _, hri, hp1, hq1, hr1, hs1, hm1, hl1, _⟩ |
    ⟨i, page, err, _, hp, _⟩ |
    ⟨_, hp, _⟩ |
    ⟨_, hp, _⟩
  · rw [hpc] at hp
    cases hp
    refine ⟨pg + 1, ?_, ?_, ?_, ?_, ?_, ?_⟩
    · rw [hp1, wrap64_succ_page pg c.maxPage (by omega) hle hmax]
    · rw [hq1, hr1, hs1]
      simp only [List.length_append, List.length_singleton, List.length_cons, List.length_nil]
      omega
    · rw [hr1, hs1]
      simp only [List.length_append, List.length_singleton, List.length_cons, List.length_nil]
      omega
    · rw [hq1]; exact hq
    · rw [hl1]; exact hlog
    · rw [hm1]; exact hmeta
  · rw [hpc] at hp
    cases hp
    refine ⟨pg + 1, ?_, ?_, ?_, ?_, ?_, ?_⟩
    · rw [hp1, wrap64_succ_page pg c.maxPage (by omega) hle hmax]
    · rw [hq1, hr1, hs1]
      simp only [List.length_append, List.length_singleton, List.length_cons, List.length_nil]
      omega
    · rw [hr1, hs1]; exact hbusy
    · rw [hq1]
      simp only [List.length_append, List.length_singleton, List.length_cons, List.length_nil]
      omega
    · rw [hl1]; exact hlog
    · rw [hm1]; exact hmeta
  · rw [hpc] at hp
    cases hp
    exfalso
    apply hnle
    omega
  · refine ⟨pg, ?_, ?_, ?_, ?_, ?_, ?_⟩
    · rw [hp1]; exact hpc
    · rw [hq1, hr1, hs1]
      rw [hqq] at hpg
      simp only [List.length_append, List.length_singleton, List.length_cons, List.length_nil] at hpg ⊢
      omega
    · rw [hr1, hs1]
      simp only [List.length_append, List.length_singleton, List.length_cons, List.length_nil]
      omega
    · rw [hq1]
      rw [hqq] at hq
      simp only [List.length_cons] at hq
      omega
    · rw [hl1]; exact hlog
    · rw [hm1]; exact hmeta
  · have hlt := length_lt_of_getElem? _ _ _ hri
    have hsend : s1.sending.length = s.sending.length + 1 := by
      rw [hs1, hstop]
      cases hres : (syncFunc c s.syncMeta s.world page).2 with
      | none => exact absurd hres (hfail _ _ _)
      | some e => simp
    have hrun : s1.running.length = s.running.length - 1 := by
      rw [hr1, List.length_eraseIdx, if_pos hlt]
    refine ⟨pg, ?_, ?_, ?_, ?_, ?_, ?_⟩
    · rw [hp1]; exact hpc
    · rw [hq1, hsend, hrun]
      omega
    · rw [hsend, hrun]
      omega
    · rw [hq1]; exact hq
    · rw [hl1]; exact hlog
    · rw [hm1]; exact hmeta
  · rw [hpc] at hp
    exact absurd hp (by simp)
  · rw [hpc] at hp
    exact absurd hp (by simp)
  · rw [hpc] at hp
    exact absurd hp (by simp)

theorem BlockedInv_run {σ : Type} (c : Ctx σ) (syncMeta : SyncMeta) (s s2 : RunState σ)
    (sched : List Event) (hstop : c.task.StopOnError = true)
    (hfail : ∀ (m : SyncMeta) (w : σ) (page : Int), (syncFunc c m w page).2 ≠ none)
    (hmany : (poolWorkers c.task.Workers : Int) + poolCapacity < c.maxPage)
    (hmax : c.maxPage < maxInt64) (hinv : BlockedInv c syncMeta s)
    (h : run c s sched = some s2) : BlockedInv c syncMeta s2 := by
  induction sched generalizing s with
  | nil =>
    simp only [run, Option.some.injEq] at h
    subst h
    exact hinv
  | cons ev evs ih =>
    obtain ⟨s1, hs1, hrest⟩ := run_cons c s s2 ev evs h
    exact ih s1 (BlockedInv_step c syncMeta s s1 ev hstop hfail hmany hmax hinv hs1) hrest

/-- With `StopOnError` on, every page job failing and more pages than the
workers and the task channel of the pool hold together, `SyncTask` never
returns and never calls `AfterSync`, under any schedule. -/
theorem SyncTask_never_returns {σ : Type} (c : Ctx σ) (w : σ) (syncMeta : SyncMeta)
    (hstop : c.task.StopOnError = true)
    (hfail : ∀ (m : SyncMeta) (w : σ) (page : Int), (syncFunc c m w page).2 ≠ none)
    (hmany : (poolWorkers c.task.Workers : Int) + poolCapacity < c.maxPage)
    (hmax : c.maxPage < maxInt64) (sched : List Event) (s : RunState σ)
    (h : run c (initState w syncMeta) sched = some s) :
    s.pc.isReturned = false ∧ s.afterSyncLog = [] ∧ s.syncMeta = syncMeta := by
  have hinv0 : BlockedInv c syncMeta (initState w syncMeta) :=
    ⟨1, rfl, by simp [initState], by simp [initState], by simp [initState], rfl, rfl⟩
  obtain ⟨pg, hpc, _, _, _, hlog, hmeta⟩ :=
    BlockedInv_run c syncMeta _ s sched hstop hfail hmany hmax hinv0 h
  exact ⟨by rw [hpc]; rfl, hlog, hmeta⟩

end Syncer
namespace Syncer

/-- While the task channel has room `pool.Submit` can queue page after page. -/
theorem run_submitQueue {σ : Type} (c : Ctx σ) (hmax : c.maxPage < maxInt64) (j : Nat) :
    ∀ (s : RunState σ) (p : Int), s.pc = .submitting p → 1 ≤ p →
      p + j ≤ c.maxPage + 1 → s.queue.length + j ≤ poolCapacity →
      ∃ s2, run c s (List.replicate j .submitQueue) = some s2 ∧
        s2.pc = .submitting (p + j) ∧ s2.queue.length = s.queue.length + j ∧
        s2.running = s.running ∧ s2.sending = s.sending ∧
        s2.afterSyncLog = s.afterSyncLog ∧ s2.syncMeta = s.syncMeta := by
  induction j with
  | zero =>
    intro s p hp _ _ _
    exact ⟨s, rfl, by simpa using hp, rfl, rfl, rfl, rfl, rfl⟩
  | succ j ih =>
    intro s p hp h1 hle hcap
    have hguard : p ≤ c.maxPage ∧ s.queue.length < poolCapacity := by
      constructor
      · push_cast at hle; omega
      · omega
    have hstep : step c s .submitQueue
        = some { s with queue := s.queue ++ [p], pc := .submitting (wrap64 (p + 1)) } := by
      simp only [step, hp, hguard, and_self, if_true]
    rw [wrap64_succ_page p c.maxPage h1 hguard.1 hmax] at hstep
    obtain ⟨s2, hrun, hpc2, hq2, hr2, hs2, hl2, hm2⟩ :=
      ih { s with queue := s.queue ++ [p], pc := .submitting (p + 1) } (p + 1) rfl (by omega)
        (by push_cast at hle; omega)
        (by simp only [List.length_append, List.length_singleton]; omega)
    refine ⟨s2, ?_, ?_, ?_, hr2, hs2, hl2, hm2⟩
    · rw [List.replicate_succ]
      unfold run
      rw [hstep]
      exact hrun
    · rw [hpc2]
      push_cast
      congr 1
      omega
    · rw [hq2]
      simp only [List.length_append, List.length_singleton]
      omega

/-- `SyncTask` in the submit loop with a page left, the task channel full, no
job running and every worker blocked sending an error: nothing can move. -/
theorem Deadlocked_of_full {σ : Type} (c : Ctx σ) (s : RunState σ) (page : Int)
    (hpc : s.pc = .submitting page) (hle : page ≤ c.maxPage)
    (hq : s.queue.length = poolCapacity) (hr : s.running = [])
    (hs : s.sending.length = poolWorkers c.task.Workers) : Deadlocked c s := by
  intro ev
  cases ev with
  | submitStart => simp [step, hpc, hr, hs]
  | submitQueue => simp [step, hpc, hq]
  | leaveLoop => simp [step, hpc, hle]
  | take =>
    simp only [step]
    split
    · simp [hr, hs]
    · rfl
  | finish i => simp [step, hr]
  | recvErr i => simp [step, hpc]
  | recvExit => simp [step, hpc]
  | afterSync => simp [step, hpc]

/-- C1 at the failing input: one worker, page size 1, 1002 rows, every page
write failing, `stop_on_error = true`. Under no schedule does `SyncTask`
return; and the schedule that lets the first job fail and then submits 1000
more pages ends in a deadlock, with `AfterSync` never called and the status
still `Pending`. -/
theorem SyncTask_stop_on_error_deadlock :
    (∀ sched : List Event,
      SyncTask (exampleEnv 1002) () (exampleTask "t" "" 1 1 true) sched = none) ∧
    (∃ s, run (exampleCtx 1002 1 1 true) (exampleStart 1002) fillingSchedule = some s ∧
      Deadlocked (exampleCtx 1002 1 1 true) s ∧ s.afterSyncLog = [] ∧
      s.syncMeta.Status = SyncStatusPending) := by
  have hmaxv : (exampleCtx 1002 1 1 true).maxPage = 1002 := by decide
  have hmax : (exampleCtx 1002 1 1 true).maxPage < maxInt64 := by rw [hmaxv]; decide
  constructor
  · intro sched
    unfold SyncTask
    rw [show SyncTask.start (exampleEnv 1002) () (exampleTask "t" "" 1 1 true)
      = .pagePhase (exampleCtx 1002 1 1 true) (exampleStart 1002) from rfl]
    simp only
    cases hrun : run (exampleCtx 1002 1 1 true) (exampleStart 1002) sched with
    | none => rfl
    | some s =>
      have h := SyncTask_never_returns (exampleCtx 1002 1 1 true) () _ rfl
        (fun m w page => by simp [syncFunc, exampleCtx, exampleSource, failingTarget])
        (by rw [hmaxv]; decide) hmax sched s hrun
      simp only
      cases hpc : s.pc with
      | returned n e => rw [hpc] at h; exact absurd h.1 (by simp [PC.isReturned])
      | submitting p => rfl
      | selecting => rfl
      | afterSync => rfl
  · obtain ⟨s2, hrun2, hpc2, hq2, hr2, hs2, hl2, hm2⟩ :
        ∃ s2 : RunState Unit, run (exampleCtx 1002 1 1 true) (exampleStart 1002)
          [.submitStart, .finish 0] = some s2 ∧ s2.pc = .submitting 2 ∧ s2.queue = [] ∧
          s2.running = [] ∧ s2.sending = [(1, "write failed")] ∧ s2.afterSyncLog = [] ∧
          s2.syncMeta.Status = SyncStatusPending :=
      ⟨_, rfl, rfl, rfl, rfl, rfl, rfl, rfl⟩
    obtain ⟨s, hrun, hpc, hq, hr, hs, hl, hm⟩ :=
      run_submitQueue (exampleCtx 1002 1 1 true) hmax 1000 s2 2 hpc2 (by decide)
        (by rw [hmaxv]; decide) (by rw [hq2]; decide)
    refine ⟨s, ?_, ?_, by rw [hl, hl2], by rw [hm, hm2]⟩
    · exact run_append _ _ s2 s [.submitStart, .finish 0] _ hrun2 hrun
    · apply Deadlocked_of_full _ s (2 + (1000 : Nat)) hpc
      · rw [hmaxv]; decide
      · rw [hq, hq2]; rfl
      · rw [hr, hr2]
      · rw [hs, hs2]; rfl

end Syncer
namespace Syncer

/-! ## The page count -/

theorem submittedPages_length (maxPage : Int) : (submittedPages maxPage).length = maxPage.toNat := by
  simp [submittedPages]

/-- The loop of line 201 submits each page index from 1 to `maxPage` once, in order. -/
theorem submittedPages_spec (maxPage : Int) :
    (submittedPages maxPage).Nodup ∧
    ∀ page : Int, page ∈ submittedPages maxPage ↔ 1 ≤ page ∧ page ≤ maxPage := by
  constructor
  · unfold submittedPages
    apply List.Nodup.map
    · intro a b hab
      simp only [Int.ofNat_eq_coe] at hab
      omega
    · exact List.nodup_range _
  · intro page
    unfold submittedPages
    simp only [List.mem_map, List.mem_range]
    constructor
    · rintro ⟨i, hi, rfl⟩
      simp only [Int.ofNat_eq_coe]
      omega
    · rintro ⟨h1, h2⟩
      refine ⟨(page - 1).toNat, by omega, ?_⟩
      rw [Int.ofNat_eq_coe, Int.toNat_of_nonneg (by omega)]
      omega

/-- C2 at concrete inputs. For 95 rows and page size 20 the pages submitted are
1 to 5. For `2 ^ 53 + 1` rows the conversion to float64 loses the last row:
with page size 1 the page count is `2 ^ 53`, one short of the ceiling, and with
page size `2 ^ 52` the pages submitted are 1 and 2 where the ceiling is 3. The
results do not depend on the platform's out-of-range conversion. -/
theorem maxPage_float_rounding (implDefined : Int) :
    submittedPages (maxPage implDefined 95 20) = [1, 2, 3, 4, 5] ∧
    float64 9007199254740993 = .finite 4503599627370496 1 ∧
    maxPage implDefined 9007199254740993 1 = 9007199254740992 ∧
    submittedPages (maxPage implDefined 9007199254740993 4503599627370496) = [1, 2] ∧
    (9007199254740993 + 4503599627370496 - 1) / 4503599627370496 = (3 : Int) :=
  ⟨rfl, by decide, rfl, rfl, by decide⟩

end Syncer
namespace Syncer

theorem mem_of_mem_eraseIdx {α : Type} (l : List α) (i : Nat) (a : α)
    (h : a ∈ l.eraseIdx i) : a ∈ l := by
  induction l generalizing i with
  | nil => simp at h
  | cons x xs ih =>
    cases i with
    | zero =>
      simp only [List.eraseIdx_cons_zero] at h
      exact List.mem_cons_of_mem _ h
    | succ i =>
      simp only [List.eraseIdx_cons_succ, List.mem_cons] at h
      rcases h with h | h
      · rw [h]; exact List.mem_cons_self _ _
      · exact List.mem_cons_of_mem _ (ih i h)

theorem mem_of_getElem? {α : Type} (l : List α) (i : Nat) (a : α) (h : l[i]? = some a) :
    a ∈ l := by
  induction l generalizing i with
  | nil => simp at h
  | cons x xs ih =>
    cases i with
    | zero =>
      simp only [List.getElem?_cons_zero, Option.some.injEq] at h
      rw [h]; exact List.mem_cons_self _ _
    | succ i =>
      simp only [List.getElem?_cons_succ] at h
      exact List.mem_cons_of_mem _ (ih i h)

/-- With `StopOnError` on and the page counter below the largest integer, the
invariant is kept by every action. -/
theorem StopInv_step {σ : Type} (c : Ctx σ) (s s1 : RunState σ) (ev : Event)
    (hstop : c.task.StopOnError = true) (hmax : c.maxPage < maxInt64)
    (hinv : StopInv c s) (h : step c s ev = some s1) : StopInv c s1 := by
  obtain ⟨hsend, hpc⟩ := hinv
  rcases step_inv c s s1 ev h with
    ⟨page, _, hp, hle, _, hp1, hq1, hr1, hs1, hm1, hl1, hres1⟩ |
    ⟨page, _, hp, hle, _, hp1, hq1, hr1, hs1, hm1, hl1, hres1⟩ |
    ⟨page, _, hp, _, hp1, hq1, hr1, hs1, hm1, hl1, hres1⟩ |
    ⟨page, rest, _, hqq, _, hp1, hq1, hr1, hs1, hm1, hl1, hres1⟩ |
    ⟨i, page, _, hri, hp1, hq1, hr1, hs1, hm1, hl1, hres1⟩ |
    ⟨i, page, err, _, hp, hsi, hp1, hq1, hr1, hs1, hm1, hl1, hres1⟩ |
    ⟨_, hp, hqe, hre, hse, hp1, hq1, hr1, hs1, hm1, hl1, hres1⟩ |
    ⟨_, hp, hp1, hq1, hr1, hs1, hm1, hl1, hres1⟩
  · rw [hp] at hpc
    refine ⟨by rw [hs1, hres1]; exact hsend, ?_⟩
    rw [hp1, wrap64_succ_page page c.maxPage hpc.1 hle hmax]
    refine ⟨by omega, by rw [hq1]; omega, by rw [hl1]; exact hpc.2.2.1,
      by rw [hm1]; exact hpc.2.2.2.1, ?_⟩
    rw [hres1, hs1]
    exact hpc.2.2.2.2
  · rw [hp] at hpc
    refine ⟨by rw [hs1, hres1]; exact hsend, ?_⟩
    rw [hp1, wrap64_succ_page page c.maxPage hpc.1 hle hmax]
    refine ⟨by omega, ?_, by rw [hl1]; exact hpc.2.2.1, by rw [hm1]; exact hpc.2.2.2.1, ?_⟩
    · rw [hq1]
      simp only [List.length_append, List.length_singleton, List.length_cons, List.length_nil]
      push_cast
      omega
    · rw [hres1, hs1]
      exact hpc.2.2.2.2
  · rw [hp] at hpc
    refine ⟨by rw [hs1, hres1]; exact hsend, ?_⟩
    rw [hp1]
    refine ⟨by rw [hl1]; exact hpc.2.2.1, by rw [hm1]; exact hpc.2.2.2.1, ?_⟩
    rw [hres1, hs1]
    exact hpc.2.2.2.2
  · refine ⟨by rw [hs1, hres1]; exact hsend, ?_⟩
    rw [hp1]
    cases hpcs : s.pc with
    | submitting pg =>
      rw [hpcs] at hpc
      refine ⟨hpc.1, ?_, by rw [hl1]; exact hpc.2.2.1, by rw [hm1]; exact hpc.2.2.2.1, ?_⟩
      · have := hpc.2.1
        rw [hqq] at this
        rw [hq1]
        simp only [List.length_cons] at this
        push_cast at this
        omega
      · rw [hres1, hs1]
        exact hpc.2.2.2.2
    | selecting =>
      rw [hpcs] at hpc
      refine ⟨by rw [hl1]; exact hpc.1, by rw [hm1]; exact hpc.2.1, ?_⟩
      rw [hres1, hs1]
      exact hpc.2.2
    | afterSync =>
      rw [hpcs] at hpc
      refine ⟨by rw [hl1]; exact hpc.1, ?_⟩
      rcases hpc.2 with ⟨_, _, hq0, _⟩ | hf
      · rw [hq0] at hqq
        exact absurd hqq (by simp)
      · right
        rw [hm1, hres1]
        exact hf
    | returned n e =>
      rw [hpcs] at hpc
      refine ⟨hpc.1, by rw [hl1, hm1]; exact hpc.2.1, ?_⟩
      rcases hpc.2.2 with ⟨_, _, hq0, _⟩ | hf
      · rw [hq0] at hqq
        exact absurd hqq (by simp)
      · right
        rw [hm1, hres1]
        exact hf
  · -- a job finishes
    have hsend1 : ∀ p e, (p, e) ∈ s1.sending → (p, some e) ∈ s1.results := by
      intro p e hpe
      rw [hs1, hstop] at hpe
      rw [hres1]
      cases hres : (syncFunc c s.syncMeta s.world page).2 with
      | none =>
        rw [hres] at hpe
        exact List.mem_append_left _ (hsend p e hpe)
      | some e0 =>
        rw [hres] at hpe
        simp only [List.mem_append, List.mem_singleton, Prod.mk.injEq] at hpe
        rcases hpe with hpe | ⟨rfl, rfl⟩
        · exact List.mem_append_left _ (hsend p e hpe)
        · exact List.mem_append_right _ (by simp)
    have hkeep : (∀ p e, (p, some e) ∈ s.results → (p, e) ∈ s.sending) →
        ∀ p e, (p, some e) ∈ s1.results → (p, e) ∈ s1.sending := by
      intro hall p e hpe
      rw [hres1] at hpe
      rw [hs1, hstop]
      rcases List.mem_append.1 hpe with hpe | hpe
      · have := hall p e hpe
        cases (syncFunc c s.syncMeta s.world page).2 with
        | none => exact this
        | some e0 => exact List.mem_append_left _ this
      · simp only [List.mem_singleton, Prod.mk.injEq] at hpe
        obtain ⟨rfl, hpe⟩ := hpe
        rw [← hpe]
        exact List.mem_append_right _ (by simp)
    have hrunning : s.running ≠ [] := by
      intro hnil
      rw [hnil] at hri
      exact absurd hri (by simp)
    refine ⟨hsend1, ?_⟩
    rw [hp1]
    cases hpcs : s.pc with
    | submitting pg =>
      rw [hpcs] at hpc
      exact ⟨hpc.1, by rw [hq1]; exact hpc.2.1, by rw [hl1]; exact hpc.2.2.1,
        by rw [hm1]; exact hpc.2.2.2.1, hkeep hpc.2.2.2.2⟩
    | selecting =>
      rw [hpcs] at hpc
      exact ⟨by rw [hl1]; exact hpc.1, by rw [hm1]; exact hpc.2.1, hkeep hpc.2.2⟩
    | afterSync =>
      rw [hpcs] at hpc
      refine ⟨by rw [hl1]; exact hpc.1, ?_⟩
      rcases hpc.2 with ⟨_, _, _, hr0, _⟩ | ⟨hst, p, e, he, hmem⟩
      · exact absurd hr0 hrunning
      · right
        rw [hm1, hres1]
        exact ⟨hst, p, e, he, List.mem_append_left _ hmem⟩
    | returned n e =>
      rw [hpcs] at hpc
      refine ⟨hpc.1, by rw [hl1, hm1]; exact hpc.2.1, ?_⟩
      rcases hpc.2.2 with ⟨_, _, _, hr0, _⟩ | ⟨hst, p, e, he, hmem⟩
      · exact absurd hr0 hrunning
      · right
        rw [hm1, hres1]
        exact ⟨hst, p, e, he, List.mem_append_left _ hmem⟩
  · -- the select receives an error
    rw [hp] at hpc
    have hmem := mem_of_getElem? _ _ _ hsi
    refine ⟨?_, ?_⟩
    · intro p e hpe
      rw [hs1] at hpe
      rw [hres1]
      exact hsend p e (mem_of_mem_eraseIdx _ _ _ hpe)
    · rw [hp1]
      refine ⟨by rw [hl1]; exact hpc.1, Or.inr ?_⟩
      rw [hm1, hres1]
      exact ⟨rfl, page, err, rfl, hsend page err hmem⟩
  · -- the select receives exit
    rw [hp] at hpc
    refine ⟨by rw [hs1, hres1]; exact hsend, ?_⟩
    rw [hp1]
    refine ⟨by rw [hl1]; exact hpc.1, Or.inl ?_⟩
    rw [hm1, hq1, hr1, hres1]
    refine ⟨rfl, hpc.2.1, hqe, hre, ?_⟩
    rintro ⟨p, e, hpe⟩
    have := hpc.2.2 p e hpe
    rw [hse] at this
    exact absurd this (by simp)
  · -- AfterSync
    rw [hp] at hpc
    refine ⟨by rw [hs1, hres1]; exact hsend, ?_⟩
    rw [hp1]
    refine ⟨rfl, ⟨_, by rw [hl1, hpc.1, hm1]; rfl, by rw [hm1]⟩, ?_⟩
    rw [hm1, hq1, hr1, hres1]
    exact hpc.2

end Syncer
namespace Syncer

/-- Every action uses up some of the work left, as long as the page counter is
at least 1 and below the largest integer. -/
theorem workLeft_step_any {σ : Type} (c : Ctx σ) (s s1 : RunState σ) (ev : Event)
    (hmax : c.maxPage < maxInt64) (hpage : ∀ page, s.pc = .submitting page → 1 ≤ page)
    (h : step c s ev = some s1) : workLeft c s1 + 1 ≤ workLeft c s := by
  unfold workLeft
  rcases step_inv c s s1 ev h with
    ⟨page, _, hp, hle, _, hp1, hq1, hr1, _⟩ |
    ⟨page, _, hp, hle, _, hp1, hq1, hr1, _⟩ |
    ⟨page, _, hp, hnle, hp1, hq1, hr1, _⟩ |
    ⟨page, rest, _, hq, _, hp1, hq1, hr1, _⟩ |
    ⟨i, page, _, hri, hp1, hq1, hr1, _⟩ |
    ⟨i, page, err, _, hp, _, hp1, hq1, hr1, _⟩ |
    ⟨_, hp, _, _, _, hp1, hq1, hr1, _⟩ |
    ⟨_, hp, hp1, hq1, hr1, _⟩
  · rw [hp1, hq1, hr1, hp, wrap64_succ_page page c.maxPage (hpage page hp) hle hmax]
    simp only [pagesLeft, pcRank, List.length_append, List.length_singleton]
    omega
  · rw [hp1, hq1, hr1, hp, wrap64_succ_page page c.maxPage (hpage page hp) hle hmax]
    simp only [pagesLeft, pcRank, List.length_append, List.length_singleton]
    omega
  · rw [hp1, hq1, hr1, hp]
    simp only [pagesLeft, pcRank]
    omega
  · rw [hp1, hq1, hr1, hq]
    simp only [List.length_append, List.length_singleton, List.length_cons, List.length_nil]
    omega
  · have hlt := length_lt_of_getElem? _ _ _ hri
    rw [hp1, hq1, hr1, List.length_eraseIdx, if_pos hlt]
    omega
  · rw [hp1, hq1, hr1, hp]
    simp only [pagesLeft, pcRank]
    omega
  · rw [hp1, hq1, hr1, hp]
    simp only [pagesLeft, pcRank]
    omega
  · rw [hp1, hq1, hr1, hp]
    simp only [pagesLeft, pcRank]
    omega

theorem StopInv_page {σ : Type} (c : Ctx σ) (s : RunState σ) (hinv : StopInv c s) :
    ∀ page, s.pc = .submitting page → 1 ≤ page := by
  intro page hp
  have := hinv.2
  rw [hp] at this
  exact this.1

/-- With `StopOnError` on and no more pages than the task channel holds,
`SyncTask` never blocks for good: as long as it has not returned some action
is enabled. -/
theorem StopInv_progress {σ : Type} (c : Ctx σ) (s : RunState σ)
    (hsmall : c.maxPage ≤ poolCapacity) (hinv : StopInv c s)
    (hnot : s.pc.isReturned = false) : ∃ ev s1, step c s ev = some s1 := by
  have hw : 0 < poolWorkers c.task.Workers := by
    unfold poolWorkers
    split_ifs <;> omega
  have hpc := hinv.2
  cases hp : s.pc with
  | submitting page =>
    rw [hp] at hpc
    by_cases hle : page ≤ c.maxPage
    · refine ⟨.submitQueue, ?_⟩
      have hq : s.queue.length < poolCapacity := by
        have := hpc.2.1
        omega
      simp only [step, hp, hq, hle, and_self, if_true]
      exact ⟨_, rfl⟩
    · refine ⟨.leaveLoop, ?_⟩
      simp only [step, hp, hle, if_false]
      exact ⟨_, rfl⟩
  | selecting =>
    cases hs : s.sending with
    | cons x xs =>
      refine ⟨.recvErr 0, ?_⟩
      have h0 : s.sending[0]? = some (x.1, x.2) := by rw [hs]; simp
      simp only [step, hp, h0]
      exact ⟨_, rfl⟩
    | nil =>
      cases hr : s.running with
      | cons p ps =>
        have h0 : s.running[0]? = some p := by rw [hr]; simp
        refine ⟨.finish 0, ?_⟩
        simp only [step, h0]
        cases (syncFunc c s.syncMeta s.world p).2 with
        | none => exact ⟨_, rfl⟩
        | some e =>
          simp only
          split_ifs <;> exact ⟨_, rfl⟩
      | nil =>
        cases hq : s.queue with
        | cons p ps =>
          refine ⟨.take, ?_⟩
          simp only [step, hq, hr, hs, List.length_nil, add_zero, hw, if_true]
          exact ⟨_, rfl⟩
        | nil =>
          refine ⟨.recvExit, ?_⟩
          simp only [step, hp, hq, hr, hs, and_self, if_true]
          exact ⟨_, rfl⟩
  | afterSync =>
    refine ⟨.afterSync, ?_⟩
    simp only [step, hp]
    exact ⟨_, rfl⟩
  | returned n e =>
    rw [hp] at hnot
    exact absurd hnot (by simp [PC.isReturned])

theorem StopInv_run {σ : Type} (c : Ctx σ) (s s2 : RunState σ) (sched : List Event)
    (hstop : c.task.StopOnError = true) (hmax : c.maxPage < maxInt64)
    (hinv : StopInv c s) (h : run c s sched = some s2) :
    StopInv c s2 ∧ sched.length + workLeft c s2 ≤ workLeft c s := by
  induction sched generalizing s with
  | nil =>
    simp only [run, Option.some.injEq] at h
    subst h
    exact ⟨hinv, by simp⟩
  | cons ev evs ih =>
    obtain ⟨s1, hs1, hrest⟩ := run_cons c s s2 ev evs h
    have hinv1 := StopInv_step c s s1 ev hstop hmax hinv hs1
    have hdec := workLeft_step_any c s s1 ev hmax (StopInv_page c s hinv) hs1
    obtain ⟨hinv2, hlen⟩ := ih s1 hinv1 hrest
    refine ⟨hinv2, ?_⟩
    simp only [List.length_cons]
    omega

theorem StopInv_completes {σ : Type} (c : Ctx σ) (hstop : c.task.StopOnError = true)
    (hmax : c.maxPage < maxInt64) (hsmall : c.maxPage ≤ poolCapacity) (n : Nat) :
    ∀ s : RunState σ, workLeft c s ≤ n → StopInv c s →
      ∃ more s2, run c s more = some s2 ∧ s2.pc.isReturned = true := by
  induction n with
  | zero =>
    intro s hn hinv
    cases hret : s.pc.isReturned with
    | true => exact ⟨[], s, rfl, hret⟩
    | false =>
      obtain ⟨ev, s1, hs1⟩ := StopInv_progress c s hsmall hinv hret
      have := workLeft_step_any c s s1 ev hmax (StopInv_page c s hinv) hs1
      omega
  | succ n ih =>
    intro s hn hinv
    cases hret : s.pc.isReturned with
    | true => exact ⟨[], s, rfl, hret⟩
    | false =>
      obtain ⟨ev, s1, hs1⟩ := StopInv_progress c s hsmall hinv hret
      have hdec := workLeft_step_any c s s1 ev hmax (StopInv_page c s hinv) hs1
      obtain ⟨more, s2, hrun, hr2⟩ :=
        ih s1 (by omega) (StopInv_step c s s1 ev hstop hmax hinv hs1)
      refine ⟨ev :: more, s2, ?_, hr2⟩
      unfold run
      rw [hs1]
      exact hrun

/-- With `stop_on_error = true` and at most 1000 pages (so that `pool.Submit`
never blocks), for every run that reaches the page phase with `meta.Error`
nil, under every schedule of the goroutines: the schedule is at most
`3 * maxPage + 3` actions long; as long as `SyncTask` has not returned some
action is enabled and some continuation takes it to its return; and when it has
returned, `AfterSync` was called exactly once, with the final meta, and if some
page job returned an error then `meta.Status` is `Failed` and `meta.Error` is
one of the page errors, while with no page error the status is `Success` and
`meta.Error` is nil. -/
theorem SyncTask_stop_on_error_small {σ : Type} (env : Env σ) (w : σ) (task : SyncerTask)
    (c : Ctx σ) (s0 : RunState σ) (hstart : SyncTask.start env w task = .pagePhase c s0)
    (hstop : task.StopOnError = true) (hsmall : c.maxPage ≤ poolCapacity)
    (herr : s0.syncMeta.Error = none) (sched : List Event) (s : RunState σ)
    (hrun : run c s0 sched = some s) :
    sched.length ≤ 3 * c.maxPage.toNat + 3 ∧
    (s.pc.isReturned = false → ∃ ev s1, step c s ev = some s1) ∧
    (∃ more s2, run c s more = some s2 ∧ s2.pc.isReturned = true) ∧
    (∀ n e, s.pc = .returned n e →
      n = c.total ∧
      (∃ r, s.afterSyncLog = [(s.syncMeta, r)] ∧
        e = match r with
            | some e1 => some e1
            | none => s.syncMeta.Error) ∧
      (hasPageError s.results →
        s.syncMeta.Status = SyncStatusFailed ∧
          ∃ p e1, s.syncMeta.Error = some e1 ∧ (p, some e1) ∈ s.results) ∧
      (¬ hasPageError s.results →
        s.syncMeta.Status = SyncStatusSuccess ∧ s.syncMeta.Error = none)) := by
  obtain ⟨hct, hpc0, hq0, hr0, hs0, hres0, hl0⟩ := start_pagePhase env w task c s0 hstart
  have hstop' : c.task.StopOnError = true := by rw [hct]; exact hstop
  have hmax : c.maxPage < maxInt64 := by
    unfold poolCapacity at hsmall
    unfold maxInt64
    omega
  have hinv0 : StopInv c s0 := by
    refine ⟨by rw [hs0]; simp, ?_⟩
    rw [hpc0]
    refine ⟨le_refl 1, by rw [hq0]; simp, hl0, herr, ?_⟩
    rw [hres0]
    simp
  have hwork0 : workLeft c s0 = 3 * c.maxPage.toNat + 3 := by
    unfold workLeft
    rw [hpc0, hq0, hr0]
    simp [pagesLeft, pcRank]
  obtain ⟨hinv, hlen⟩ := StopInv_run c s0 s sched hstop' hmax hinv0 hrun
  refine ⟨by omega, StopInv_progress c s hsmall hinv,
    StopInv_completes c hstop' hmax hsmall (workLeft c s) s (le_refl _) hinv, ?_⟩
  intro n e hpc
  have hpcinv := hinv.2
  rw [hpc] at hpcinv
  refine ⟨hpcinv.1, hpcinv.2.1, ?_, ?_⟩
  · intro herrs
    rcases hpcinv.2.2 with ⟨_, _, _, _, hno⟩ | hf
    · exact absurd herrs hno
    · exact hf
  · intro hno
    rcases hpcinv.2.2 with ⟨hst, he, _⟩ | ⟨_, p, e1, _, hmem⟩
    · exact ⟨hst, he⟩
    · exact absurd ⟨p, e1, hmem⟩ hno

/-- The same on a concrete run: three pages on one worker, every page write
failing, `stop_on_error = true`. `SyncTask` returns `(3, "write failed")` with
status `Failed` after one `AfterSync` call. -/
theorem SyncTask_stop_on_error_small_witness :
    SyncTask (exampleEnv 3) () (exampleTask "t" "" 1 1 true)
        [.submitStart, .submitQueue, .submitQueue, .leaveLoop, .finish 0, .recvErr 0, .afterSync]
      = some (3, some "write failed") ∧
    (Option.map (fun s => (s.syncMeta.Status, s.syncMeta.Error, s.afterSyncLog.length))
        (run (exampleCtx 3 1 1 true) (exampleStart 3)
          [.submitStart, .submitQueue, .submitQueue, .leaveLoop, .finish 0, .recvErr 0,
            .afterSync]))
      = some (SyncStatusFailed, some "write failed", 1) ∧
    [Event.submitStart, .submitQueue, .submitQueue, .leaveLoop, .finish 0, .recvErr 0,
        .afterSync].length ≤ 3 * (exampleCtx 3 1 1 true).maxPage.toNat + 3 := by
  obtain ⟨s, hs⟩ : ∃ s, run (exampleCtx 3 1 1 true) (exampleStart 3)
      [.submitStart, .submitQueue, .submitQueue, .leaveLoop, .finish 0, .recvErr 0, .afterSync]
      = some s := ⟨_, rfl⟩
  have h := SyncTask_stop_on_error_small (exampleEnv 3) () (exampleTask "t" "" 1 1 true)
    (exampleCtx 3 1 1 true) (exampleStart 3) rfl rfl (by decide) rfl _ s hs
  exact ⟨by decide, by decide, h.1⟩

end Syncer
namespace Syncer

/-! ## float64 rounding -/

theorem bitLenAux_spec (fuel : Nat) :
    ∀ n : Nat, n ≤ fuel → 0 < n →
      1 ≤ bitLenAux fuel n ∧ 2 ^ (bitLenAux fuel n - 1) ≤ n ∧ n < 2 ^ bitLenAux fuel n := by
  induction fuel with
  | zero => intro n h1 h2; omega
  | succ fuel ih =>
    intro n hle hpos
    have hne : n ≠ 0 := by omega
    simp only [bitLenAux, hne, if_false]
    by_cases h2 : n / 2 = 0
    · have hn1 : n = 1 := by omega
      subst hn1
      cases fuel with
      | zero => simp [bitLenAux]
      | succ f => simp [bitLenAux]
    · obtain ⟨h1, hlo, hhi⟩ := ih (n / 2) (by omega) (by omega)
      refine ⟨by omega, ?_, ?_⟩
      · simp only [Nat.add_sub_cancel]
        have : 2 ^ bitLenAux fuel (n / 2) = 2 * 2 ^ (bitLenAux fuel (n / 2) - 1) := by
          rw [← pow_succ']
          congr 1
          omega
        omega
      · rw [pow_succ]
        omega

theorem bitLen_spec (n : Nat) (hpos : 0 < n) :
    1 ≤ bitLen n ∧ 2 ^ (bitLen n - 1) ≤ n ∧ n < 2 ^ bitLen n :=
  bitLenAux_spec n n (le_refl n) hpos

/-- Rounding to nearest does not pass an integer on the way up. -/
theorem roundNearestEven_le (n d g : Nat) (hd : 0 < d) (h : n ≤ g * d) :
    roundNearestEven n d ≤ g := by
  unfold roundNearestEven
  simp only
  have hdiv := Nat.div_add_mod n d
  have hmod := Nat.mod_lt n hd
  have hq : n / d ≤ g := by
    apply Nat.div_le_of_le_mul
    rw [Nat.mul_comm]; exact h
  by_cases hqg : n / d = g
  · have hr : n % d = 0 := by
      have : d * (n / d) = g * d := by rw [hqg, Nat.mul_comm]
      omega
    rw [hr]
    simp [hd, hqg]
  · split_ifs <;> omega

/-- Rounding to nearest does not pass an integer on the way down. -/
theorem le_roundNearestEven (n d g : Nat) (hd : 0 < d) (h : g * d ≤ n) :
    g ≤ roundNearestEven n d := by
  unfold roundNearestEven
  simp only
  have hq : g ≤ n / d := (Nat.le_div_iff_mul_le hd).2 h
  split_ifs <;> omega

/-- What lies above the midpoint rounds up. -/
theorem succ_le_roundNearestEven (n d g : Nat) (hd : 0 < d) (h : 2 * g * d + d < 2 * n) :
    g + 1 ≤ roundNearestEven n d := by
  unfold roundNearestEven
  simp only
  have hdiv := Nat.div_add_mod n d
  have hmod := Nat.mod_lt n hd
  have hq : g ≤ n / d := by
    apply (Nat.le_div_iff_mul_le hd).2
    nlinarith
  by_cases hqg : n / d = g
  · have hr : d < 2 * (n % d) := by
      have e1 : d * (n / d) = g * d := by rw [hqg, Nat.mul_comm]
      have e2 : 2 * g * d = 2 * (g * d) := by ring
      omega
    have hr2 : ¬ 2 * (n % d) < d := by omega
    rw [if_neg hr2, if_pos hr, hqg]
  · split_ifs <;> omega

end Syncer
namespace Syncer

theorem scaleDen_pos (d : Nat) (s : Int) (hd : 0 < d) : 0 < scaleDen d s := by
  unfold scaleDen
  split_ifs
  · exact hd
  · exact Nat.mul_pos hd (by positivity)

/-- The scaled numerator over the scaled denominator is the quotient times `2 ^ s`. -/
theorem scale_ratio (n d : Nat) (s : Int) (hd : 0 < d) :
    ((scaleNum n s : Nat) : ℚ) / ((scaleDen d s : Nat) : ℚ) = (n : ℚ) / (d : ℚ) * (2 : ℚ) ^ s := by
  have hdq : (d : ℚ) ≠ 0 := by exact_mod_cast (Nat.pos_iff_ne_zero.1 hd)
  unfold scaleNum scaleDen
  by_cases hs : 0 ≤ s
  · rw [if_pos hs, if_pos hs]
    obtain ⟨k, rfl⟩ := Int.eq_ofNat_of_zero_le hs
    simp only [Int.toNat_ofNat, zpow_natCast]
    push_cast
    ring
  · rw [if_neg hs, if_neg hs]
    have hk : s = -(((-s).toNat : Nat) : Int) := by omega
    generalize (-s).toNat = k at hk
    subst hk
    rw [zpow_neg, zpow_natCast]
    push_cast
    field_simp

theorem scale_lt_iff (n d : Nat) (s : Int) (hd : 0 < d) (g : Nat) :
    scaleNum n s < g * scaleDen d s ↔ (n : ℚ) / (d : ℚ) * (2 : ℚ) ^ s < (g : ℚ) := by
  have hD : (0 : ℚ) < ((scaleDen d s : Nat) : ℚ) := by exact_mod_cast scaleDen_pos d s hd
  rw [← scale_ratio n d s hd, div_lt_iff₀ hD]
  exact_mod_cast Iff.rfl

theorem scale_le_iff (n d : Nat) (s : Int) (hd : 0 < d) (g : Nat) :
    scaleNum n s ≤ g * scaleDen d s ↔ (n : ℚ) / (d : ℚ) * (2 : ℚ) ^ s ≤ (g : ℚ) := by
  have hD : (0 : ℚ) < ((scaleDen d s : Nat) : ℚ) := by exact_mod_cast scaleDen_pos d s hd
  rw [← scale_ratio n d s hd, div_le_iff₀ hD]
  exact_mod_cast Iff.rfl

theorem scale_ge_iff (n d : Nat) (s : Int) (hd : 0 < d) (g : Nat) :
    g * scaleDen d s ≤ scaleNum n s ↔ (g : ℚ) ≤ (n : ℚ) / (d : ℚ) * (2 : ℚ) ^ s := by
  have hD : (0 : ℚ) < ((scaleDen d s : Nat) : ℚ) := by exact_mod_cast scaleDen_pos d s hd
  rw [← scale_ratio n d s hd, le_div_iff₀ hD]
  exact_mod_cast Iff.rfl

/-- The first guess of the scale puts the quotient strictly between `2 ^ 51` and `2 ^ 53`. -/
theorem first_scale_bracket (n d : Nat) (hn : 0 < n) (hd : 0 < d) :
    (2 : ℚ) ^ 51 < (n : ℚ) / (d : ℚ) * (2 : ℚ) ^ (52 - ((bitLen n : Int) - (bitLen d : Int))) ∧
    (n : ℚ) / (d : ℚ) * (2 : ℚ) ^ (52 - ((bitLen n : Int) - (bitLen d : Int))) < (2 : ℚ) ^ 53 := by
  obtain ⟨ha1, halo, hahi⟩ := bitLen_spec n hn
  obtain ⟨hb1, hblo, hbhi⟩ := bitLen_spec d hd
  have hdq : (0 : ℚ) < (d : ℚ) := by exact_mod_cast hd
  have hnq : (0 : ℚ) < (n : ℚ) := by exact_mod_cast hn
  have e : (2 : ℚ) ^ (52 - ((bitLen n : Int) - (bitLen d : Int)))
      = (2 : ℚ) ^ 52 * (2 : ℚ) ^ (bitLen d) / (2 : ℚ) ^ (bitLen n) := by
    rw [show (52 : Int) - ((bitLen n : Int) - (bitLen d : Int))
        = ((52 : Nat) : Int) + (bitLen d : Int) - (bitLen n : Int) by push_cast; ring]
    rw [zpow_sub₀ (by norm_num), zpow_add₀ (by norm_num), zpow_natCast, zpow_natCast,
      zpow_natCast]
  rw [e]
  have hA : (0 : ℚ) < (2 : ℚ) ^ (bitLen n) := by positivity
  have hB : (0 : ℚ) < (2 : ℚ) ^ (bitLen d) := by positivity
  have h1 : (n : ℚ) < (2 : ℚ) ^ (bitLen n) := by exact_mod_cast hahi
  have h2 : (d : ℚ) < (2 : ℚ) ^ (bitLen d) := by exact_mod_cast hbhi
  have h3 : (2 : ℚ) ^ (bitLen n) ≤ 2 * (n : ℚ) := by
    have : 2 ^ bitLen n = 2 * 2 ^ (bitLen n - 1) := by
      rw [← pow_succ']
      congr 1
      omega
    have h : 2 ^ bitLen n ≤ 2 * n := by omega
    exact_mod_cast h
  have h4 : (2 : ℚ) ^ (bitLen d) ≤ 2 * (d : ℚ) := by
    have : 2 ^ bitLen d = 2 * 2 ^ (bitLen d - 1) := by
      rw [← pow_succ']
      congr 1
      omega
    have h : 2 ^ bitLen d ≤ 2 * d := by omega
    exact_mod_cast h
  have key : (n : ℚ) / (d : ℚ) * ((2 : ℚ) ^ 52 * (2 : ℚ) ^ (bitLen d) / (2 : ℚ) ^ (bitLen n))
      = (2 : ℚ) ^ 52 * (((n : ℚ) * (2 : ℚ) ^ (bitLen d)) / ((d : ℚ) * (2 : ℚ) ^ (bitLen n))) := by
    field_simp
    ring
  rw [key]
  have hden : (0 : ℚ) < (d : ℚ) * (2 : ℚ) ^ (bitLen n) := by positivity
  constructor
  · have : (1 : ℚ) / 2 < ((n : ℚ) * (2 : ℚ) ^ (bitLen d)) / ((d : ℚ) * (2 : ℚ) ^ (bitLen n)) := by
      rw [lt_div_iff₀ hden]
      nlinarith
    nlinarith
  · have : ((n : ℚ) * (2 : ℚ) ^ (bitLen d)) / ((d : ℚ) * (2 : ℚ) ^ (bitLen n)) < 2 := by
      rw [div_lt_iff₀ hden]
      nlinarith
    nlinarith

end Syncer
namespace Syncer

/-- What `roundPos` computes, for the quotient `u = n / d * 2 ^ (-e)` scaled by
the exponent `e` it returns: `u` lies in `[2 ^ 52, 2 ^ 53)`, and the mantissa is
`u` rounded to a nearest integer: it passes no integer on either side, and
goes up to the next integer when `u` is above the midpoint. -/
theorem roundPos_spec (n d : Nat) (hn : 0 < n) (hd : 0 < d) :
    (2 : ℚ) ^ 52 ≤ (n : ℚ) / (d : ℚ) * (2 : ℚ) ^ (-(roundPos n d).2) ∧
    (n : ℚ) / (d : ℚ) * (2 : ℚ) ^ (-(roundPos n d).2) < (2 : ℚ) ^ 53 ∧
    (∀ g : Nat, (n : ℚ) / (d : ℚ) * (2 : ℚ) ^ (-(roundPos n d).2) ≤ (g : ℚ) →
      (roundPos n d).1 ≤ g) ∧
    (∀ g : Nat, (g : ℚ) ≤ (n : ℚ) / (d : ℚ) * (2 : ℚ) ^ (-(roundPos n d).2) →
      g ≤ (roundPos n d).1) ∧
    (∀ g : Nat, (g : ℚ) + 1 / 2 < (n : ℚ) / (d : ℚ) * (2 : ℚ) ^ (-(roundPos n d).2) →
      g + 1 ≤ (roundPos n d).1) := by
  obtain ⟨hlo, hhi⟩ := first_scale_bracket n d hn hd
  have key : ∀ s : Int,
      (roundPos n d) = (roundNearestEven (scaleNum n s) (scaleDen d s), -s) →
      (2 : ℚ) ^ 52 ≤ (n : ℚ) / (d : ℚ) * (2 : ℚ) ^ s →
      (n : ℚ) / (d : ℚ) * (2 : ℚ) ^ s < (2 : ℚ) ^ 53 →
      (2 : ℚ) ^ 52 ≤ (n : ℚ) / (d : ℚ) * (2 : ℚ) ^ (-(roundPos n d).2) ∧
      (n : ℚ) / (d : ℚ) * (2 : ℚ) ^ (-(roundPos n d).2) < (2 : ℚ) ^ 53 ∧
      (∀ g : Nat, (n : ℚ) / (d : ℚ) * (2 : ℚ) ^ (-(roundPos n d).2) ≤ (g : ℚ) →
        (roundPos n d).1 ≤ g) ∧
      (∀ g : Nat, (g : ℚ) ≤ (n : ℚ) / (d : ℚ) * (2 : ℚ) ^ (-(roundPos n d).2) →
        g ≤ (roundPos n d).1) ∧
      (∀ g : Nat, (g : ℚ) + 1 / 2 < (n : ℚ) / (d : ℚ) * (2 : ℚ) ^ (-(roundPos n d).2) →
        g + 1 ≤ (roundPos n d).1) := by
    intro s hr h1 h2
    rw [hr]
    simp only [neg_neg]
    have hD := scaleDen_pos d s hd
    refine ⟨h1, h2, ?_, ?_, ?_⟩
    · intro g hg
      exact roundNearestEven_le _ _ g hD ((scale_le_iff n d s hd g).2 hg)
    · intro g hg
      exact le_roundNearestEven _ _ g hD ((scale_ge_iff n d s hd g).2 hg)
    · intro g hg
      apply succ_le_roundNearestEven _ _ g hD
      have hDq : (0 : ℚ) < ((scaleDen d s : Nat) : ℚ) := by exact_mod_cast hD
      rw [← scale_ratio n d s hd, lt_div_iff₀ hDq] at hg
      have : (2 * (g : ℚ) * ((scaleDen d s : Nat) : ℚ) + ((scaleDen d s : Nat) : ℚ))
          < 2 * ((scaleNum n s : Nat) : ℚ) := by linarith
      exact_mod_cast this
  by_cases hc : scaleNum n (52 - ((bitLen n : Int) - (bitLen d : Int)))
      < 2 ^ 52 * scaleDen d (52 - ((bitLen n : Int) - (bitLen d : Int)))
  · have hq := (scale_lt_iff n d _ hd (2 ^ 52)).1 hc
    push_cast at hq
    apply key (52 - ((bitLen n : Int) - (bitLen d : Int)) + 1)
    · unfold roundPos
      simp only [hc, if_true]
    · rw [zpow_add_one₀ (by norm_num)]
      nlinarith
    · rw [zpow_add_one₀ (by norm_num)]
      nlinarith
  · have hq : ¬ ((n : ℚ) / (d : ℚ) * (2 : ℚ) ^ (52 - ((bitLen n : Int) - (bitLen d : Int)))
        < ((2 ^ 52 : Nat) : ℚ)) := fun h => hc ((scale_lt_iff n d _ hd (2 ^ 52)).2 h)
    push_cast at hq
    apply key (52 - ((bitLen n : Int) - (bitLen d : Int)))
    · unfold roundPos
      simp only [hc, if_false]
    · exact not_lt.1 hq
    · exact hhi

end Syncer
namespace Syncer

theorem two_zpow_le_half (k : Int) (hk : k ≤ -1) : (2 : ℚ) ^ k ≤ 1 / 2 := by
  have h := zpow_le_zpow_right₀ (a := (2 : ℚ)) (by norm_num) hk
  have e : (2 : ℚ) ^ (-1 : Int) = 1 / 2 := by norm_num
  rw [e] at h
  exact h

/-- A positive integer below `2 ^ 53` converts to float64 exactly: the mantissa
is the integer shifted left and the exponent undoes the shift. -/
theorem roundPos_exact (t : Nat) (ht : 0 < t) (hlt : t < 2 ^ 53) :
    ∃ k : Nat, (roundPos t 1).2 = -(k : Int) ∧ (roundPos t 1).1 = t * 2 ^ k := by
  obtain ⟨hlo, _, hle, hge, _⟩ := roundPos_spec t 1 ht (by norm_num)
  have htq : (t : ℚ) < (2 : ℚ) ^ 53 := by exact_mod_cast hlt
  have htpos : (0 : ℚ) < (t : ℚ) := by exact_mod_cast ht
  have hk : 0 ≤ -(roundPos t 1).2 := by
    by_contra hneg
    have := two_zpow_le_half (-(roundPos t 1).2) (by omega)
    have hbad : (t : ℚ) / ((1 : Nat) : ℚ) * (2 : ℚ) ^ (-(roundPos t 1).2) < (2 : ℚ) ^ 52 := by
      simp only [Nat.cast_one, div_one]
      nlinarith
    exact absurd hlo (not_le.2 hbad)
  obtain ⟨k, hk2⟩ := Int.eq_ofNat_of_zero_le hk
  refine ⟨k, by omega, ?_⟩
  have hu : (t : ℚ) / ((1 : Nat) : ℚ) * (2 : ℚ) ^ (-(roundPos t 1).2) = ((t * 2 ^ k : Nat) : ℚ) := by
    rw [hk2, zpow_natCast]
    push_cast
    ring
  rw [hu] at hle hge
  exact le_antisymm (hle _ (le_refl _)) (hge _ (le_refl _))

theorem float64_exact (t : Nat) (ht : 0 < t) (hlt : t < 2 ^ 53) :
    ∃ k : Nat, float64 (t : Int) = .finite ((t * 2 ^ k : Nat) : Int) (-(k : Int)) := by
  obtain ⟨k, h2, h1⟩ := roundPos_exact t ht hlt
  refine ⟨k, ?_⟩
  unfold float64
  have hne : (t : Int) ≠ 0 := by omega
  rw [if_neg hne]
  simp only [Int.natAbs_ofNat]
  rw [h1, h2, Int.sign_eq_one_of_pos (by omega), one_mul]

/-- Go `math.Ceil` of a finite float64 is the ceiling of the rational it stands for. -/
theorem ceil_finite (m e : Int) :
    (if 0 ≤ e then m * 2 ^ e.toNat else -((-m) / 2 ^ (-e).toNat)) = ⌈(m : ℚ) * (2 : ℚ) ^ e⌉ := by
  have h := floor_finite (-m) e
  by_cases he : 0 ≤ e
  · rw [if_pos he] at h ⊢
    have : ⌈(m : ℚ) * (2 : ℚ) ^ e⌉ = -⌊((-m : Int) : ℚ) * (2 : ℚ) ^ e⌋ := by
      rw [← Int.ceil_neg]
      congr 1
      push_cast
      ring
    rw [this, ← h]
    ring
  · rw [if_neg he] at h ⊢
    have : ⌈(m : ℚ) * (2 : ℚ) ^ e⌉ = -⌊((-m : Int) : ℚ) * (2 : ℚ) ^ e⌋ := by
      rw [← Int.ceil_neg]
      congr 1
      push_cast
      ring
    rw [this, ← h]

/-- The exact integer ceiling of `T / S`. -/
theorem ceil_div_eq (T S : Int) (hS : 0 < S) : ⌈(T : ℚ) / (S : ℚ)⌉ = (T + S - 1) / S := by
  rw [Int.ceil_eq_iff]
  have hSq : (0 : ℚ) < (S : ℚ) := by exact_mod_cast hS
  have h1 := Int.ediv_mul_le (T + S - 1) (ne_of_gt hS)
  have h2 := Int.lt_ediv_add_one_mul_self (T + S - 1) hS
  generalize (T + S - 1) / S = q at h1 h2
  constructor
  · rw [lt_div_iff₀ hSq]
    have : (q - 1) * S < T := by nlinarith
    exact_mod_cast this
  · rw [div_le_iff₀ hSq]
    have : T ≤ q * S := by nlinarith
    exact_mod_cast this

end Syncer
namespace Syncer

theorem div_finite_pos (m1 m2 : Nat) (e1 e2 : Int) (h1 : 0 < m1) (h2 : 0 < m2) :
    (Float64.finite (m1 : Int) e1).div (.finite (m2 : Int) e2)
      = .finite ((roundPos m1 m2).1 : Int) ((roundPos m1 m2).2 + e1 - e2) := by
  have hm1 : (m1 : Int) ≠ 0 := by omega
  have hm2 : (m2 : Int) ≠ 0 := by omega
  simp only [Float64.div]
  rw [if_neg hm2, if_neg hm1]
  simp only [Int.natAbs_ofNat]
  rw [Int.sign_eq_one_of_pos (by omega), Int.sign_eq_one_of_pos (by omega), one_mul, one_mul]

theorem floatToInt_Ceil_finite (implDefined : Int) (m e z : Int)
    (hz : ⌈(m : ℚ) * (2 : ℚ) ^ e⌉ = z) (hr : isInt64 z) :
    floatToInt implDefined (Ceil (.finite m e)) = z := by
  rw [← ceil_finite] at hz
  unfold isInt64 at hr
  simp only [Ceil]
  by_cases he : 0 ≤ e
  · rw [if_pos he] at hz ⊢
    unfold floatToInt
    simp [hz, hr]
  · rw [if_neg he] at hz ⊢
    unfold floatToInt
    simp [hz, hr]

/-- The heart of the page count: a quotient `t / s` with `t` below `2 ^ 53`,
rounded to 53 bits, has the same ceiling as the exact quotient. -/
theorem ceil_rounded_quotient (t s mq : Nat) (e : Int) (ht : 0 < t) (hlt : t < 2 ^ 53)
    (hs : 0 < s)
    (hlo : (2 : ℚ) ^ 52 ≤ (t : ℚ) / (s : ℚ) * (2 : ℚ) ^ (-e))
    (hle : ∀ g : Nat, (t : ℚ) / (s : ℚ) * (2 : ℚ) ^ (-e) ≤ (g : ℚ) → mq ≤ g)
    (hup : ∀ g : Nat, (g : ℚ) + 1 / 2 < (t : ℚ) / (s : ℚ) * (2 : ℚ) ^ (-e) → g + 1 ≤ mq) :
    ⌈(mq : ℚ) * (2 : ℚ) ^ e⌉ = ⌈(t : ℚ) / (s : ℚ)⌉ := by
  have htq : (0 : ℚ) < (t : ℚ) := by exact_mod_cast ht
  have hsq : (0 : ℚ) < (s : ℚ) := by exact_mod_cast hs
  have hs1 : (1 : ℚ) ≤ (s : ℚ) := by exact_mod_cast hs
  have htlt : (t : ℚ) < (2 : ℚ) ^ 53 := by exact_mod_cast hlt
  have hy : (0 : ℚ) < (t : ℚ) / (s : ℚ) := div_pos htq hsq
  have hylt : (t : ℚ) / (s : ℚ) < (2 : ℚ) ^ 53 := by
    rw [div_lt_iff₀ hsq]
    nlinarith
  -- the scale is a non-negative power of two
  have hk : 0 ≤ -e := by
    by_contra hneg
    have := two_zpow_le_half (-e) (by omega)
    have hbad : (t : ℚ) / (s : ℚ) * (2 : ℚ) ^ (-e) < (2 : ℚ) ^ 52 := by nlinarith
    exact absurd hlo (not_le.2 hbad)
  obtain ⟨K, hK⟩ := Int.eq_ofNat_of_zero_le hk
  have he : e = -(K : Int) := by omega
  subst he
  simp only [neg_neg, zpow_natCast] at hlo hle hup
  have hP : (0 : ℚ) < (2 : ℚ) ^ K := by positivity
  rw [zpow_neg, zpow_natCast]
  -- the exact ceiling
  have hz1 : (t : ℚ) / (s : ℚ) ≤ (⌈(t : ℚ) / (s : ℚ)⌉ : ℚ) := Int.le_ceil _
  have hz2 : (⌈(t : ℚ) / (s : ℚ)⌉ : ℚ) - 1 < (t : ℚ) / (s : ℚ) := by
    have := Int.ceil_lt_add_one ((t : ℚ) / (s : ℚ))
    linarith
  have hzpos : 0 < ⌈(t : ℚ) / (s : ℚ)⌉ := Int.ceil_pos.2 hy
  generalize ⌈(t : ℚ) / (s : ℚ)⌉ = z at hz1 hz2 hzpos
  obtain ⟨zn, rfl⟩ := Int.eq_ofNat_of_zero_le (le_of_lt hzpos)
  have hzn : 1 ≤ zn := by omega
  simp only [Int.cast_natCast] at hz1 hz2
  rw [Int.ceil_eq_iff]
  simp only [Int.cast_natCast]
  constructor
  · -- the rounded quotient is above `z - 1`
    have hint : ((zn - 1 : Nat) : Int) * (s : Int) + 1 ≤ (t : Int) := by
      have h1 : ((zn : ℚ) - 1) * (s : ℚ) < (t : ℚ) := by
        rw [lt_div_iff₀ hsq] at hz2
        exact hz2
      have h2 : (((zn - 1 : Nat) : Int) * (s : Int) : ℚ) < ((t : Int) : ℚ) := by
        push_cast [Nat.cast_sub hzn]
        exact h1
      have h3 : ((zn - 1 : Nat) : Int) * (s : Int) < (t : Int) := by exact_mod_cast h2
      omega
    have hq : ((zn : ℚ) - 1) * (s : ℚ) + 1 ≤ (t : ℚ) := by
      have : (((zn - 1 : Nat) : Int) * (s : Int) + 1 : ℚ) ≤ ((t : Int) : ℚ) := by
        exact_mod_cast hint
      push_cast [Nat.cast_sub hzn] at this
      exact this
    have hy2 : (zn : ℚ) - 1 + 1 / (s : ℚ) ≤ (t : ℚ) / (s : ℚ) := by
      rw [le_div_iff₀ hsq]
      have : ((zn : ℚ) - 1 + 1 / (s : ℚ)) * (s : ℚ) = ((zn : ℚ) - 1) * (s : ℚ) + 1 := by
        field_simp
      rw [this]
      exact hq
    have hhalf : (1 : ℚ) / 2 < (2 : ℚ) ^ K / (s : ℚ) := by
      rw [lt_div_iff₀ hsq]
      have h52 : (2 : ℚ) ^ 52 * (s : ℚ) ≤ (t : ℚ) * (2 : ℚ) ^ K := by
        have := hlo
        rw [div_mul_eq_mul_div, le_div_iff₀ hsq] at this
        exact this
      nlinarith
    have hmid : (((zn - 1) * 2 ^ K : Nat) : ℚ) + 1 / 2 < (t : ℚ) / (s : ℚ) * (2 : ℚ) ^ K := by
      push_cast [Nat.cast_sub hzn]
      have : ((zn : ℚ) - 1 + 1 / (s : ℚ)) * (2 : ℚ) ^ K ≤ (t : ℚ) / (s : ℚ) * (2 : ℚ) ^ K :=
        mul_le_mul_of_nonneg_right hy2 (le_of_lt hP)
      have e2 : ((zn : ℚ) - 1 + 1 / (s : ℚ)) * (2 : ℚ) ^ K
          = ((zn : ℚ) - 1) * (2 : ℚ) ^ K + (2 : ℚ) ^ K / (s : ℚ) := by
        field_simp
        ring
      linarith
    have hm := hup _ hmid
    have hmq : (((zn - 1) * 2 ^ K + 1 : Nat) : ℚ) ≤ (mq : ℚ) := by exact_mod_cast hm
    push_cast [Nat.cast_sub hzn] at hmq
    rw [lt_mul_inv_iff₀ hP]
    linarith
  · -- the rounded quotient does not pass `z`
    have hu : (t : ℚ) / (s : ℚ) * (2 : ℚ) ^ K ≤ ((zn * 2 ^ K : Nat) : ℚ) := by
      push_cast
      exact mul_le_mul_of_nonneg_right hz1 (le_of_lt hP)
    have hm := hle _ hu
    have hmq : (mq : ℚ) ≤ ((zn * 2 ^ K : Nat) : ℚ) := by exact_mod_cast hm
    push_cast at hmq
    rw [mul_inv_le_iff₀ hP]
    exact hmq

end Syncer
namespace Syncer

/-- The page count is the exact integer ceiling of `T / S` as long as the row
count and the page size are positive and below `2 ^ 53`, where the conversion
to float64 is exact. -/
theorem maxPage_exact (implDefined : Int) (T S : Int) (hT : 0 < T) (hT2 : T < 2 ^ 53)
    (hS : 0 < S) (hS2 : S < 2 ^ 53) :
    maxPage implDefined T S = (T + S - 1) / S ∧
    ∀ page : Int, page ∈ submittedPages (maxPage implDefined T S) ↔
      1 ≤ page ∧ page ≤ (T + S - 1) / S := by
  obtain ⟨t, rfl⟩ := Int.eq_ofNat_of_zero_le (le_of_lt hT)
  obtain ⟨s, rfl⟩ := Int.eq_ofNat_of_zero_le (le_of_lt hS)
  have ht : 0 < t := by omega
  have hs : 0 < s := by omega
  have ht2 : t < 2 ^ 53 := by exact_mod_cast hT2
  have hs2 : s < 2 ^ 53 := by exact_mod_cast hS2
  obtain ⟨a, hfT⟩ := float64_exact t ht ht2
  obtain ⟨b, hfS⟩ := float64_exact s hs hs2
  have hmT : 0 < t * 2 ^ a := Nat.mul_pos ht (by positivity)
  have hmS : 0 < s * 2 ^ b := Nat.mul_pos hs (by positivity)
  obtain ⟨hlo, _, hle, _, hup⟩ := roundPos_spec (t * 2 ^ a) (s * 2 ^ b) hmT hmS
  have hsq : (s : ℚ) ≠ 0 := by exact_mod_cast (Nat.pos_iff_ne_zero.1 hs)
  have hU : ((t * 2 ^ a : Nat) : ℚ) / ((s * 2 ^ b : Nat) : ℚ)
        * (2 : ℚ) ^ (-(roundPos (t * 2 ^ a) (s * 2 ^ b)).2)
      = (t : ℚ) / (s : ℚ)
        * (2 : ℚ) ^ (-((roundPos (t * 2 ^ a) (s * 2 ^ b)).2 + -(a : Int) - -(b : Int))) := by
    have e1 : -((roundPos (t * 2 ^ a) (s * 2 ^ b)).2 + -(a : Int) - -(b : Int))
        = (a : Int) + (-(b : Int) + -(roundPos (t * 2 ^ a) (s * 2 ^ b)).2) := by ring
    rw [e1, zpow_add₀ (by norm_num), zpow_add₀ (by norm_num)]
    simp only [zpow_neg, zpow_natCast]
    push_cast
    field_simp
    ring
  rw [hU] at hlo hle hup
  have hceil := ceil_rounded_quotient t s (roundPos (t * 2 ^ a) (s * 2 ^ b)).1
    ((roundPos (t * 2 ^ a) (s * 2 ^ b)).2 + -(a : Int) - -(b : Int)) ht ht2 hs hlo hle hup
  have hc := ceil_div_eq (t : Int) (s : Int) (by omega)
  simp only [Int.cast_natCast] at hc
  rw [hc] at hceil
  have hrange : isInt64 (((t : Int) + (s : Int) - 1) / (s : Int)) := by
    have h0 : 0 ≤ ((t : Int) + (s : Int) - 1) / (s : Int) :=
      Int.ediv_nonneg (by omega) (by omega)
    have h1 : ((t : Int) + (s : Int) - 1) / (s : Int) ≤ (t : Int) + (s : Int) - 1 :=
      Int.ediv_le_self _ (by omega)
    unfold isInt64 minInt64 maxInt64
    constructor
    · omega
    · have : ((t : Int) + (s : Int) - 1) < 2 ^ 54 := by
        have e : (2 : Int) ^ 54 = 2 ^ 53 + 2 ^ 53 := by norm_num
        omega
      omega
  have hmain : maxPage implDefined (t : Int) (s : Int) = ((t : Int) + (s : Int) - 1) / (s : Int) := by
    unfold maxPage
    rw [hfT, hfS, div_finite_pos _ _ _ _ hmT hmS]
    exact floatToInt_Ceil_finite implDefined _ _ _ (by exact_mod_cast hceil) hrange
  refine ⟨hmain, ?_⟩
  intro page
  rw [hmain]
  exact (submittedPages_spec _).2 page

/-- The same on the claim's example: 95 rows in pages of 20 make 5 pages. -/
theorem maxPage_exact_witness :
    maxPage 0 95 20 = (95 + 20 - 1) / 20 ∧ (95 + 20 - 1) / 20 = (5 : Int) ∧
    ∀ page : Int, page ∈ submittedPages (maxPage 0 95 20) ↔
      1 ≤ page ∧ page ≤ (95 + 20 - 1) / 20 :=
  ⟨(maxPage_exact 0 95 20 (by decide) (by decide) (by decide) (by decide)).1, by decide,
   (maxPage_exact 0 95 20 (by decide) (by decide) (by decide) (by decide)).2⟩

end Syncer
namespace Syncer

/-- The mantissa of a rounded quotient has at most 53 bits (or is `2 ^ 53`). -/
theorem roundPos_mantissa_le (n d : Nat) (hn : 0 < n) (hd : 0 < d) :
    (roundPos n d).1 ≤ 2 ^ 53 := by
  obtain ⟨_, hhi, hle, _, _⟩ := roundPos_spec n d hn hd
  apply hle (2 ^ 53)
  push_cast
  exact le_of_lt hhi

theorem div_mantissa_le (a b : Float64) (m e : Int) (h : a.div b = .finite m e) :
    m.natAbs ≤ 2 ^ 53 := by
  cases a with
  | finite m1 e1 =>
    cases b with
    | finite m2 e2 =>
      simp only [Float64.div] at h
      split_ifs at h with h2 h1 h1
      · simp only [Float64.finite.injEq] at h
        rw [← h.1]
        simp
      · simp only [Float64.finite.injEq] at h
        rw [← h.1]
        have hr := roundPos_mantissa_le m1.natAbs m2.natAbs (Int.natAbs_pos.2 h1)
          (Int.natAbs_pos.2 h2)
        have hs1 : m1.sign.natAbs = 1 := by
          rcases lt_or_gt_of_ne h1 with hlt | hgt
          · rw [Int.sign_eq_neg_one_of_neg hlt]; rfl
          · rw [Int.sign_eq_one_of_pos hgt]; rfl
        have hs2 : m2.sign.natAbs = 1 := by
          rcases lt_or_gt_of_ne h2 with hlt | hgt
          · rw [Int.sign_eq_neg_one_of_neg hlt]; rfl
          · rw [Int.sign_eq_one_of_pos hgt]; rfl
        rw [Int.natAbs_mul, Int.natAbs_mul, hs1, hs2, Int.natAbs_ofNat]
        omega
    | inf neg => simp [Float64.div] at h
    | nan => simp [Float64.div] at h
  | inf neg => simp [Float64.div] at h
  | nan => simp [Float64.div] at h

theorem floatToInt_integer (implDefined v : Int) :
    floatToInt implDefined (.finite v 0)
      = if minInt64 ≤ v ∧ v ≤ maxInt64 then v else implDefined := by
  simp [floatToInt]

/-- The page count is never the largest integer, unless the platform's
out-of-range conversion gives it: the loop counter of line 201 cannot wrap. -/
theorem maxPage_lt_maxInt64 (implDefined total size : Int) (hd : implDefined < maxInt64) :
    maxPage implDefined total size < maxInt64 := by
  unfold maxPage
  cases hq : (float64 total).div (float64 size) with
  | inf neg => exact hd
  | nan => exact hd
  | finite m e =>
    have hm := div_mantissa_le _ _ m e hq
    have hmabs : -(2 ^ 53 : Int) ≤ m ∧ m ≤ 2 ^ 53 := by
      have h53 : ((2 ^ 53 : Nat) : Int) = 2 ^ 53 := by norm_num
      omega
    simp only [Ceil]
    by_cases he : 0 ≤ e
    · rw [if_pos he, floatToInt_integer]
      split_ifs with hr
      · obtain ⟨k, rfl⟩ := Int.eq_ofNat_of_zero_le he
        simp only [Int.toNat_ofNat] at hr ⊢
        cases k with
        | zero =>
          simp only [pow_zero, mul_one]
          unfold maxInt64
          omega
        | succ k =>
          have hodd : m * 2 ^ (k + 1) ≠ maxInt64 := by
            intro hcon
            have h2 : (m * 2 ^ (k + 1)) % 2 = 0 := by
              rw [pow_succ, ← mul_assoc]
              exact Int.mul_emod_left _ _
            rw [hcon] at h2
            unfold maxInt64 at h2
            omega
          exact lt_of_le_of_ne hr.2 hodd
      · exact hd
    · rw [if_neg he, floatToInt_integer]
      split_ifs with hr
      · have hpos : (0 : Int) < 2 ^ (-e).toNat := by positivity
        have h1 : -m / 2 ^ (-e).toNat ≥ -(2 ^ 53) - 1 := by
          have := Int.lt_ediv_add_one_mul_self (-m) hpos
          by_contra hcon
          have hlt : -m / 2 ^ (-e).toNat + 1 ≤ -(2 ^ 53) - 1 := by omega
          have h1pow : (1 : Int) ≤ 2 ^ (-e).toNat := by omega
          nlinarith
        unfold maxInt64
        omega
      · exact hd

end Syncer
namespace Syncer

theorem start_maxPage {σ : Type} (env : Env σ) (w : σ) (task : SyncerTask) (c : Ctx σ)
    (s0 : RunState σ) (hstart : SyncTask.start env w task = .pagePhase c s0) :
    c.maxPage = maxPage env.implDefined c.total task.Size := by
  unfold SyncTask.start at hstart
  split at hstart
  · exact absurd hstart (by simp)
  · simp only at hstart
    split at hstart
    · exact absurd hstart (by simp)
    · split_ifs at hstart
      split at hstart
      · exact absurd hstart (by simp)
      · split at hstart
        · exact absurd hstart (by simp)
        · simp only [Started.pagePhase.injEq] at hstart
          obtain ⟨hc, _⟩ := hstart
          subst hc
          rfl

/-- The page counter of a run that reaches the page phase stays below the
largest integer on every platform whose out-of-range float conversion does not
give the largest integer (on amd64 it gives the smallest). -/
theorem start_maxPage_lt {σ : Type} (env : Env σ) (w : σ) (task : SyncerTask) (c : Ctx σ)
    (s0 : RunState σ) (hstart : SyncTask.start env w task = .pagePhase c s0)
    (himpl : env.implDefined < maxInt64) : c.maxPage < maxInt64 := by
  rw [start_maxPage env w task c s0 hstart]
  exact maxPage_lt_maxInt64 _ _ _ himpl

end Syncer

namespace Syncer

/-- The same on a concrete run: 3 rows in pages of 1 on a platform whose
out-of-range conversion gives 0. -/
theorem start_maxPage_lt_witness : (exampleCtx 3 1 1 false).maxPage < maxInt64 :=
  start_maxPage_lt (exampleEnv 3) () (exampleTask "t" "" 1 1 false) (exampleCtx 3 1 1 false)
    (exampleStart 3) rfl (by decide)

end Syncer
namespace Syncer

/-! ## `DBTarget.SyncFrom` -/

theorem SyncFrom_upsert (config : DBTargetConfig) (data : List Row) (syncMeta : SyncMeta)
    (nowFormat : String → String) (create : Upsert → Option Error) (ht : config.Table ≠ "") :
    DBTarget.SyncFrom config data syncMeta nowFormat create =
      (some { Table := config.Table, opts := upsertOpts config,
              data := if config.VersionField ≠ "" ∨ config.SyncTimeField ≠ "" then
                data.map (stampRow config syncMeta nowFormat (layoutOf config)) else data },
       create { Table := config.Table, opts := upsertOpts config,
                data := if config.VersionField ≠ "" ∨ config.SyncTimeField ≠ "" then
                  data.map (stampRow config syncMeta nowFormat (layoutOf config)) else data }) := by
  have hl : (if config.SyncTimeFmt ≠ "" then config.SyncTimeFmt else DefaultTimeFormat) =
      layoutOf config := by
    unfold layoutOf
    by_cases h : config.SyncTimeFmt = "" <;> simp [h]
  simp only [DBTarget.SyncFrom, if_neg ht, hl]

theorem stampRow_version (config : DBTargetConfig) (syncMeta : SyncMeta)
    (nowFormat : String → String) (timeFmt : String) (row : Row) (hd : distinctFields config) :
    versionStamped config syncMeta (stampRow config syncMeta nowFormat timeFmt row) := by
  intro hv
  obtain ⟨h1, h2⟩ := hd.1 hv
  unfold stampRow
  by_cases ht : config.SyncTimeField = "" <;> by_cases hs : config.SyncStatusField = "" <;>
    simp [Row.set, hv, ht, hs, h1, h2]

theorem stampRow_syncTime (config : DBTargetConfig) (syncMeta : SyncMeta)
    (nowFormat : String → String) (timeFmt : String) (row : Row) (hd : distinctFields config) :
    config.SyncTimeField ≠ "" →
      stampRow config syncMeta nowFormat timeFmt row config.SyncTimeField =
        some (.str (nowFormat timeFmt)) := by
  intro ht
  have h2 := hd.2 ht
  unfold stampRow
  by_cases hv : config.VersionField = "" <;> by_cases hs : config.SyncStatusField = "" <;>
    simp [Row.set, hv, ht, hs, h2]

theorem stampRow_status (config : DBTargetConfig) (syncMeta : SyncMeta)
    (nowFormat : String → String) (timeFmt : String) (row : Row) :
    statusStamped config (stampRow config syncMeta nowFormat timeFmt row) := by
  intro hs
  unfold stampRow
  simp [Row.set, hs]

theorem stampRow_plain (config : DBTargetConfig) (syncMeta : SyncMeta)
    (nowFormat : String → String) (timeFmt : String) (row : Row) (k : String)
    (hk : plainColumn config k) :
    stampRow config syncMeta nowFormat timeFmt row k = row k := by
  obtain ⟨h1, h2, h3⟩ := hk
  unfold stampRow
  by_cases hv : config.VersionField = "" <;> by_cases ht : config.SyncTimeField = "" <;>
    by_cases hs : config.SyncStatusField = "" <;>
    simp [Row.set, hv, ht, hs, h1, h2, h3]

end Syncer
namespace Syncer

/-- C11, at the failing input: with the status field as the only configured
metadata field and a non-empty table, `DBTarget.SyncFrom` hands the batch to the
upsert as it came. The guard of line 102 names the version field and the
sync-time field only, so the row reaches the upsert without the active marker
in its status column, whatever the run's meta, the clock and the database. -/
theorem SyncFrom_status_alone_not_stamped (syncMeta : SyncMeta) (nowFormat : String → String)
    (create : Upsert → Option Error) :
    statusOnlyConfig.Table ≠ "" ∧
    ∃ stmt : Upsert,
      (DBTarget.SyncFrom statusOnlyConfig [nameRow "a"] syncMeta nowFormat create).1 = some stmt ∧
      stmt.data.map (fun r => r "status") = [none] ∧
      ¬ ∀ r ∈ stmt.data, Stamped statusOnlyConfig syncMeta nowFormat r := by
  refine ⟨by decide, ⟨"roles", upsertOpts statusOnlyConfig, [nameRow "a"]⟩, rfl, by decide, ?_⟩
  intro h
  have h1 := (h (nameRow "a") (List.mem_singleton.mpr rfl)).2.2
  have h2 : nameRow "a" "status" = some (Value.int 1) := h1 (by decide)
  exact absurd h2 (by decide)

/-- What `DBTarget.SyncFrom` does stamp: for a non-empty table and metadata
fields that name different columns, it issues one upsert on the configured
table, with the configured options and one row for each row of the batch, and
returns that statement's error. In every row of the upsert the version field
holds `meta.Version` when it is configured, the sync-time field holds the
current time in the layout in force when it is configured, and the status field
holds 1 when it is configured together with the version field or the sync-time
field; every other column is as it was in the batch. -/
theorem SyncFrom_stamps (config : DBTargetConfig) (data : List Row) (syncMeta : SyncMeta)
    (nowFormat : String → String) (create : Upsert → Option Error)
    (ht : config.Table ≠ "") (hd : distinctFields config) :
    ∃ stmt : Upsert,
      DBTarget.SyncFrom config data syncMeta nowFormat create = (some stmt, create stmt) ∧
      stmt.Table = config.Table ∧ stmt.opts = upsertOpts config ∧
      stmt.data.length = data.length ∧
      (∀ r ∈ stmt.data, versionStamped config syncMeta r ∧ syncTimeStamped config nowFormat r ∧
        (config.VersionField ≠ "" ∨ config.SyncTimeField ≠ "" → statusStamped config r)) ∧
      List.Forall₂ (fun r0 r => ∀ k, plainColumn config k → r k = r0 k) data stmt.data := by
  refine ⟨_, SyncFrom_upsert config data syncMeta nowFormat create ht, rfl, rfl, ?_, ?_, ?_⟩
  · by_cases hg : config.VersionField ≠ "" ∨ config.SyncTimeField ≠ ""
    · simp only [if_pos hg, List.length_map]
    · simp only [if_neg hg]
  · intro r hr
    by_cases hg : config.VersionField ≠ "" ∨ config.SyncTimeField ≠ ""
    · simp only [if_pos hg, List.mem_map] at hr
      obtain ⟨r0, _, rfl⟩ := hr
      exact ⟨stampRow_version config syncMeta nowFormat _ r0 hd,
        stampRow_syncTime config syncMeta nowFormat _ r0 hd,
        fun _ => stampRow_status config syncMeta nowFormat _ r0⟩
    · have hv : config.VersionField = "" := by
        by_contra h
        exact hg (Or.inl h)
      have hst : config.SyncTimeField = "" := by
        by_contra h
        exact hg (Or.inr h)
      exact ⟨fun h => absurd hv h, fun h => absurd hst h, fun h => absurd h hg⟩
  · by_cases hg : config.VersionField ≠ "" ∨ config.SyncTimeField ≠ ""
    · simp only [if_pos hg]
      rw [List.forall₂_map_right_iff]
      exact List.forall₂_same.mpr
        (fun r0 _ k hk => stampRow_plain config syncMeta nowFormat _ r0 k hk)
    · simp only [if_neg hg]
      exact List.forall₂_same.mpr (fun _ _ _ _ => rfl)

/-- The three stamps on `fullConfig`: a batch of two rows reaches the upsert
with version 7, the clock's reading in the default layout and status 1 in each
row, the `name` column untouched. -/
theorem SyncFrom_stamps_witness :
    fullConfig.Table ≠ "" ∧ distinctFields fullConfig ∧
    (∃ stmt : Upsert,
      DBTarget.SyncFrom fullConfig [nameRow "a", nameRow "b"] (exampleMeta 7) exampleClock
          (fun _ => none) = (some stmt, none) ∧
      stmt.Table = fullConfig.Table ∧ stmt.opts = upsertOpts fullConfig ∧
      stmt.data.length = 2 ∧
      (∀ r ∈ stmt.data, versionStamped fullConfig (exampleMeta 7) r ∧
        syncTimeStamped fullConfig exampleClock r ∧
        (fullConfig.VersionField ≠ "" ∨ fullConfig.SyncTimeField ≠ "" →
          statusStamped fullConfig r)) ∧
      List.Forall₂ (fun r0 r => ∀ k, plainColumn fullConfig k → r k = r0 k)
        [nameRow "a", nameRow "b"] stmt.data) ∧
    stampsOf (DBTarget.SyncFrom fullConfig [nameRow "a", nameRow "b"] (exampleMeta 7)
        exampleClock (fun _ => none)).1 =
      some [[some (.int 7), some (.str "2026-11-04 12:00:00"), some (.int 1), some (.str "a")],
            [some (.int 7), some (.str "2026-11-04 12:00:00"), some (.int 1), some (.str "b")]] :=
  ⟨by decide, by unfold distinctFields; decide,
    SyncFrom_stamps fullConfig [nameRow "a", nameRow "b"] (exampleMeta 7) exampleClock
      (fun _ => none) (by decide) (by unfold distinctFields; decide),
    by decide⟩

end Syncer
namespace Syncer

/-! ## `DBRegister` -/

theorem sliceFrom1_cons (b : Nat) (rest : Bytes) : sliceFrom1 (b :: rest) = .returned rest := rfl

/-- C12, at the failing input: for a URL whose connection name resolves and
whose path is empty, as `url.Parse` gives it for `db://default`, `DBRegister`
does not return the error that a table is required: line 240 slices the empty
path from index 1 and the call stops in the run-time panic
`slice bounds out of range [1:0]`, before the test of line 242 is reached. -/
theorem DBRegister_empty_path_panics {Conn : Type} (env : DBEnv Conn) (url : URL)
    (hconn : (env.GetConnection url.Host).2 = none) (hpath : url.Path = []) :
    DBRegister env url = .panicked "runtime error: slice bounds out of range [1:0]" ∧
    DBRegister env url ≠ .returned (none, some "[datasource] db table is required") := by
  have h : DBRegister env url = .panicked "runtime error: slice bounds out of range [1:0]" := by
    simp only [DBRegister, hconn, hpath, sliceFrom1]
  exact ⟨h, by rw [h]; exact fun h2 => Outcome.noConfusion h2⟩

/-- The failing input `db://default` with the connection `default` registered. -/
theorem DBRegister_empty_path_panics_witness :
    (exampleDBEnv.GetConnection urlNoPath.Host).2 = none ∧ urlNoPath.Path = [] ∧
    DBRegister exampleDBEnv urlNoPath =
      .panicked "runtime error: slice bounds out of range [1:0]" ∧
    DBRegister exampleDBEnv urlNoPath ≠
      .returned (none, some "[datasource] db table is required") :=
  ⟨by decide, rfl, DBRegister_empty_path_panics exampleDBEnv urlNoPath (by decide) rfl⟩

/-- On every URL with a non-empty path, and on every URL whose connection name
does not resolve, `DBRegister` returns: with the connection's error; with the
error that a table is required when the path is a single byte, such as `/`;
and otherwise with a datasource and no error, on the path without its first
byte as table, the `pk` of the query (`id` for none) as key column, and the
connection's handle. -/
theorem DBRegister_returns {Conn : Type} (env : DBEnv Conn) (url : URL)
    (h : (env.GetConnection url.Host).2 ≠ none ∨ url.Path ≠ []) :
    (∃ e, (env.GetConnection url.Host).2 = some e ∧
      DBRegister env url = .returned (none, some e)) ∨
    ((env.GetConnection url.Host).2 = none ∧ url.Path.length = 1 ∧
      DBRegister env url = .returned (none, some "[datasource] db table is required")) ∨
    ((env.GetConnection url.Host).2 = none ∧ 1 < url.Path.length ∧
      ∃ d : DB Conn, DBRegister env url = .returned (some d, none) ∧
        d.table = url.Path.drop 1 ∧ d.tx = (env.GetConnection url.Host).1 ∧
        d.pk = (if env.queryGet url.RawQuery (ascii "pk") = [] then ascii "id"
          else env.queryGet url.RawQuery (ascii "pk"))) := by
  cases hc : (env.GetConnection url.Host).2 with
  | some e =>
    left
    exact ⟨e, rfl, by simp only [DBRegister, hc]⟩
  | none =>
    right
    have hp : url.Path ≠ [] := by
      cases h with
      | inl h1 => exact absurd hc h1
      | inr h2 => exact h2
    cases hpath : url.Path with
    | nil => exact absurd hpath hp
    | cons b rest =>
      cases rest with
      | nil =>
        left
        refine ⟨rfl, rfl, ?_⟩
        simp only [DBRegister, hc, hpath, sliceFrom1_cons, if_pos]
      | cons b2 rest2 =>
        right
        refine ⟨rfl, by simp, ?_⟩
        have hne : (b2 :: rest2) ≠ [] := List.cons_ne_nil b2 rest2
        refine ⟨⟨(env.GetConnection url.Host).1, b2 :: rest2,
            (if env.queryGet url.RawQuery (ascii "pk") = [] then ascii "id"
              else env.queryGet url.RawQuery (ascii "pk")),
            (match GetDBModel env (env.queryGet url.RawQuery (ascii "model")) with
              | some v => v
              | none =>
                match GetDBModel env (b2 :: rest2) with
                | some v => v
                | none => Model.MapModel (b2 :: rest2))⟩, ?_, rfl, rfl, rfl⟩
        simp only [DBRegister, hc, hpath, sliceFrom1_cons, if_neg hne]

/-- The URLs `db://default/` and `db://default/users`: the first is refused for
its missing table, the second gives a datasource on table `users`, with key
column `id` and the map model of the table. -/
theorem DBRegister_returns_witness :
    ((exampleDBEnv.GetConnection urlUsers.Host).2 ≠ none ∨ urlUsers.Path ≠ []) ∧
    ((∃ e, (exampleDBEnv.GetConnection urlUsers.Host).2 = some e ∧
      DBRegister exampleDBEnv urlUsers = .returned (none, some e)) ∨
    ((exampleDBEnv.GetConnection urlUsers.Host).2 = none ∧ urlUsers.Path.length = 1 ∧
      DBRegister exampleDBEnv urlUsers =
        .returned (none, some "[datasource] db table is required")) ∨
    ((exampleDBEnv.GetConnection urlUsers.Host).2 = none ∧ 1 < urlUsers.Path.length ∧
      ∃ d : DB Nat, DBRegister exampleDBEnv urlUsers = .returned (some d, none) ∧
        d.table = urlUsers.Path.drop 1 ∧ d.tx = (exampleDBEnv.GetConnection urlUsers.Host).1 ∧
        d.pk = (if exampleDBEnv.queryGet urlUsers.RawQuery (ascii "pk") = [] then ascii "id"
          else exampleDBEnv.queryGet urlUsers.RawQuery (ascii "pk")))) ∧
    describe (DBRegister exampleDBEnv urlUsers) =
      some (ascii "users", ascii "id", .MapModel (ascii "users")) ∧
    DBRegister exampleDBEnv urlSlash =
      .returned (none, some "[datasource] db table is required") :=
  ⟨Or.inr (by decide), DBRegister_returns exampleDBEnv urlUsers (Or.inr (by decide)),
    by decide, rfl⟩

/-- A panic of the register is the outcome of `Connect`: when the locator
parses to a URL with a registered scheme whose register is `DBRegister`, whose
connection resolves and whose path is empty, `Connect` stops in the panic. -/
theorem Connect_empty_path_panics {Conn : Type} (env : DBEnv Conn)
    (Parse : Bytes → URL × Option Error) (registers : Bytes → Option (Register Conn))
    (connUrl : Bytes) (hparse : (Parse connUrl).2 = none)
    (hreg : registers (Parse connUrl).1.Scheme = some (DBRegister env))
    (hconn : (env.GetConnection (Parse connUrl).1.Host).2 = none)
    (hpath : (Parse connUrl).1.Path = []) :
    Connect Parse registers connUrl =
      .panicked "runtime error: slice bounds out of range [1:0]" := by
  simp only [Connect, hparse, hreg]
  simp only [DBRegister, hconn, hpath, sliceFrom1]

/-- The locator `db://default` on the example registry. -/
theorem Connect_empty_path_panics_witness :
    (exampleParse (ascii "db://default")).2 = none ∧
    exampleRegisters (exampleParse (ascii "db://default")).1.Scheme =
      some (DBRegister exampleDBEnv) ∧
    Connect exampleParse exampleRegisters (ascii "db://default") =
      .panicked "runtime error: slice bounds out of range [1:0]" :=
  ⟨by decide, rfl,
    Connect_empty_path_panics exampleDBEnv exampleParse exampleRegisters (ascii "db://default")
      (by decide) rfl (by decide) (by decide)⟩

end Syncer
namespace Syncer

/-! ## `time.ParseDuration`: the loop ends -/

theorem leadingInt_length (s : List Char) (x v : Nat) (rest : List Char)
    (h : leadingInt s x = some (v, rest)) : rest.length ≤ s.length := by
  induction s generalizing x with
  | nil =>
    simp only [leadingInt, Option.some.injEq, Prod.mk.injEq] at h
    rw [← h.2]
  | cons c cs ih =>
    unfold leadingInt at h
    simp only at h
    split_ifs at h
    · have := ih _ h
      simp only [List.length_cons]
      omega
    · simp only [Option.some.injEq, Prod.mk.injEq] at h
      rw [← h.2]

theorem leadingFraction_length (s : List Char) (x : Nat) (scale : Float64) (overflow : Bool) :
    (leadingFraction s x scale overflow).2.2.length ≤ s.length := by
  induction s generalizing x scale overflow with
  | nil => simp [leadingFraction]
  | cons c cs ih =>
    unfold leadingFraction
    simp only [List.length_cons]
    split_ifs
    · exact Nat.le_succ_of_le (ih _ _ _)
    · exact Nat.le_succ_of_le (ih _ _ _)
    · exact Nat.le_succ_of_le (ih _ _ _)
    · exact Nat.le_succ_of_le (ih _ _ _)
    · simp

theorem dropWhile_length_lt (p : Char → Bool) (l : List Char) (h : l.takeWhile p ≠ []) :
    (l.dropWhile p).length < l.length := by
  have h1 : (l.takeWhile p).length + (l.dropWhile p).length = l.length := by
    rw [← List.length_append, List.takeWhile_append_dropWhile]
  have h2 : 0 < (l.takeWhile p).length := List.length_pos.2 h
  omega

theorem fractionPart_length (s : List Char) : (fractionPart s).2.2.1.length ≤ s.length := by
  unfold fractionPart
  split
  · rename_i c1 t
    split_ifs
    · have := leadingFraction_length t 0 (float64 1) false
      simp only [List.length_cons]
      omega
    · exact le_refl _
  · exact le_refl _

/-- A pass of the loop of `time.ParseDuration` that does not fail consumes at
least one character. -/
theorem durationPass_length (c : Char) (cs : List Char) (d : Nat) (rest : List Char) (d1 : Nat)
    (h : durationPass c cs d = .next rest d1) : rest.length ≤ cs.length := by
  unfold durationPass at h
  split_ifs at h
  split at h
  · exact absurd h (by simp)
  · rename_i v s1 hint
    have hs1 := leadingInt_length _ _ _ _ hint
    have hfr := fractionPart_length s1
    generalize fractionPart s1 = fr at h hfr
    simp only at h
    by_cases hu : List.takeWhile isUnitChar fr.2.2.1 = []
    · rw [if_pos hu] at h
      split_ifs at h
    · have hlt := dropWhile_length_lt isUnitChar _ hu
      have fin : ∀ dd, DurationPass.next (List.dropWhile isUnitChar fr.2.2.1) dd
          = DurationPass.next rest d1 → rest.length ≤ cs.length := by
        intro dd hdd
        simp only [DurationPass.next.injEq] at hdd
        rw [← hdd.1]
        simp only [List.length_cons] at hs1
        omega
      rw [if_neg hu] at h
      split_ifs at h
      all_goals
        split at h
        · exact absurd h (by simp)
        · split_ifs at h
          all_goals exact fin _ h

/-- The loop of `time.ParseDuration` does not run out of passes: with as many
passes as the string has characters it gives what it gives with any more. -/
theorem parseDurationLoop_fuel (fuel1 fuel2 : Nat) (s : List Char) (d : Nat)
    (h1 : s.length ≤ fuel1) (h2 : s.length ≤ fuel2) :
    parseDurationLoop fuel1 s d = parseDurationLoop fuel2 s d := by
  induction fuel1 generalizing fuel2 s d with
  | zero =>
    cases s with
    | nil => cases fuel2 <;> rfl
    | cons c cs => simp at h1
  | succ n ih =>
    cases s with
    | nil => cases fuel2 <;> rfl
    | cons c cs =>
      cases fuel2 with
      | zero => simp at h2
      | succ m =>
        simp only [parseDurationLoop]
        cases hp : durationPass c cs d with
        | failed e => rfl
        | next rest d1 =>
          have hl := durationPass_length c cs d rest d1 hp
          simp only [List.length_cons] at h1 h2
          exact ih m rest d1 (by omega) (by omega)

end Syncer
